import Mathlib

/-! # TrackTuner: verification of `src/target/tracker.cpp`

A shallow embedding of the tracking engine (assignment solver, Kalman filter, track,
tracker) followed by theorems about it.

Conventions of the embedding.

* `double` values are elements of a linearly ordered field `K`; the definitions are
  executable at `K = ℚ`, and every finite `double` is a rational number.
* The arithmetic of the assignment solver (lines 46-63) rounds: every `-`, `+=` and `-=` on
  `double` is followed by the parameter `rnd : K → K`. With `rnd = roundDouble` at `K = ℚ`
  this is IEEE 754 binary64 arithmetic (round to nearest, ties to even) on finite values;
  with `rnd = id` it is exact arithmetic. Comparisons do not round.
* `Eigen::Vector3d::norm` is library code and a parameter `norm` of the tracker operations:
  `norm w` is the value of `(predicted - detections[j]).norm()` when the exact difference of
  the two vectors is `w`. With `norm = normDouble` this is the distance as computed on
  doubles (the rounded norm of the rounded difference); in exact arithmetic it is the
  Euclidean norm.
* The arithmetic of the Kalman filter is exact.
* `std::vector<T>` work arrays of the assignment solver (`u`, `v`, `p`, `way`, `minv`, `used`)
  are total functions on `Nat`; the solver only ever reads or writes indices `0..n`.
* `int` counters are `Int` (identifiers, life-cycle counters) or `Nat` (array indices).
* The two `do ... while` loops of the solver take a fuel argument; running out of fuel is
  `none`, and a loop that never ends is `none` for every fuel.
-/

namespace TrackTuner

variable {K : Type} [LinearOrderedField K]

/-! ## Assignment solver: `hungarianAlgorithm` (lines 16-81) -/

/-- The constant `const double INF = 1e9` (line 23). -/
def INF : K := 1000000000

/-- Round the positive rational `n / d` to the nearest integer, ties to the even one. -/
def roundEven (n d : Nat) : Nat :=
  let f := n / d
  let r := n % d
  if 2 * r < d then f else if d < 2 * r then f + 1 else if f % 2 = 0 then f else f + 1

/-- The number of halvings that take `n` below `2`, at most `fuel` of them; with
`fuel = n` this is the integer `k` with `2 ^ k ≤ n < 2 ^ (k + 1)`, for `n ≥ 1`. -/
def halvings : Nat → Nat → Nat
  | 0, _ => 0
  | fuel + 1, n => if n < 2 then 0 else halvings fuel (n / 2) + 1

/-- The exponent of the positive rational `n / d`: the integer `e` with
`2 ^ e ≤ n / d < 2 ^ (e + 1)`. -/
def binaryExponent (n d : Nat) : Int :=
  let k : Int := (halvings n n : Int) - (halvings d d : Int)
  if (if 0 ≤ k then decide (d * 2 ^ k.toNat ≤ n) else decide (d ≤ n * 2 ^ (-k).toNat)) then k
  else k - 1

/-- The value of a `double` operation whose exact result is the rational `x`: `x` rounded to
the nearest binary64 number, ties to the even significand (53 bits for normal numbers, the
quantum `2 ^ (-1074)` for subnormal ones). Overflow to infinity is not modelled: a result of
magnitude `2 ^ 1024` or more is rounded as if the exponent range had no upper end. -/
def roundDouble (x : ℚ) : ℚ :=
  if x.num = 0 then 0 else
    let n := x.num.natAbs
    let d := x.den
    let t : Int := 52 - max (binaryExponent n d) (-1022)
    let m : ℚ :=
      if 0 ≤ t then mkRat (roundEven (n * 2 ^ t.toNat) d) (2 ^ t.toNat)
      else ((roundEven n (d * 2 ^ (-t).toNat) * 2 ^ (-t).toNat : Nat) : ℚ)
    if 0 < x.num then m else -m

/-- Variables of the column scan `for (int j = 1; j <= n; j++)` (lines 43-56). -/
structure Scan (K : Type) where
  minv : Nat → K
  way : Nat → Nat
  delta : K
  j1 : Nat

/-- One iteration of the column scan (lines 45-55) for column `j`. The expression
`a[i0 - 1][j - 1] - u[i0] - v[j]` is two subtractions, each rounded. -/
def scanCol (rnd : K → K) (a : Nat → Nat → K) (u v : Nat → K) (used : Nat → Bool) (i0 j0 : Nat)
    (s : Scan K) (j : Nat) : Scan K :=
  if used j then s else
    let cur := rnd (rnd (a (i0 - 1) (j - 1) - u i0) - v j)
    let s1 : Scan K := if cur < s.minv j then
      { s with minv := Function.update s.minv j cur, way := Function.update s.way j j0 } else s
    if s1.minv j < s1.delta then { s1 with delta := s1.minv j, j1 := j } else s1

/-- Variables written by the adjustment loop `for (int j = 0; j <= n; j++)` (lines 57-64). -/
structure Adjust (K : Type) where
  u : Nat → K
  v : Nat → K
  minv : Nat → K

/-- One iteration of the adjustment loop (lines 58-63) for column `j`. -/
def adjustCol (rnd : K → K) (p : Nat → Nat) (used : Nat → Bool) (delta : K) (s : Adjust K)
    (j : Nat) : Adjust K :=
  if used j then
    let u1 := Function.update s.u (p j) (rnd (s.u (p j) + delta))
    { s with u := u1, v := Function.update s.v j (rnd (s.v j - delta)) }
  else { s with minv := Function.update s.minv j (rnd (s.minv j - delta)) }

/-- Variables live in the first `do ... while` loop (lines 40-66). -/
structure Search (K : Type) where
  u : Nat → K
  v : Nat → K
  p : Nat → Nat
  way : Nat → Nat
  minv : Nat → K
  used : Nat → Bool
  j0 : Nat

/-- Body of the first `do ... while` loop (lines 41-65). -/
def searchBody (rnd : K → K) (n : Nat) (a : Nat → Nat → K) (s : Search K) : Search K :=
  let used := Function.update s.used s.j0 true
  let i0 := s.p s.j0
  let sc := (List.range' 1 n).foldl (scanCol rnd a s.u s.v used i0 s.j0)
    ⟨s.minv, s.way, INF, 0⟩
  let ad := (List.range (n + 1)).foldl (adjustCol rnd s.p used sc.delta) ⟨s.u, s.v, sc.minv⟩
  { u := ad.u, v := ad.v, p := s.p, way := sc.way, minv := ad.minv, used := used, j0 := sc.j1 }

/-- The first `do ... while (p[j0] != 0)` loop (lines 40-66). -/
def searchLoop (rnd : K → K) (n : Nat) (a : Nat → Nat → K) :
    Nat → Search K → Option (Search K)
  | 0, _ => none
  | fuel + 1, s =>
    let s1 := searchBody rnd n a s
    if s1.p s1.j0 ≠ 0 then searchLoop rnd n a fuel s1 else some s1

/-- The second `do ... while (j0)` loop (lines 67-71): shift rows along the `way` chain. -/
def augmentLoop (way : Nat → Nat) : Nat → (Nat → Nat) → Nat → Option (Nat → Nat)
  | 0, _, _ => none
  | fuel + 1, p, j0 =>
    let j1 := way j0
    let p1 := Function.update p j0 (p j1)
    if j1 ≠ 0 then augmentLoop way fuel p1 j1 else some p1

/-- Variables that survive from one iteration of the outer `for` loop to the next. -/
structure Duals (K : Type) where
  u : Nat → K
  v : Nat → K
  p : Nat → Nat
  way : Nat → Nat

/-- Body of the outer loop `for (int i = 1; i <= n; i++)` (lines 36-71). -/
def addRow (rnd : K → K) (fuel n : Nat) (a : Nat → Nat → K) (d : Duals K) (i : Nat) :
    Option (Duals K) :=
  (searchLoop rnd n a fuel
    { u := d.u, v := d.v, p := Function.update d.p 0 i, way := d.way,
      minv := fun _ => INF, used := fun _ => false, j0 := 0 }).bind fun s =>
  (augmentLoop s.way fuel s.p s.j0).map fun p =>
    { u := s.u, v := s.v, p := p, way := s.way }

/-- The outer loop (lines 32-72), started from all-zero `u`, `v`, `p`, `way`. -/
def solve (rnd : K → K) (fuel n : Nat) (a : Nat → Nat → K) : Option (Duals K) :=
  (List.range' 1 n).foldl (fun acc i => acc.bind fun d => addRow rnd fuel n a d i)
    (some ⟨fun _ => 0, fun _ => 0, fun _ => 0, fun _ => 0⟩)

/-- One iteration of the read-out loop (lines 75-79). The write `assignment[p[j] - 1]` with
`p[j] = 0` is out of bounds, which is `none`. -/
def writeBack (nRows nCols : Nat) (p : Nat → Nat) (acc : Option (List Int)) (j : Nat) :
    Option (List Int) :=
  acc.bind fun assignment =>
    if p j ≤ nRows ∧ j ≤ nCols then
      (if p j = 0 then none else some (assignment.set (p j - 1) ((j : Int) - 1)))
    else some assignment

/-- The padded square matrix `a` (lines 25-30): `costMatrix` in the upper left corner,
`INF` elsewhere. -/
def padded (nRows nCols : Nat) (costMatrix : List (List K)) (i j : Nat) : K :=
  if i < nRows ∧ j < nCols then (costMatrix.getD i []).getD j INF else INF

/-- The function `hungarianAlgorithm` (lines 16-81). Reading `costMatrix[i][j]` in a row
shorter than the first row is out of bounds, which is `none`. -/
def hungarianAlgorithm (rnd : K → K) (fuel : Nat) (costMatrix : List (List K)) :
    Option (List Int) :=
  let nRows := costMatrix.length
  if nRows = 0 then some [] else
  let nCols := (costMatrix.getD 0 []).length
  if costMatrix.all (fun r => decide (nCols ≤ r.length)) then
    let n := max nRows nCols
    (solve rnd fuel n (padded nRows nCols costMatrix)).bind fun d =>
      (List.range' 1 n).foldl (writeBack nRows nCols d.p) (some (List.replicate nRows (-1)))
  else none

/-! ## Kalman filter (lines 83-129) -/

/-- The enumeration `TrackStage` (line 83). -/
inductive TrackStage where
  | INITIALIZED
  | CONFIRMED
  deriving DecidableEq, Repr

/-- The structure `TrackSettings` (lines 85-93). -/
structure TrackSettings (K : Type) where
  measurementNoise : K
  processNoise : K
  covariance : K
  distanceThreshold : K
  maxAge : Int
  minHits : Int
  maxConsecutiveMisses : Int

/-- A 3-vector (`Eigen::Vector3d`). -/
abbrev Vector3 (K : Type) := Fin 3 → K

/-- The data members of `KalmanFilter` (lines 100-105). -/
structure KalmanFilter (K : Type) where
  x : Fin 9 → K
  F : Matrix (Fin 9) (Fin 9) K
  H : Matrix (Fin 3) (Fin 9) K
  P : Matrix (Fin 9) (Fin 9) K
  Q : Matrix (Fin 9) (Fin 9) K
  R : Matrix (Fin 3) (Fin 3) K

/-- The constructor `KalmanFilter()` (lines 107-114). -/
def KalmanFilter.init : KalmanFilter K :=
  { x := 0, F := 1, H := 0, P := 1, Q := 1, R := 1 }

/-- The call `S.inverse()` in exact arithmetic: the inverse of `S` when `S` is invertible
(adjugate over determinant); for a singular `S` the value is the zero matrix. -/
def inverse (S : Matrix (Fin 3) (Fin 3) K) : Matrix (Fin 3) (Fin 3) K :=
  (S.det)⁻¹ • S.adjugate

/-- The method `KalmanFilter::predict` (lines 116-119). -/
def KalmanFilter.predict (kf : KalmanFilter K) : KalmanFilter K :=
  { kf with x := kf.F.mulVec kf.x, P := kf.F * kf.P * kf.F.transpose + kf.Q }

/-- The method `KalmanFilter::update` (lines 121-128). -/
def KalmanFilter.update (kf : KalmanFilter K) (z : Fin 3 → K) : KalmanFilter K :=
  let y := z - kf.H.mulVec kf.x
  let S := kf.H * kf.P * kf.H.transpose + kf.R
  let G := kf.P * kf.H.transpose * inverse S
  { kf with x := kf.x + G.mulVec y, P := (1 - G * kf.H) * kf.P }

/-! ## Track (lines 131-237) -/

/-- The data members of `Track` (lines 133-141). -/
structure Track (K : Type) where
  id : Int
  kalmanFilter : KalmanFilter K
  stage : TrackStage
  age : Int
  hits : Int
  hitStreak : Int
  timeSinceUpdate : Int
  consecutiveMisses : Int
  positionHistory : List (Vector3 K)

/-- An assignment `M(i, j) = c` to one coefficient of a matrix. -/
def setCoeff {m n : Nat} (M : Matrix (Fin m) (Fin n) K) (i : Fin m) (j : Fin n) (c : K) :
    Matrix (Fin m) (Fin n) K :=
  Function.update M i (Function.update (M i) j c)

/-- The matrix `F` built in lines 158-168. -/
def transitionMatrix : Matrix (Fin 9) (Fin 9) K :=
  setCoeff (setCoeff (setCoeff (setCoeff (setCoeff (setCoeff (setCoeff (setCoeff (setCoeff
    (1 : Matrix (Fin 9) (Fin 9) K) 0 3 1) 0 6 (1 / 2)) 1 4 1) 1 7 (1 / 2)) 2 5 1) 2 8 (1 / 2))
    3 6 1) 4 7 1) 5 8 1

/-- The matrix `H` built in lines 170-174. -/
def measurementMatrix : Matrix (Fin 3) (Fin 9) K :=
  setCoeff (setCoeff (setCoeff (0 : Matrix (Fin 3) (Fin 9) K) 0 0 1) 1 1 1) 2 2 1

/-- The method `Track::initializeKalmanFilter` (lines 154-183). -/
def initializeKalmanFilter (kf : KalmanFilter K) (initialPosition initialVelocity
    initialAcceleration : Vector3 K) (settings : TrackSettings K) : KalmanFilter K :=
  { x := ![initialPosition 0, initialPosition 1, initialPosition 2,
           initialVelocity 0, initialVelocity 1, initialVelocity 2,
           initialAcceleration 0, initialAcceleration 1, initialAcceleration 2]
    F := transitionMatrix
    H := measurementMatrix
    P := settings.covariance • kf.P
    Q := settings.processNoise • kf.Q
    R := settings.measurementNoise • kf.R }

/-- The constructor `Track::Track` (lines 143-152). -/
def Track.new (id : Int) (initialPosition initialVelocity initialAcceleration : Vector3 K)
    (settings : TrackSettings K) : Track K :=
  { id := id
    kalmanFilter := initializeKalmanFilter KalmanFilter.init initialPosition initialVelocity
      initialAcceleration settings
    stage := TrackStage.INITIALIZED
    age := 0
    hits := 1
    hitStreak := 0
    timeSinceUpdate := 0
    consecutiveMisses := 0
    positionHistory := [initialPosition] }

/-- The method `Track::predict` (lines 185-190): the new track and the returned state. -/
def Track.predict (t : Track K) : Track K × (Fin 9 → K) :=
  let kf := t.kalmanFilter.predict
  ({ t with kalmanFilter := kf, age := t.age + 1, consecutiveMisses := t.consecutiveMisses + 1 },
    kf.x)

/-- The method `Track::update` (lines 192-204). -/
def Track.update (t : Track K) (measurement : Vector3 K) : Track K :=
  let z : Fin 3 → K := ![measurement 0, measurement 1, measurement 2]
  let history := t.positionHistory ++ [measurement]
  { t with
    kalmanFilter := t.kalmanFilter.update z
    timeSinceUpdate := 0
    hits := t.hits + 1
    hitStreak := t.hitStreak + 1
    consecutiveMisses := 0
    positionHistory := if history.length > 5 then history.tail else history }

/-- The method `Track::getState` (line 206). -/
def Track.getState (t : Track K) : Vector3 K :=
  ![t.kalmanFilter.x 0, t.kalmanFilter.x 1, t.kalmanFilter.x 2]

/-- The method `Track::getVelocity` (line 208). -/
def Track.getVelocity (t : Track K) : Vector3 K :=
  ![t.kalmanFilter.x 3, t.kalmanFilter.x 4, t.kalmanFilter.x 5]

/-- The method `Track::getAcceleration` (lines 210-212). -/
def Track.getAcceleration (t : Track K) : Vector3 K :=
  ![t.kalmanFilter.x 6, t.kalmanFilter.x 7, t.kalmanFilter.x 8]

/-- The method `Track::getSmoothedPosition` (lines 214-223). -/
def Track.getSmoothedPosition (t : Track K) : Vector3 K :=
  let mean := t.positionHistory.foldl (fun acc pos => acc + pos) (0 : Vector3 K)
  if t.positionHistory.isEmpty then mean
  else fun i => mean i / (t.positionHistory.length : K)

/-! ## Tracker (lines 239-348) -/

/-- The data members of `Tracker` (lines 241-247). -/
structure Tracker (K : Type) where
  tracks : List (Track K)
  trackId : Int
  distanceThreshold : K
  maxAge : Int
  minHits : Int
  maxConsecutiveMisses : Int
  settings : TrackSettings K

/-- The constructor `Tracker::Tracker` (lines 249-253). -/
def Tracker.new (settings : TrackSettings K) : Tracker K :=
  { tracks := []
    trackId := 0
    distanceThreshold := settings.distanceThreshold
    maxAge := settings.maxAge
    minHits := settings.minHits
    maxConsecutiveMisses := settings.maxConsecutiveMisses
    settings := settings }

/-- The cost matrix built in lines 270-279: one row per track, one column per detection. -/
def costMatrixOf (norm : Vector3 K → K) (tracks : List (Track K))
    (detections : List (Vector3 K)) : List (List K) :=
  tracks.map fun t => detections.map fun d => norm (t.getState - d)

/-- Variables of the gating loop (lines 284-292). The field `updateCalls` is a trace and not
a program variable: it lists the calls `tracks[i].update(detections[j])` as pairs `(i, j)`,
in the order in which they are made. -/
structure Gate (K : Type) where
  tracks : List (Track K)
  assignedTracks : List Nat
  detectionAssigned : List Bool
  updateCalls : List (Nat × Nat)

/-- One iteration of the gating loop (lines 285-291) for row `i`. The comparison
`detectionIndex < costMatrix[i].size()` is between `int` and `size_t`, so it fails for every
negative `detectionIndex`. -/
def gateRow (distanceThreshold : K) (detections : List (Vector3 K))
    (costMatrix : List (List K)) (assignments : List Int) (s : Gate K) (i : Nat) : Gate K :=
  let detectionIndex := assignments.getD i (-1)
  let row := costMatrix.getD i []
  if detectionIndex ≠ -1 ∧ (0 ≤ detectionIndex ∧ detectionIndex.toNat < row.length) ∧
      row.getD detectionIndex.toNat 0 < distanceThreshold then
    { tracks := s.tracks.modify (fun t => t.update (detections.getD detectionIndex.toNat 0)) i
      assignedTracks := s.assignedTracks ++ [i]
      detectionAssigned := s.detectionAssigned.set detectionIndex.toNat true
      updateCalls := s.updateCalls ++ [(i, detectionIndex.toNat)] }
  else s

/-- The outputs of `associateDetectionsToTracks`: the tracks after the accepted updates and
the three index lists, with the trace of update calls. -/
structure Association (K : Type) where
  tracks : List (Track K)
  assignedTracks : List Nat
  unassignedTracks : List Nat
  unassignedDetections : List Nat
  updateCalls : List (Nat × Nat)

/-- The method `Tracker::associateDetectionsToTracks` (lines 255-304). -/
def associateDetectionsToTracks (rnd : K → K) (fuel : Nat) (norm : Vector3 K → K)
    (tr : Tracker K) (detections : List (Vector3 K)) : Option (Association K) :=
  if tr.tracks.isEmpty then
    some { tracks := tr.tracks, assignedTracks := [], unassignedTracks := [],
           unassignedDetections := List.range detections.length, updateCalls := [] }
  else
    let costMatrix := costMatrixOf norm tr.tracks detections
    (hungarianAlgorithm rnd fuel costMatrix).map fun assignments =>
      let g := (List.range assignments.length).foldl
        (gateRow tr.distanceThreshold detections costMatrix assignments)
        ⟨tr.tracks, [], List.replicate detections.length false, []⟩
      { tracks := g.tracks
        assignedTracks := g.assignedTracks
        unassignedTracks := (List.range g.tracks.length).filter fun i => i ∉ g.assignedTracks
        unassignedDetections := (List.range detections.length).filter
          fun j => !(g.detectionAssigned.getD j false)
        updateCalls := g.updateCalls }

/-- The method `Tracker::predictTracks` (lines 306-310). -/
def predictTracks (tr : Tracker K) : Tracker K :=
  { tr with tracks := tr.tracks.map fun t => t.predict.1 }

/-- One iteration of the spawn loop (lines 321-326). -/
def spawn (detections : List (Vector3 K)) (tr : Tracker K) (index : Nat) : Tracker K :=
  { tr with
    tracks := tr.tracks ++ [Track.new tr.trackId (detections.getD index 0) 0 0 tr.settings]
    trackId := tr.trackId + 1 }

/-- One iteration of the age-and-cull loop (lines 332-336) for index `i`. -/
def ageOrErase (maxAge maxConsecutiveMisses : Int) (tracks : List (Track K)) (i : Nat) :
    List (Track K) :=
  let tracks1 := tracks.modify (fun t => { t with timeSinceUpdate := t.timeSinceUpdate + 1 }) i
  match tracks1.get? i with
  | some t =>
    if t.timeSinceUpdate > maxAge ∨ t.consecutiveMisses > maxConsecutiveMisses then
      tracks1.eraseIdx i
    else tracks1
  | none => tracks1

/-- One iteration of the final sweep (lines 340-343). -/
def sweep (minHits : Int) (t : Track K) : Track K :=
  let t1 := if t.hits ≥ minHits ∧ t.stage = TrackStage.INITIALIZED then
    { t with stage := TrackStage.CONFIRMED } else t
  if t1.timeSinceUpdate > 1 then { t1 with hitStreak := 0 } else t1

/-- The method `Tracker::updateTracks` (lines 312-345). `std::sort` with `std::greater` is
an insertion sort into descending order. -/
def updateTracks (rnd : K → K) (fuel : Nat) (norm : Vector3 K → K) (tr : Tracker K)
    (detections : List (Vector3 K)) : Option (Tracker K) :=
  (associateDetectionsToTracks rnd fuel norm tr detections).map fun as =>
    let tr1 := as.unassignedDetections.foldl (spawn detections) { tr with tracks := as.tracks }
    let sorted := as.unassignedTracks.insertionSort (fun i j => i ≥ j)
    let tracks2 := sorted.foldl (ageOrErase tr.maxAge tr.maxConsecutiveMisses) tr1.tracks
    { tr1 with tracks := tracks2.map (sweep tr.minHits) }

/-- One frame of the loop in `runTrackerWithParameters` (lines 377-378): `predictTracks`
followed by `updateTracks`. -/
def step (rnd : K → K) (fuel : Nat) (norm : Vector3 K → K) (tr : Tracker K)
    (detections : List (Vector3 K)) : Option (Tracker K) :=
  updateTracks rnd fuel norm (predictTracks tr) detections

/-! ## Frame report (lines 385-407) -/

/-- One entry of the `tracks` array of a frame (lines 392-402). -/
structure TrackReport (K : Type) where
  id : Int
  x : K
  y : K
  z : K
  vx : K
  vy : K
  vz : K
  ax : K
  ay : K
  az : K

/-- Lines 388-402: the entry written for one track. -/
def trackJson (t : Track K) : TrackReport K :=
  let smoothed := t.getSmoothedPosition
  let velocity := t.getVelocity
  let acceleration := t.getAcceleration
  { id := t.id, x := smoothed 0, y := smoothed 1, z := smoothed 2,
    vx := velocity 0, vy := velocity 1, vz := velocity 2,
    ax := acceleration 0, ay := acceleration 1, az := acceleration 2 }

/-- Lines 385-406: the array `tracksArray` built from the tracks of the tracker. -/
def tracksArray (tr : Tracker K) : List (TrackReport K) :=
  tr.tracks.foldl
    (fun acc t => if t.stage = TrackStage.CONFIRMED then acc ++ [trackJson t] else acc) []

/-- The frame loop of `runTrackerWithParameters` (lines 365-408) on the detection lists of
the frames, taken in ascending frame order: the tracker after the last frame and the
`tracksArray` of every frame. -/
def runFrames (rnd : K → K) (fuel : Nat) (norm : Vector3 K → K) :
    Tracker K → List (List (Vector3 K)) → Option (Tracker K × List (List (TrackReport K)))
  | tr, [] => some (tr, [])
  | tr, frameDetections :: rest =>
    (step rnd fuel norm tr frameDetections).bind fun tr1 =>
      (runFrames rnd fuel norm tr1 rest).map fun r => (r.1, tracksArray tr1 :: r.2)

/-- The function `runTrackerWithParameters` (lines 350-410), without the conversion from and
to JSON: a new tracker is run over the frames. -/
def runTrackerWithParameters (rnd : K → K) (fuel : Nat) (norm : Vector3 K → K)
    (trackerSettings : TrackSettings K) (frames : List (List (Vector3 K))) :
    Option (List (List (TrackReport K))) :=
  (runFrames rnd fuel norm (Tracker.new trackerSettings) frames).map fun r => r.2

/-- The reduced cost `cur` of line 46 for column `j` in exact arithmetic. -/
def curOf (a : Nat → Nat → K) (u v : Nat → K) (i0 j : Nat) : K :=
  a (i0 - 1) (j - 1) - u i0 - v j

/-- The value `cur` computed in line 46 for column `j`, with the rounding `rnd`. -/
def curR (rnd : K → K) (a : Nat → Nat → K) (u v : Nat → K) (i0 j : Nat) : K :=
  rnd (rnd (a (i0 - 1) (j - 1) - u i0) - v j)

/-- The scan loop run over the columns `1..k`. -/
def scanTo (rnd : K → K) (a : Nat → Nat → K) (u v : Nat → K) (used : Nat → Bool)
    (i0 j0 : Nat) (minv : Nat → K) (way : Nat → Nat) (k : Nat) : Scan K :=
  (List.range' 1 k).foldl (scanCol rnd a u v used i0 j0) ⟨minv, way, INF, 0⟩

/-- The adjustment loop run over the columns `0..k-1`. -/
def adjustTo (rnd : K → K) (p : Nat → Nat) (used : Nat → Bool) (delta : K)
    (u v minv : Nat → K) (k : Nat) : Adjust K :=
  (List.range k).foldl (adjustCol rnd p used delta) ⟨u, v, minv⟩

/-- The chain `j, way j, way (way j), ...` reaches column `0`. -/
def Rooted (way : Nat → Nat) (j : Nat) : Prop := ∃ k, way^[k] j = 0

/-- Dual feasibility of the potentials on the padded matrix. -/
def Feasible (n : Nat) (a : Nat → Nat → K) (u v : Nat → K) : Prop :=
  ∀ r c, 1 ≤ r → r ≤ n → 1 ≤ c → c ≤ n → u r + v c ≤ a (r - 1) (c - 1)

/-- What the search loop needs of `p`: values in range, injective on matched columns, row of
column `0` is present, some column is free. -/
structure PGood (n : Nat) (p : Nat → Nat) : Prop where
  le : ∀ j, j ≤ n → p j ≤ n
  inj : ∀ c c1, c ≤ n → c1 ≤ n → p c = p c1 → p c ≠ 0 → c = c1
  zero : p 0 ≠ 0
  free : ∃ j, 1 ≤ j ∧ j ≤ n ∧ p j = 0

/-- Invariant of the first `do ... while` loop at the loop head; `T` is the sum of the
values of `delta` so far. -/
structure SearchInv (n : Nat) (a : Nat → Nat → K) (s : Search K) (T : K) : Prop where
  j0_le : s.j0 ≤ n
  used_le : ∀ j, s.used j = true → j ≤ n ∧ s.p j ≠ 0
  feas : Feasible n a s.u s.v
  T_nonneg : 0 ≤ T
  T_le : T ≤ INF
  minv_nonneg : ∀ j, 1 ≤ j → j ≤ n → s.used j = false → 0 ≤ s.minv j
  minv_le : ∀ j, 1 ≤ j → j ≤ n → s.used j = false → s.minv j ≤ INF - T
  relaxed : ∀ c j, s.used c = true → 1 ≤ j → j ≤ n → s.used j = false →
    s.minv j ≤ a (s.p c - 1) (j - 1) - s.u (s.p c) - s.v j
  fresh : ∀ j, 1 ≤ j → j ≤ n → s.used j = false →
    s.minv j = INF - T ∨ s.used (s.way j) = true
  minv_j0 : s.j0 ≠ 0 → s.minv s.j0 = 0
  rooted : ∀ x, Rooted s.way x
  way_le : ∀ x, s.way x ≤ n
  closed : T < INF → ∀ c, s.used c = true → c ≠ 0 → s.used (s.way c) = true
  j0_used : s.used s.j0 = true → T = INF
  j0_unused : s.j0 ≠ 0 → s.used s.j0 = false

/-- Number of columns `0..n` not yet used. -/
def unusedCount (n : Nat) (used : Nat → Bool) : Nat :=
  ((Finset.range (n + 1)).filter (fun j => used j = false)).card

/-- Termination measure of the first `do ... while` loop. -/
def searchMeasure (n : Nat) (s : Search K) : Nat :=
  2 * unusedCount n s.used + (if s.used s.j0 = true then 1 else 0)

/-- The columns `0..n` other than the hole `h` carry exactly the rows `1..i`, each once. -/
structure Matching (n : Nat) (p : Nat → Nat) (h i : Nat) : Prop where
  le : ∀ j, j ≤ n → p j ≤ i
  inj : ∀ j j1, j ≤ n → j1 ≤ n → j ≠ h → j1 ≠ h → p j = p j1 → p j ≠ 0 → j = j1
  surj : ∀ r, 1 ≤ r → r ≤ i → ∃ j, j ≤ n ∧ j ≠ h ∧ p j = r

/-- Invariant of the outer loop after `i` rows. -/
structure OuterInv (n : Nat) (a : Nat → Nat → K) (d : Duals K) (i : Nat) : Prop where
  matching : Matching n d.p 0 i
  feas : Feasible n a d.u d.v
  rooted : ∀ x, Rooted d.way x
  way_le : ∀ x, d.way x ≤ n

/-- The outer loop run over the rows `1..i`. -/
def solveTo (rnd : K → K) (fuel n : Nat) (a : Nat → Nat → K) (i : Nat) : Option (Duals K) :=
  (List.range' 1 i).foldl (fun acc i => acc.bind fun d => addRow rnd fuel n a d i)
    (some ⟨fun _ => 0, fun _ => 0, fun _ => 0, fun _ => 0⟩)

/-- The read-out loop run over the columns `1..k`. -/
def writeTo (nRows nCols : Nat) (p : Nat → Nat) (k : Nat) : Option (List Int) :=
  (List.range' 1 k).foldl (writeBack nRows nCols p) (some (List.replicate nRows (-1)))

/-! ## Closed forms of the tracker loops -/

/-- The detection accepted for row `i` by the test of lines 286-287, if any. -/
def selOf (distanceThreshold : K) (costMatrix : List (List K)) (assignments : List Int)
    (i : Nat) : Option Nat :=
  if assignments.getD i (-1) ≠ -1 ∧
      (0 ≤ assignments.getD i (-1) ∧
        (assignments.getD i (-1)).toNat < (costMatrix.getD i []).length) ∧
      (costMatrix.getD i []).getD (assignments.getD i (-1)).toNat 0 < distanceThreshold then
    some (assignments.getD i (-1)).toNat
  else none

/-- The gating loop run over the rows `0..k-1`. -/
def gateTo (distanceThreshold : K) (detections : List (Vector3 K)) (costMatrix : List (List K))
    (assignments : List Int) (tracks : List (Track K)) (k : Nat) : Gate K :=
  (List.range k).foldl (gateRow distanceThreshold detections costMatrix assignments)
    ⟨tracks, [], List.replicate detections.length false, []⟩

/-- What the gating loop does to the track of row `i` under the selection `sel`. -/
def updateSel (sel : Nat → Option Nat) (detections : List (Vector3 K)) (i : Nat) (t : Track K) :
    Track K :=
  match sel i with
  | some j => t.update (detections.getD j 0)
  | none => t

/-- The tracks after the gating loop: the tracks `i, i+1, ...` of the list are updated with
their selected detection. -/
def updateAll (sel : Nat → Option Nat) (detections : List (Vector3 K)) :
    Nat → List (Track K) → List (Track K)
  | _, [] => []
  | i, t :: ts => updateSel sel detections i t :: updateAll sel detections (i + 1) ts

/-- The indices of the detections that no row `0..m-1` selects. -/
def freeDetections (sel : Nat → Option Nat) (m : Nat) (detections : List (Vector3 K)) :
    List Nat :=
  (List.range detections.length).filter fun j => !((List.range m).any fun i => sel i == some j)

/-- The association determined by a selection `sel` of detections for the tracks. -/
def assocSpec (sel : Nat → Option Nat) (tracks : List (Track K))
    (detections : List (Vector3 K)) : Association K :=
  { tracks := updateAll sel detections 0 tracks
    assignedTracks := (List.range tracks.length).filter fun i => (sel i).isSome
    unassignedTracks := (List.range tracks.length).filter fun i => (sel i).isNone
    unassignedDetections := freeDetections sel tracks.length detections
    updateCalls := ((List.range tracks.length).filter fun i => (sel i).isSome).map
      fun i => (i, (sel i).getD 0) }

/-- The increment and the test of lines 332-334 for one track: the aged track, or nothing
when the track is erased. -/
def cullOne (maxAge maxConsecutiveMisses : Int) (t : Track K) : Option (Track K) :=
  if t.timeSinceUpdate + 1 > maxAge ∨ t.consecutiveMisses > maxConsecutiveMisses then none
  else some { t with timeSinceUpdate := t.timeSinceUpdate + 1 }

/-- The age-and-cull loop run over the indices `k-1, ..., 0` that satisfy `q`. -/
def cullTo (maxAge maxConsecutiveMisses : Int) (q : Nat → Bool) (k : Nat)
    (tracks : List (Track K)) : List (Track K) :=
  (List.range k).foldr
    (fun i acc => if q i then ageOrErase maxAge maxConsecutiveMisses acc i else acc) tracks

/-- The tracks `i, i+1, ...` after the age-and-cull loop for the indices that satisfy `q`. -/
def cullAll (maxAge maxConsecutiveMisses : Int) (q : Nat → Bool) :
    Nat → List (Track K) → List (Track K)
  | _, [] => []
  | i, t :: ts =>
    (if q i then (cullOne maxAge maxConsecutiveMisses t).toList else [t]) ++
      cullAll maxAge maxConsecutiveMisses q (i + 1) ts

/-- The tracks appended by the spawn loop for the detection indices `js`, with the
identifiers `id, id+1, ...`. -/
def spawnAll (detections : List (Vector3 K)) (settings : TrackSettings K) :
    Int → List Nat → List (Track K)
  | _, [] => []
  | id, j :: js =>
    Track.new id (detections.getD j 0) 0 0 settings :: spawnAll detections settings (id + 1) js

/-- What association and culling make of one track that was live before the frame: updated
with its selected detection, or aged and possibly erased. -/
def oldOne (maxAge maxConsecutiveMisses : Int) (sel : Nat → Option Nat)
    (detections : List (Vector3 K)) (i : Nat) (t : Track K) : Option (Track K) :=
  match sel i with
  | some j => some (t.update (detections.getD j 0))
  | none => cullOne maxAge maxConsecutiveMisses t

/-- The tracks `i, i+1, ...` that were live before the frame, after association and
culling. -/
def oldAll (maxAge maxConsecutiveMisses : Int) (sel : Nat → Option Nat)
    (detections : List (Vector3 K)) : Nat → List (Track K) → List (Track K)
  | _, [] => []
  | i, t :: ts =>
    (oldOne maxAge maxConsecutiveMisses sel detections i t).toList ++
      oldAll maxAge maxConsecutiveMisses sel detections (i + 1) ts

/-- The result of `updateTracks` under the selection `sel`. -/
def updateSpec (sel : Nat → Option Nat) (tr : Tracker K) (detections : List (Vector3 K)) :
    Tracker K :=
  { tr with
    tracks := (oldAll tr.maxAge tr.maxConsecutiveMisses sel detections 0 tr.tracks ++
      spawnAll detections tr.settings tr.trackId
        (freeDetections sel tr.tracks.length detections)).map (sweep tr.minHits)
    trackId := tr.trackId + (freeDetections sel tr.tracks.length detections).length }

/-- What one frame makes of the track with index `i` that was live before the frame:
predicted, then updated with its selected detection or aged and possibly erased, then swept. -/
def frameOne (maxAge maxConsecutiveMisses minHits : Int) (sel : Nat → Option Nat)
    (detections : List (Vector3 K)) (i : Nat) (t : Track K) : Option (Track K) :=
  (oldOne maxAge maxConsecutiveMisses sel detections i t.predict.1).map (sweep minHits)

/-- The tracks spawned in a frame under the selection `sel`, as they are after the sweep. -/
def spawnedTracks (sel : Nat → Option Nat) (tr : Tracker K) (detections : List (Vector3 K)) :
    List (Track K) :=
  (spawnAll detections tr.settings tr.trackId
    (freeDetections sel tr.tracks.length detections)).map (sweep tr.minHits)

/-- The result of one frame (`predictTracks` then `updateTracks`) under the selection `sel`. -/
def stepSpec (sel : Nat → Option Nat) (tr : Tracker K) (detections : List (Vector3 K)) :
    Tracker K :=
  { tr with
    tracks := tr.tracks.enum.filterMap
        (fun it => frameOne tr.maxAge tr.maxConsecutiveMisses tr.minHits sel detections it.1 it.2)
      ++ spawnedTracks sel tr detections
    trackId := tr.trackId + (freeDetections sel tr.tracks.length detections).length }

/-- The properties of the selection made in a frame: a selected detection exists and passes
the gate, no detection is selected twice, and when there are at least as many detections as
tracks a track without selection had a detection at or beyond the gate. -/
structure SelOK (norm : Vector3 K → K) (tr : Tracker K) (detections : List (Vector3 K))
    (sel : Nat → Option Nat) : Prop where
  gate : ∀ i j, sel i = some j → j < detections.length ∧
    ∃ t, tr.tracks[i]? = some t ∧
      norm (t.predict.1.getState - detections.getD j 0) < tr.distanceThreshold
  inj : ∀ i i1 j, sel i = some j → sel i1 = some j → i = i1
  full : tr.tracks.length ≤ detections.length → ∀ i t, tr.tracks[i]? = some t → sel i = none →
    ∃ j, j < detections.length ∧
      tr.distanceThreshold ≤ norm (t.predict.1.getState - detections.getD j 0)

/-- Trackers that a new tracker reaches by whole frames, the solver rounding with `rnd`. -/
inductive Reachable (rnd : K → K) (norm : Vector3 K → K) (settings : TrackSettings K) :
    Tracker K → Prop where
  | init : Reachable rnd norm settings (Tracker.new settings)
  | frame (tr tr1 : Tracker K) (fuel : Nat) (detections : List (Vector3 K)) :
      Reachable rnd norm settings tr → step rnd fuel norm tr detections = some tr1 →
      Reachable rnd norm settings tr1

/-- The tracker `tr1` is reached from `tr` by zero or more whole frames. -/
inductive StepsTo (rnd : K → K) (norm : Vector3 K → K) : Tracker K → Tracker K → Prop where
  | refl (tr : Tracker K) : StepsTo rnd norm tr tr
  | frame (tr tr1 tr2 : Tracker K) (fuel : Nat) (detections : List (Vector3 K)) :
      StepsTo rnd norm tr tr1 → step rnd fuel norm tr1 detections = some tr2 →
      StepsTo rnd norm tr tr2

/-- The sum of the absolute values of the coordinates, a nonnegative function that agrees
with the Euclidean norm on vectors along one axis; it instantiates `norm` in examples. -/
def norm1 (w : Vector3 K) : K := |w 0| + |w 1| + |w 2|

/-- The settings of the concrete scenarios of the specification. -/
def exampleSettings : TrackSettings ℚ :=
  { measurementNoise := 1, processNoise := 1 / 100, covariance := 10, distanceThreshold := 5,
    maxAge := 3, minHits := 3, maxConsecutiveMisses := 3 }

/-- One whole frame for a track that is left unassigned: `predict`, the increment and test
of the age-and-cull loop, the sweep; `none` when the track is erased. -/
def missFrame (maxAge maxConsecutiveMisses minHits : Int) (t : Track K) : Option (Track K) :=
  (cullOne maxAge maxConsecutiveMisses t.predict.1).map (sweep minHits)

/-- The track after `k` consecutive frames in which it is left unassigned, `none` once it
is erased. -/
def missFrames (maxAge maxConsecutiveMisses minHits : Int) : Nat → Track K → Option (Track K)
  | 0, t => some t
  | k + 1, t =>
    (missFrames maxAge maxConsecutiveMisses minHits k t).bind
      (missFrame maxAge maxConsecutiveMisses minHits)

/-- A tracker with the example settings and one track, with identifier `0`, at the origin. -/
def exampleTracker : Tracker ℚ :=
  { Tracker.new exampleSettings with
    tracks := [Track.new 0 ![0, 0, 0] 0 0 exampleSettings]
    trackId := 1 }

/-- Invariant of the trackers reached from a new tracker: identifiers increase along the
track list and lie below `trackId`, and a track is `CONFIRMED` exactly when it has at least
`minHits` hits. -/
structure TrackerInv (settings : TrackSettings K) (tr : Tracker K) : Prop where
  minHits : tr.minHits = settings.minHits
  sorted : (tr.tracks.map fun t => t.id).Sorted (fun a b => a < b)
  below : ∀ t ∈ tr.tracks, t.id < tr.trackId
  stage : ∀ t ∈ tr.tracks, (t.stage = TrackStage.CONFIRMED ↔ tr.minHits ≤ t.hits)

/-- The filter state with position `z`, velocity zero and acceleration zero. -/
def restingState (z : Vector3 K) : Fin 9 → K := ![z 0, z 1, z 2, 0, 0, 0, 0, 0, 0]

/-- An assignment of `k` of `m` rows to pairwise distinct columns among `n`, as the
specification words it: a list of length `m` with entries in `-1, 0, ..., n - 1`, of which
exactly `k` differ from `-1`, and these are pairwise distinct. -/
def IsAssignment (m n k : Nat) (assignment : List Int) : Prop :=
  assignment.length = m ∧ (∀ e ∈ assignment, -1 ≤ e ∧ e < (n : Int)) ∧
    (assignment.filter fun e => decide (e ≠ -1)).Nodup ∧
    (assignment.filter fun e => decide (e ≠ -1)).length = k

instance (m n k : Nat) (assignment : List Int) : Decidable (IsAssignment m n k assignment) := by
  unfold IsAssignment
  infer_instance


/-! ## Further definitions: example state, sequences of track operations -/

/-- The tracker with the example settings after one frame holding one detection at the
origin. -/
def exampleFrame : Tracker ℚ :=
  { Tracker.new exampleSettings with
    tracks := [sweep exampleSettings.minHits (Track.new 0 ![0, 0, 0] 0 0 exampleSettings)]
    trackId := 1 }

/-- The tracker with the example settings after one frame holding the two detections
`(0, 0, 0)` and `(10, 0, 0)`. -/
def pairFrame : Tracker ℚ :=
  { Tracker.new exampleSettings with
    tracks := [sweep exampleSettings.minHits (Track.new 0 ![0, 0, 0] 0 0 exampleSettings),
      sweep exampleSettings.minHits (Track.new 1 ![10, 0, 0] 0 0 exampleSettings)]
    trackId := 2 }

/-- The example settings with `minHits = 1`: a track is confirmed in the frame that creates
it. -/
def quickSettings : TrackSettings ℚ := { exampleSettings with minHits := 1 }

/-- The tracker with the settings `quickSettings` after one frame holding one detection at
the origin. -/
def quickFrame : Tracker ℚ :=
  { Tracker.new quickSettings with
    tracks := [sweep quickSettings.minHits (Track.new 0 ![0, 0, 0] 0 0 quickSettings)]
    trackId := 1 }

/-- A call of a method of `Track` that changes the track: `predict()` or
`update(measurement)`. -/
inductive TrackOp (K : Type) where
  | predict : TrackOp K
  | update (measurement : Vector3 K) : TrackOp K

/-- The track after one call. -/
def applyOp (t : Track K) : TrackOp K → Track K
  | TrackOp.predict => t.predict.1
  | TrackOp.update measurement => t.update measurement

/-- The track after a sequence of calls, made from left to right. -/
def runOps (t : Track K) (ops : List (TrackOp K)) : Track K :=
  ops.foldl applyOp t

/-- The measurements passed to `update` in a sequence of calls, in the order of the calls. -/
def measurements : List (TrackOp K) → List (Vector3 K)
  | [] => []
  | TrackOp.predict :: ops => measurements ops
  | TrackOp.update measurement :: ops => measurement :: measurements ops


/-! ## Structure of the covariance of the filter: definitions -/

/-- Index `3 * a + i` of the state vector as the pair (block `a`, axis `i`), where block 0
is the position, block 1 the velocity and block 2 the acceleration. -/
def idx : Fin 9 ≃ Fin 3 × Fin 3 := (finProdFinEquiv : Fin 3 × Fin 3 ≃ Fin 9).symm

/-- The 9 x 9 matrix that acts as the 3 x 3 matrix `M` on the blocks, alike on each axis and
without coupling between axes: the coefficient between the states `(a, i)` and `(b, j)` is
`M a b` when `i = j` and `0` otherwise. -/
def lift (M : Matrix (Fin 3) (Fin 3) K) : Matrix (Fin 9) (Fin 9) K :=
  (Matrix.kroneckerMap (fun a b => a * b) M (1 : Matrix (Fin 3) (Fin 3) K)).submatrix idx idx

/-- The indices of the position in the state vector. -/
def posIndex : Fin 3 → Fin 9 := ![0, 1, 2]

/-- The indices of the velocity in the state vector. -/
def velIndex : Fin 3 → Fin 9 := ![3, 4, 5]

/-- The indices of the acceleration in the state vector. -/
def accIndex : Fin 3 → Fin 9 := ![6, 7, 8]

/-- The transition of one axis: position, velocity, acceleration. -/
def transition3 : Matrix (Fin 3) (Fin 3) K := !![1, 1, 1 / 2; 0, 1, 1; 0, 0, 1]

/-- The 3 x 3 matrix with a `1` in the corner `(0, 0)` and `0` elsewhere. -/
def corner3 : Matrix (Fin 3) (Fin 3) K := !![1, 0, 0; 0, 0, 0; 0, 0, 0]

/-- The covariance of one axis after `predict`: `F M F^T + q I`. -/
def predictCov3 (M : Matrix (Fin 3) (Fin 3) K) (q : K) : Matrix (Fin 3) (Fin 3) K :=
  transition3 * M * transition3.transpose + q • (1 : Matrix (Fin 3) (Fin 3) K)

/-- The covariance of one axis after `update` with measurement noise `r`:
`(I - k h) M` with `h = (1, 0, 0)` and the gain `k = M h^T / (M 0 0 + r)`. -/
def updateCov3 (M : Matrix (Fin 3) (Fin 3) K) (r : K) : Matrix (Fin 3) (Fin 3) K :=
  (1 - (M 0 0 + r)⁻¹ • (M * corner3)) * M

/-- A symmetric positive semidefinite matrix: `A` is symmetric and `x^T A x >= 0` for
all `x`. -/
def IsPosSemidef {n : Nat} (A : Matrix (Fin n) (Fin n) K) : Prop :=
  A.IsSymm ∧ ∀ x : Fin n → K, 0 ≤ Matrix.dotProduct x (A.mulVec x)

/-- A symmetric positive definite matrix: `A` is symmetric and `x^T A x > 0` for all
`x ≠ 0`. -/
def IsPosDef {n : Nat} (A : Matrix (Fin n) (Fin n) K) : Prop :=
  A.IsSymm ∧ ∀ x : Fin n → K, x ≠ 0 → 0 < Matrix.dotProduct x (A.mulVec x)

/-- Invariant of the filter of a track: the constant matrices are the ones built by the
constructor, and the covariance is the lift of a symmetric positive semidefinite 3 x 3
matrix `M` with `M 0 0 > 0`. -/
structure FilterInv (settings : TrackSettings K) (kf : KalmanFilter K)
    (M : Matrix (Fin 3) (Fin 3) K) : Prop where
  F_eq : kf.F = transitionMatrix
  H_eq : kf.H = measurementMatrix
  Q_eq : kf.Q = settings.processNoise • (1 : Matrix (Fin 9) (Fin 9) K)
  R_eq : kf.R = settings.measurementNoise • (1 : Matrix (Fin 3) (Fin 3) K)
  P_eq : kf.P = lift M
  psd : IsPosSemidef M
  pos : 0 < M 0 0


/-! ## Tie-breaking of the solver -/

/-- Invariant of the outer loop on a matrix with constant rows (row `r` holds the value
`rho r` in every column), after row `i`: the rows `1..i` sit on the diagonal with `u` equal to
the value of the row, `way` is zero, and `v` is zero on the columns `1..n`. -/
structure PadOuter (n : Nat) (rho : Nat → K) (d : Duals K) (i : Nat) : Prop where
  p_id : ∀ j, 1 ≤ j → j ≤ i → d.p j = j
  p_free : ∀ j, i < j → j ≤ n → d.p j = 0
  way0 : ∀ j, j ≤ n → d.way j = 0
  u_row : ∀ r, 1 ≤ r → r ≤ i → d.u r = rho (r - 1)
  u_zero : ∀ r, i < r → d.u r = 0
  v_zero : ∀ j, 1 ≤ j → j ≤ n → d.v j = 0

/-- Invariant of the first `do ... while` loop on a matrix with constant rows, while row `i`
is inserted, after the first iteration: the used columns are column `0` and the columns
below `k`, the next column is `k`, and `minv` is zero on the columns `1..n`. -/
structure PadSearch (n : Nat) (rho : Nat → K) (i k : Nat) (s : Search K) : Prop where
  i_pos : 1 ≤ i
  i_le : i ≤ n
  k_le : k ≤ i
  p0 : s.p 0 = i
  p_id : ∀ j, 1 ≤ j → j < i → s.p j = j
  p_free : ∀ j, i ≤ j → j ≤ n → s.p j = 0
  way0 : ∀ j, j ≤ n → s.way j = 0
  used_iff : ∀ j, j ≤ n → (s.used j = true ↔ (j = 0 ∨ j < k))
  j0_eq : s.j0 = k
  minv0 : ∀ j, 1 ≤ j → j ≤ n → s.minv j = 0
  u_row : ∀ r, 1 ≤ r → r ≤ i → s.u r = rho (r - 1)
  u_zero : ∀ r, i < r → s.u r = 0
  v_zero : ∀ j, 1 ≤ j → j ≤ n → s.v j = 0

/-! ## The distance on doubles -/

/-- The integer square root by bits: with `r = 0` and `2 ^ (b + 1)` above the root, the
largest `s` with `s * s ≤ n`. -/
def sqrtBits : Nat → Nat → Nat → Nat
  | 0, n, r => if (r + 1) * (r + 1) ≤ n then r + 1 else r
  | b + 1, n, r =>
    sqrtBits b n (if (r + 2 ^ (b + 1)) * (r + 2 ^ (b + 1)) ≤ n then r + 2 ^ (b + 1) else r)

/-- The value of `std::sqrt` on doubles at the nonnegative rational `x`: the square root
rounded to the nearest binary64 number (a square root of a double is never subnormal). -/
def sqrtDouble (x : ℚ) : ℚ :=
  if x.num ≤ 0 then 0 else
    let n := x.num.natAbs
    let d := x.den
    let t : Int := 52 - binaryExponent n d / 2
    let a := if 0 ≤ t then n * 4 ^ t.toNat else n
    let b := if 0 ≤ t then d else d * 4 ^ (-t).toNat
    let s := sqrtBits (halvings (a / b) (a / b)) (a / b) 0
    let up : Bool :=
      decide ((2 * s + 1) * (2 * s + 1) * b < 4 * a) ||
        (decide ((2 * s + 1) * (2 * s + 1) * b = 4 * a) && decide (s % 2 = 1))
    let m := if up then s + 1 else s
    if 0 ≤ t then mkRat m (2 ^ t.toNat) else ((m * 2 ^ (-t).toNat : Nat) : ℚ)

/-- The value of `(predicted - detections[j]).norm()` on doubles as a function of the exact
difference `w` of the two vectors: the componentwise difference is rounded, and so are the
squares, their sums and the square root (`Eigen::Vector3d::norm` is library code; the
squares are added in the order of the coordinates). -/
def normDouble (w : Vector3 ℚ) : ℚ :=
  let x := roundDouble (w 0)
  let y := roundDouble (w 1)
  let z := roundDouble (w 2)
  sqrtDouble (roundDouble (roundDouble (roundDouble (x * x) + roundDouble (y * y)) +
    roundDouble (z * z)))

/-- The cost matrix `{{4.2, 0.09999999999999998, 1.2, 1.0}, {4.5, 0.2, 1.5, 1.3}}` of doubles,
each entry written as the rational it is. -/
def hangMatrix : List (List ℚ) :=
  [[4728779608739021 / 1125899906842624, 900719925474099 / 9007199254740992,
      5404319552844595 / 4503599627370496, 1],
    [9 / 2, 3602879701896397 / 18014398509481984, 3 / 2,
      5854679515581645 / 4503599627370496]]

/-- The tracker with the example settings after one frame holding the detections
`(0.5, 0, 0)` and `(0.2, 0, 0)` (as doubles). -/
def hangFrame : Tracker ℚ :=
  { Tracker.new exampleSettings with
    tracks := [sweep exampleSettings.minHits (Track.new 0 ![1 / 2, 0, 0] 0 0 exampleSettings),
      sweep exampleSettings.minHits
        (Track.new 1 ![roundDouble (1 / 5), 0, 0] 0 0 exampleSettings)]
    trackId := 2 }

/-- The detections `(4.7, 0, 0)`, `(0.4, 0, 0)`, `(1.7, 0, 0)`, `(1.5, 0, 0)` (as doubles). -/
def hangDetections : List (Vector3 ℚ) :=
  [![roundDouble (47 / 10), 0, 0], ![roundDouble (2 / 5), 0, 0], ![roundDouble (17 / 10), 0, 0],
    ![3 / 2, 0, 0]]

/-- The two detections `(0.5, 0, 0)` and `(0.2, 0, 0)` (as doubles) of the frame that leads
to `hangFrame`. -/
def hangFirst : List (Vector3 ℚ) := [![1 / 2, 0, 0], ![roundDouble (1 / 5), 0, 0]]

theorem INF_pos : (0 : K) < INF := by unfold INF; norm_num

theorem scanTo_succ (rnd : K → K) (a : Nat → Nat → K) (u v : Nat → K) (used : Nat → Bool) (i0 j0 : Nat)
    (minv : Nat → K) (way : Nat → Nat) (k : Nat) :
    scanTo rnd a u v used i0 j0 minv way (k + 1) =
      scanCol rnd a u v used i0 j0 (scanTo rnd a u v used i0 j0 minv way k) (k + 1) := by
  unfold scanTo
  rw [List.range'_concat, List.foldl_append]
  have e : 1 + 1 * k = k + 1 := by omega
  rw [e]
  rfl

theorem scan_round (rnd : K → K) (a : Nat → Nat → K) (u v : Nat → K) (used : Nat → Bool) (i0 j0 : Nat)
    (minv : Nat → K) (way : Nat → Nat) (k : Nat) :
    (∀ j, (scanTo rnd a u v used i0 j0 minv way k).minv j =
      if (1 ≤ j ∧ j ≤ k) ∧ used j = false ∧ curR rnd a u v i0 j < minv j then curR rnd a u v i0 j
      else minv j) ∧
    (∀ j, (scanTo rnd a u v used i0 j0 minv way k).way j =
      if (1 ≤ j ∧ j ≤ k) ∧ used j = false ∧ curR rnd a u v i0 j < minv j then j0 else way j) ∧
    (scanTo rnd a u v used i0 j0 minv way k).delta ≤ INF ∧
    (∀ j, 1 ≤ j → j ≤ k → used j = false →
      (scanTo rnd a u v used i0 j0 minv way k).delta ≤ (scanTo rnd a u v used i0 j0 minv way k).minv j) ∧
    (((scanTo rnd a u v used i0 j0 minv way k).j1 = 0 ∧
      (scanTo rnd a u v used i0 j0 minv way k).delta = INF) ∨
     (1 ≤ (scanTo rnd a u v used i0 j0 minv way k).j1 ∧
      (scanTo rnd a u v used i0 j0 minv way k).j1 ≤ k ∧
      used (scanTo rnd a u v used i0 j0 minv way k).j1 = false ∧
      (scanTo rnd a u v used i0 j0 minv way k).minv (scanTo rnd a u v used i0 j0 minv way k).j1 =
        (scanTo rnd a u v used i0 j0 minv way k).delta ∧
      (scanTo rnd a u v used i0 j0 minv way k).delta < INF)) := by
  induction k with
  | zero =>
    refine ⟨fun j => ?_, fun j => ?_, le_refl _, fun j h1 h2 => ?_, Or.inl ⟨rfl, rfl⟩⟩
    · rw [if_neg (by omega)]; rfl
    · rw [if_neg (by omega)]; rfl
    · omega
  | succ k ih =>
    rw [scanTo_succ]
    generalize scanTo rnd a u v used i0 j0 minv way k = sc at ih ⊢
    obtain ⟨hm, hw, hd, hle, hj⟩ := ih
    have hmk : sc.minv (k + 1) = minv (k + 1) := by
      rw [hm]; apply if_neg; omega
    have hwk : sc.way (k + 1) = way (k + 1) := by
      rw [hw]; apply if_neg; omega
    have hrange : ∀ j, j ≠ k + 1 → ((1 ≤ j ∧ j ≤ k + 1) ↔ (1 ≤ j ∧ j ≤ k)) := by
      intro j hjk; omega
    unfold scanCol
    by_cases hu : used (k + 1) = true
    · rw [if_pos hu]
      refine ⟨fun j => ?_, fun j => ?_, hd, fun j h1 h2 h3 => ?_, ?_⟩
      · rw [hm]
        by_cases hjk : j = k + 1
        · subst hjk; rw [if_neg (by omega), if_neg (by simp [hu])]
        · simp only [hrange j hjk]
      · rw [hw]
        by_cases hjk : j = k + 1
        · subst hjk; rw [if_neg (by omega), if_neg (by simp [hu])]
        · simp only [hrange j hjk]
      · by_cases hjk : j = k + 1
        · subst hjk; simp [hu] at h3
        · exact hle j h1 (by omega) h3
      · rcases hj with h | ⟨h1, h2, h3, h4, h5⟩
        · exact Or.inl h
        · exact Or.inr ⟨h1, by omega, h3, h4, h5⟩
    · rw [if_neg hu]
      have hu' : used (k + 1) = false := by simpa using hu
      by_cases hc : curR rnd a u v i0 (k + 1) < minv (k + 1)
      · have hc' : rnd (rnd (a (i0 - 1) (k + 1 - 1) - u i0) - v (k + 1)) < sc.minv (k + 1) := by
          rw [hmk]; exact hc
        simp only [hc', if_true, Function.update_same]
        have hnew : ∀ j, Function.update sc.minv (k + 1) (rnd (rnd (a (i0 - 1) (k + 1 - 1) - u i0) - v (k + 1))) j =
            if (1 ≤ j ∧ j ≤ k + 1) ∧ used j = false ∧ curR rnd a u v i0 j < minv j then
              curR rnd a u v i0 j else minv j := by
          intro j
          by_cases hjk : j = k + 1
          · subst hjk
            rw [Function.update_same, if_pos ⟨⟨by omega, le_refl _⟩, hu', hc⟩]; rfl
          · rw [Function.update_noteq hjk, hm]; simp only [hrange j hjk]
        have hnew2 : ∀ j, Function.update sc.way (k + 1) j0 j =
            if (1 ≤ j ∧ j ≤ k + 1) ∧ used j = false ∧ curR rnd a u v i0 j < minv j then
              j0 else way j := by
          intro j
          by_cases hjk : j = k + 1
          · subst hjk
            rw [Function.update_same, if_pos ⟨⟨by omega, le_refl _⟩, hu', hc⟩]
          · rw [Function.update_noteq hjk, hw]; simp only [hrange j hjk]
        by_cases hdl : rnd (rnd (a (i0 - 1) (k + 1 - 1) - u i0) - v (k + 1)) < sc.delta
        · simp only [hdl, if_true]
          refine ⟨hnew, hnew2, le_trans (le_of_lt hdl) hd, fun j h1 h2 h3 => ?_, Or.inr ⟨by omega, le_refl _, hu', ?_, lt_of_lt_of_le hdl hd⟩⟩
          · by_cases hjk : j = k + 1
            · subst hjk; rw [Function.update_same]
            · rw [Function.update_noteq hjk]
              exact le_trans (le_of_lt hdl) (hle j h1 (by omega) h3)
          · rw [Function.update_same]
        · simp only [hdl, if_false]
          refine ⟨hnew, hnew2, hd, fun j h1 h2 h3 => ?_, ?_⟩
          · by_cases hjk : j = k + 1
            · subst hjk; rw [Function.update_same]; exact not_lt.mp hdl
            · rw [Function.update_noteq hjk]
              exact hle j h1 (by omega) h3
          · rcases hj with h | ⟨h1, h2, h3, h4, h5⟩
            · exact Or.inl h
            · refine Or.inr ⟨h1, by omega, h3, ?_, h5⟩
              rw [Function.update_noteq (by omega), h4]
      · have hc' : ¬ (rnd (rnd (a (i0 - 1) (k + 1 - 1) - u i0) - v (k + 1)) < sc.minv (k + 1)) := by
          rw [hmk]; exact hc
        simp only [hc', if_false]
        have hnew : ∀ j, sc.minv j =
            if (1 ≤ j ∧ j ≤ k + 1) ∧ used j = false ∧ curR rnd a u v i0 j < minv j then
              curR rnd a u v i0 j else minv j := by
          intro j
          by_cases hjk : j = k + 1
          · subst hjk
            rw [hmk, if_neg (fun h => hc h.2.2)]
          · rw [hm]; simp only [hrange j hjk]
        have hnew2 : ∀ j, sc.way j =
            if (1 ≤ j ∧ j ≤ k + 1) ∧ used j = false ∧ curR rnd a u v i0 j < minv j then
              j0 else way j := by
          intro j
          by_cases hjk : j = k + 1
          · subst hjk
            rw [hwk, if_neg (fun h => hc h.2.2)]
          · rw [hw]; simp only [hrange j hjk]
        by_cases hdl : sc.minv (k + 1) < sc.delta
        · simp only [hdl, if_true]
          refine ⟨hnew, hnew2, le_trans (le_of_lt hdl) hd, fun j h1 h2 h3 => ?_, Or.inr ⟨by omega, le_refl _, hu', trivial, lt_of_lt_of_le hdl hd⟩⟩
          by_cases hjk : j = k + 1
          · subst hjk; exact le_refl _
          · exact le_trans (le_of_lt hdl) (hle j h1 (by omega) h3)
        · simp only [hdl, if_false]
          refine ⟨hnew, hnew2, hd, fun j h1 h2 h3 => ?_, ?_⟩
          · by_cases hjk : j = k + 1
            · subst hjk; exact not_lt.mp hdl
            · exact hle j h1 (by omega) h3
          · rcases hj with h | ⟨h1, h2, h3, h4, h5⟩
            · exact Or.inl h
            · exact Or.inr ⟨h1, by omega, h3, h4, h5⟩

theorem adjustTo_succ (rnd : K → K) (p : Nat → Nat) (used : Nat → Bool) (delta : K) (u v minv : Nat → K)
    (k : Nat) :
    adjustTo rnd p used delta u v minv (k + 1) =
      adjustCol rnd p used delta (adjustTo rnd p used delta u v minv k) k := by
  unfold adjustTo
  rw [List.range_succ, List.foldl_append]
  rfl

theorem adjust_round (rnd : K → K) (p : Nat → Nat) (used : Nat → Bool) (delta : K) (u v minv : Nat → K)
    (k : Nat)
    (hinj : ∀ c c1, c < k → c1 < k → used c = true → used c1 = true → p c = p c1 → c = c1) :
    (∀ c, (adjustTo rnd p used delta u v minv k).v c =
      if c < k ∧ used c = true then rnd (v c - delta) else v c) ∧
    (∀ j, (adjustTo rnd p used delta u v minv k).minv j =
      if j < k ∧ used j = false then rnd (minv j - delta) else minv j) ∧
    (∀ c, c < k → used c = true → (adjustTo rnd p used delta u v minv k).u (p c) =
      rnd (u (p c) + delta))  ∧
    (∀ r, (∀ c, c < k → used c = true → p c ≠ r) →
      (adjustTo rnd p used delta u v minv k).u r = u r) := by
  induction k with
  | zero =>
    refine ⟨fun c => ?_, fun j => ?_, fun c hc => ?_, fun r _ => rfl⟩
    · rw [if_neg (by omega)]; rfl
    · rw [if_neg (by omega)]; rfl
    · omega
  | succ k ih =>
    rw [adjustTo_succ]
    have ih1 := ih (fun c c1 h1 h2 => hinj c c1 (by omega) (by omega))
    generalize adjustTo rnd p used delta u v minv k = ad at ih1 ⊢
    obtain ⟨hv, hm, hu1, hu2⟩ := ih1
    have hrange : ∀ j, j ≠ k → (j < k + 1 ↔ j < k) := by
      intro j hjk; omega
    unfold adjustCol
    by_cases hk : used k = true
    · rw [if_pos hk]
      have hk0 : ad.u (p k) = u (p k) := by
        apply hu2
        intro c hc huc hpc
        have := hinj c k (by omega) (by omega) huc hk hpc
        omega
      refine ⟨fun c => ?_, fun j => ?_, fun c hc huc => ?_, fun r hr => ?_⟩
      · by_cases hck : c = k
        · subst hck
          simp only [Function.update_same]
          rw [hv, if_neg (by omega), if_pos ⟨by omega, hk⟩]
        · simp only [Function.update_noteq hck]
          rw [hv]; simp only [hrange c hck]
      · simp only []
        rw [hm]
        by_cases hjk : j = k
        · subst hjk
          rw [if_neg (by omega), if_neg (by simp [hk])]
        · simp only [hrange j hjk]
      · simp only []
        by_cases hck : c = k
        · subst hck
          rw [Function.update_same, hk0]
        · have hne : p c ≠ p k := by
            intro hpc
            exact hck (hinj c k hc (by omega) huc hk hpc)
          rw [Function.update_noteq hne]
          exact hu1 c (by omega) huc
      · simp only []
        have hne : r ≠ p k := fun h => hr k (by omega) hk h.symm
        rw [Function.update_noteq hne]
        exact hu2 r (fun c hc huc => hr c (by omega) huc)
    · rw [if_neg hk]
      have hk' : used k = false := by simpa using hk
      refine ⟨fun c => ?_, fun j => ?_, fun c hc huc => ?_, fun r hr => ?_⟩
      · simp only []
        rw [hv]
        by_cases hck : c = k
        · subst hck
          rw [if_neg (by omega), if_neg (by simp [hk'])]
        · simp only [hrange c hck]
      · by_cases hjk : j = k
        · subst hjk
          simp only [Function.update_same]
          rw [hm, if_neg (by omega), if_pos ⟨by omega, hk'⟩]
        · simp only [Function.update_noteq hjk]
          rw [hm]; simp only [hrange j hjk]
      · simp only []
        have hck : c ≠ k := by
          intro h; subst h; rw [hk'] at huc; exact Bool.noConfusion huc
        exact hu1 c (by omega) huc
      · simp only []
        exact hu2 r (fun c hc huc => hr c (by omega) huc)


/-- The scan in exact arithmetic. -/
theorem scan_spec (a : Nat → Nat → K) (u v : Nat → K) (used : Nat → Bool) (i0 j0 : Nat)
    (minv : Nat → K) (way : Nat → Nat) (k : Nat) :
    (∀ j, (scanTo id a u v used i0 j0 minv way k).minv j =
      if (1 ≤ j ∧ j ≤ k) ∧ used j = false ∧ curOf a u v i0 j < minv j then curOf a u v i0 j
      else minv j) ∧
    (∀ j, (scanTo id a u v used i0 j0 minv way k).way j =
      if (1 ≤ j ∧ j ≤ k) ∧ used j = false ∧ curOf a u v i0 j < minv j then j0 else way j) ∧
    (scanTo id a u v used i0 j0 minv way k).delta ≤ INF ∧
    (∀ j, 1 ≤ j → j ≤ k → used j = false →
      (scanTo id a u v used i0 j0 minv way k).delta ≤ (scanTo id a u v used i0 j0 minv way k).minv j) ∧
    (((scanTo id a u v used i0 j0 minv way k).j1 = 0 ∧
      (scanTo id a u v used i0 j0 minv way k).delta = INF) ∨
     (1 ≤ (scanTo id a u v used i0 j0 minv way k).j1 ∧
      (scanTo id a u v used i0 j0 minv way k).j1 ≤ k ∧
      used (scanTo id a u v used i0 j0 minv way k).j1 = false ∧
      (scanTo id a u v used i0 j0 minv way k).minv (scanTo id a u v used i0 j0 minv way k).j1 =
        (scanTo id a u v used i0 j0 minv way k).delta ∧
      (scanTo id a u v used i0 j0 minv way k).delta < INF)) :=
  scan_round id a u v used i0 j0 minv way k

/-- The adjustment in exact arithmetic. -/
theorem adjust_spec (p : Nat → Nat) (used : Nat → Bool) (delta : K) (u v minv : Nat → K)
    (k : Nat)
    (hinj : ∀ c c1, c < k → c1 < k → used c = true → used c1 = true → p c = p c1 → c = c1) :
    (∀ c, (adjustTo id p used delta u v minv k).v c =
      if c < k ∧ used c = true then v c - delta else v c) ∧
    (∀ j, (adjustTo id p used delta u v minv k).minv j =
      if j < k ∧ used j = false then minv j - delta else minv j) ∧
    (∀ c, c < k → used c = true → (adjustTo id p used delta u v minv k).u (p c) = u (p c) + delta) ∧
    (∀ r, (∀ c, c < k → used c = true → p c ≠ r) →
      (adjustTo id p used delta u v minv k).u r = u r) :=
  adjust_round id p used delta u v minv k hinj

theorem rooted_step {way : Nat → Nat} {x : Nat} (h : Rooted way x) :
    x = 0 ∨ Rooted way (way x) := by
  obtain ⟨k, hk⟩ := h
  cases k with
  | zero => exact Or.inl hk
  | succ k => exact Or.inr ⟨k, by rwa [Function.iterate_succ_apply] at hk⟩

theorem rooted_of_next {way : Nat → Nat} {x : Nat} (h : Rooted way (way x)) : Rooted way x := by
  obtain ⟨k, hk⟩ := h
  exact ⟨k + 1, by rwa [Function.iterate_succ_apply]⟩

theorem rooted_zero (way : Nat → Nat) : Rooted way 0 := ⟨0, rfl⟩

/-- Redirecting columns outside a closed set `U` to a column of `U` keeps every chain rooted. -/
theorem rooted_redirect (way way1 : Nat → Nat) (U : Nat → Bool) (j0 : Nat)
    (hclosed : ∀ c, U c = true → c ≠ 0 → U (way c) = true)
    (hj0 : U j0 = true)
    (hroot : ∀ x, Rooted way x)
    (hw : ∀ j, way1 j = way j ∨ (way1 j = j0 ∧ U j = false)) :
    ∀ x, Rooted way1 x := by
  have hin : ∀ k c, U c = true → way^[k] c = 0 → Rooted way1 c := by
    intro k
    induction k with
    | zero => intro c _ h0; exact ⟨0, h0⟩
    | succ k ih =>
      intro c hc h0
      by_cases hc0 : c = 0
      · subst hc0; exact rooted_zero way1
      · rw [Function.iterate_succ_apply] at h0
        have h1 := ih (way c) (hclosed c hc hc0) h0
        have h2 : way1 c = way c := by
          rcases hw c with h | ⟨_, h⟩
          · exact h
          · rw [hc] at h; exact Bool.noConfusion h
        apply rooted_of_next
        rw [h2]; exact h1
  have hall : ∀ k x, way^[k] x = 0 → Rooted way1 x := by
    intro k
    induction k with
    | zero => intro x h0; exact ⟨0, h0⟩
    | succ k ih =>
      intro x h0
      rw [Function.iterate_succ_apply] at h0
      apply rooted_of_next
      rcases hw x with h | ⟨h, _⟩
      · rw [h]; exact ih (way x) h0
      · rw [h]
        obtain ⟨k0, hk0⟩ := hroot j0
        exact hin k0 j0 hj0 hk0
  intro x
  obtain ⟨k, hk⟩ := hroot x
  exact hall k x hk

theorem unusedCount_mark_lt (n : Nat) (used : Nat → Bool) (j0 : Nat) (hj : j0 ≤ n)
    (hu : used j0 = false) :
    unusedCount n (Function.update used j0 true) < unusedCount n used := by
  unfold unusedCount
  apply Finset.card_lt_card
  rw [Finset.ssubset_iff_of_subset]
  · refine ⟨j0, ?_, ?_⟩
    · simp [hu]; omega
    · simp
  · intro x hx
    simp only [Finset.mem_filter, Finset.mem_range] at hx ⊢
    refine ⟨hx.1, ?_⟩
    by_cases hxj : x = j0
    · subst hxj; simp at hx
    · rw [Function.update_noteq hxj] at hx; exact hx.2

theorem searchBody_eq (rnd : K → K) (n : Nat) (a : Nat → Nat → K) (s : Search K) :
    searchBody rnd n a s =
      { u := (adjustTo rnd s.p (Function.update s.used s.j0 true)
              (scanTo rnd a s.u s.v (Function.update s.used s.j0 true) (s.p s.j0) s.j0 s.minv s.way
                n).delta s.u s.v
              (scanTo rnd a s.u s.v (Function.update s.used s.j0 true) (s.p s.j0) s.j0 s.minv s.way
                n).minv (n + 1)).u
        v := (adjustTo rnd s.p (Function.update s.used s.j0 true)
              (scanTo rnd a s.u s.v (Function.update s.used s.j0 true) (s.p s.j0) s.j0 s.minv s.way
                n).delta s.u s.v
              (scanTo rnd a s.u s.v (Function.update s.used s.j0 true) (s.p s.j0) s.j0 s.minv s.way
                n).minv (n + 1)).v
        p := s.p
        way := (scanTo rnd a s.u s.v (Function.update s.used s.j0 true) (s.p s.j0) s.j0 s.minv
              s.way n).way
        minv := (adjustTo rnd s.p (Function.update s.used s.j0 true)
              (scanTo rnd a s.u s.v (Function.update s.used s.j0 true) (s.p s.j0) s.j0 s.minv s.way
                n).delta s.u s.v
              (scanTo rnd a s.u s.v (Function.update s.used s.j0 true) (s.p s.j0) s.j0 s.minv s.way
                n).minv (n + 1)).minv
        used := Function.update s.used s.j0 true
        j0 := (scanTo rnd a s.u s.v (Function.update s.used s.j0 true) (s.p s.j0) s.j0 s.minv
              s.way n).j1 } := rfl

theorem searchBody_inv (n : Nat) (a : Nat → Nat → K) (s : Search K) (T : K)
    (hp : PGood n s.p) (hinv : SearchInv n a s T) (hpj0 : s.p s.j0 ≠ 0) :
    (∃ T1, SearchInv n a (searchBody id n a s) T1) ∧ (searchBody id n a s).p = s.p ∧
      searchMeasure n (searchBody id n a s) < searchMeasure n s := by
  rw [searchBody_eq]
  have hU : ∀ j, Function.update s.used s.j0 true j = true ↔ (j = s.j0 ∨ s.used j = true) := by
    intro j
    by_cases hj : j = s.j0
    · subst hj; simp
    · rw [Function.update_noteq hj]; simp [hj]
  have hU' : ∀ j, Function.update s.used s.j0 true j = false ↔ (j ≠ s.j0 ∧ s.used j = false) := by
    intro j
    by_cases hj : j = s.j0
    · subst hj; simp
    · rw [Function.update_noteq hj]; simp [hj]
  generalize hused : Function.update s.used s.j0 true = used1 at hU hU'
  have hUle : ∀ j, used1 j = true → j ≤ n ∧ s.p j ≠ 0 := by
    intro j hj
    rcases (hU j).1 hj with h | h
    · subst h; exact ⟨hinv.j0_le, hpj0⟩
    · exact hinv.used_le j h
  have hi0 : 1 ≤ s.p s.j0 ∧ s.p s.j0 ≤ n := ⟨Nat.pos_of_ne_zero hpj0, hp.le _ hinv.j0_le⟩
  have hcur : ∀ j, 1 ≤ j → j ≤ n → 0 ≤ curOf a s.u s.v (s.p s.j0) j := by
    intro j h1 h2
    have := hinv.feas (s.p s.j0) j hi0.1 hi0.2 h1 h2
    unfold curOf; linarith
  have hinj1 : ∀ c c1, c < n + 1 → c1 < n + 1 → used1 c = true → used1 c1 = true →
      s.p c = s.p c1 → c = c1 := by
    intro c c1 h1 h2 h3 h4 h5
    exact hp.inj c c1 (by omega) (by omega) h5 (hUle c h3).2
  obtain ⟨hm, hw, hd, hle, hj⟩ := scan_spec a s.u s.v used1 (s.p s.j0) s.j0 s.minv s.way n
  generalize scanTo id a s.u s.v used1 (s.p s.j0) s.j0 s.minv s.way n = sc at hm hw hd hle hj ⊢
  obtain ⟨hv, hmv, hu1, hu2⟩ := adjust_spec s.p used1 sc.delta s.u s.v sc.minv (n + 1) hinj1
  generalize adjustTo id s.p used1 sc.delta s.u s.v sc.minv (n + 1) = ad at hv hmv hu1 hu2 ⊢
  -- scan facts
  have hsm_cases : ∀ j, 1 ≤ j → j ≤ n → used1 j = false →
      (sc.minv j = s.minv j ∧ sc.way j = s.way j ∧ s.minv j ≤ curOf a s.u s.v (s.p s.j0) j) ∨
      (sc.minv j = curOf a s.u s.v (s.p s.j0) j ∧ sc.way j = s.j0 ∧
        curOf a s.u s.v (s.p s.j0) j < s.minv j) := by
    intro j h1 h2 h3
    by_cases hc : curOf a s.u s.v (s.p s.j0) j < s.minv j
    · right
      refine ⟨?_, ?_, hc⟩
      · rw [hm, if_pos ⟨⟨h1, h2⟩, h3, hc⟩]
      · rw [hw, if_pos ⟨⟨h1, h2⟩, h3, hc⟩]
    · left
      refine ⟨?_, ?_, not_lt.mp hc⟩
      · rw [hm, if_neg (fun h => hc h.2.2)]
      · rw [hw, if_neg (fun h => hc h.2.2)]
  have hsw_used : ∀ j, used1 j = true → sc.way j = s.way j := by
    intro j h
    rw [hw, if_neg]
    intro h2; rw [h] at h2; exact Bool.noConfusion h2.2.1
  have hsw_range : ∀ j, ¬ (1 ≤ j ∧ j ≤ n) → sc.way j = s.way j := by
    intro j h
    rw [hw, if_neg]
    intro h2; exact h h2.1
  have hunused_old : ∀ j, used1 j = false → s.used j = false := fun j h => ((hU' j).1 h).2
  have hsm_le : ∀ j, 1 ≤ j → j ≤ n → used1 j = false → sc.minv j ≤ s.minv j := by
    intro j h1 h2 h3
    rcases hsm_cases j h1 h2 h3 with ⟨h, _, _⟩ | ⟨h, _, h4⟩
    · exact le_of_eq h
    · rw [h]; exact le_of_lt h4
  have hsm_cur : ∀ j, 1 ≤ j → j ≤ n → used1 j = false →
      sc.minv j ≤ curOf a s.u s.v (s.p s.j0) j := by
    intro j h1 h2 h3
    rcases hsm_cases j h1 h2 h3 with ⟨h, _, h4⟩ | ⟨h, _, _⟩
    · rw [h]; exact h4
    · exact le_of_eq h
  have hsm_nn : ∀ j, 1 ≤ j → j ≤ n → used1 j = false → 0 ≤ sc.minv j := by
    intro j h1 h2 h3
    rcases hsm_cases j h1 h2 h3 with ⟨h, _, _⟩ | ⟨h, _, _⟩
    · rw [h]; exact hinv.minv_nonneg j h1 h2 (hunused_old j h3)
    · rw [h]; exact hcur j h1 h2
  -- a free column
  obtain ⟨jf, hjf1, hjf2, hjf3⟩ := hp.free
  have hjfu : used1 jf = false := by
    by_contra h
    have h1 : used1 jf = true := by simpa using h
    exact (hUle jf h1).2 hjf3
  have hdnn : 0 ≤ sc.delta := by
    rcases hj with ⟨_, h⟩ | ⟨h1, h2, h3, h4, _⟩
    · rw [h]; exact le_of_lt INF_pos
    · rw [← h4]; exact hsm_nn _ h1 h2 h3
  have hdT : T + sc.delta ≤ INF := by
    have h1 := hle jf hjf1 hjf2 hjfu
    have h2 := hsm_le jf hjf1 hjf2 hjfu
    have h3 := hinv.minv_le jf hjf1 hjf2 (hunused_old jf hjfu)
    linarith
  -- adjustment facts
  have hadv_used : ∀ c, c ≤ n → used1 c = true → ad.v c = s.v c - sc.delta := by
    intro c h1 h2
    rw [hv, if_pos ⟨by omega, h2⟩]
  have hadv_unused : ∀ c, used1 c = false → ad.v c = s.v c := by
    intro c h
    rw [hv, if_neg]
    intro h2; rw [h] at h2; exact Bool.noConfusion h2.2
  have hadm : ∀ j, j ≤ n → used1 j = false → ad.minv j = sc.minv j - sc.delta := by
    intro j h1 h2
    rw [hmv, if_pos ⟨by omega, h2⟩]
  have hadu_used : ∀ c, used1 c = true → ad.u (s.p c) = s.u (s.p c) + sc.delta := by
    intro c h
    exact hu1 c (by have := (hUle c h).1; omega) h
  have hadu_unused : ∀ r, (∀ c, used1 c = true → s.p c ≠ r) → ad.u r = s.u r := by
    intro r h
    exact hu2 r (fun c _ hc => h c hc)
  refine ⟨⟨T + sc.delta, ?_⟩, rfl, ?_⟩
  · constructor
    · -- j0_le
      show sc.j1 ≤ n
      rcases hj with ⟨h, _⟩ | ⟨_, h, _⟩
      · omega
      · exact h
    · -- used_le
      exact hUle
    · -- feas
      intro r c hr1 hr2 hc1 hc2
      show ad.u r + ad.v c ≤ a (r - 1) (c - 1)
      have hf := hinv.feas r c hr1 hr2 hc1 hc2
      by_cases hru : ∃ c0, used1 c0 = true ∧ s.p c0 = r
      · obtain ⟨c0, hc0, hpc0⟩ := hru
        have hur : ad.u r = s.u r + sc.delta := by rw [← hpc0]; exact hadu_used c0 hc0
        by_cases hcu : used1 c = true
        · rw [hur, hadv_used c hc2 hcu]; linarith
        · have hcu' : used1 c = false := by simpa using hcu
          rw [hur, hadv_unused c hcu']
          have h1 := hle c hc1 hc2 hcu'
          have h2 : sc.minv c ≤ a (r - 1) (c - 1) - s.u r - s.v c := by
            rcases (hU c0).1 hc0 with h | h
            · have := hsm_cur c hc1 hc2 hcu'
              unfold curOf at this
              rw [← hpc0, h]; exact this
            · have h3 := hinv.relaxed c0 c h hc1 hc2 (hunused_old c hcu')
              rw [hpc0] at h3
              exact le_trans (hsm_le c hc1 hc2 hcu') h3
          linarith
      · have hur : ad.u r = s.u r :=
          hadu_unused r (fun c0 hc0 hpc0 => hru ⟨c0, hc0, hpc0⟩)
        by_cases hcu : used1 c = true
        · rw [hur, hadv_used c hc2 hcu]; linarith
        · have hcu' : used1 c = false := by simpa using hcu
          rw [hur, hadv_unused c hcu']; exact hf
    · -- T_nonneg
      have := hinv.T_nonneg; linarith
    · exact hdT
    · -- minv_nonneg
      intro j h1 h2 h3
      show 0 ≤ ad.minv j
      rw [hadm j h2 h3]
      have := hle j h1 h2 h3
      linarith
    · -- minv_le
      intro j h1 h2 h3
      show ad.minv j ≤ INF - (T + sc.delta)
      rw [hadm j h2 h3]
      have h4 := hsm_le j h1 h2 h3
      have h5 := hinv.minv_le j h1 h2 (hunused_old j h3)
      linarith
    · -- relaxed
      intro c j hc h1 h2 h3
      show ad.minv j ≤ a (s.p c - 1) (j - 1) - ad.u (s.p c) - ad.v j
      rw [hadm j h2 h3, hadu_used c hc, hadv_unused j h3]
      have h4 : sc.minv j ≤ a (s.p c - 1) (j - 1) - s.u (s.p c) - s.v j := by
        rcases (hU c).1 hc with h | h
        · have := hsm_cur j h1 h2 h3
          unfold curOf at this
          rw [h]; exact this
        · exact le_trans (hsm_le j h1 h2 h3) (hinv.relaxed c j h h1 h2 (hunused_old j h3))
      linarith
    · -- fresh
      intro j h1 h2 h3
      show ad.minv j = INF - (T + sc.delta) ∨ used1 (sc.way j) = true
      rcases hsm_cases j h1 h2 h3 with ⟨h4, h5, _⟩ | ⟨_, h5, _⟩
      · rcases hinv.fresh j h1 h2 (hunused_old j h3) with h6 | h6
        · left; rw [hadm j h2 h3, h4, h6]; ring
        · right; rw [h5]; exact (hU _).2 (Or.inr h6)
      · right; rw [h5]; exact (hU _).2 (Or.inl rfl)
    · -- minv_j0
      intro h0
      show ad.minv sc.j1 = 0
      rcases hj with ⟨h, _⟩ | ⟨h1, h2, h3, h4, _⟩
      · exact absurd h h0
      · rw [hadm _ h2 h3, h4]; ring
    · -- rooted
      show ∀ x, Rooted sc.way x
      by_cases hT : T < INF
      · apply rooted_redirect s.way sc.way used1 s.j0
        · intro c hc hc0
          rcases (hU c).1 hc with h | h
          · have hju := hinv.j0_unused (h ▸ hc0)
            have hjle := hinv.j0_le
            have hm0 := hinv.minv_j0 (h ▸ hc0)
            rcases hinv.fresh s.j0 (Nat.pos_of_ne_zero (h ▸ hc0)) hjle hju with h6 | h6
            · rw [hm0] at h6
              exact absurd (by linarith : T = INF) (ne_of_lt hT)
            · rw [h]; exact (hU _).2 (Or.inr h6)
          · exact (hU _).2 (Or.inr (hinv.closed hT c h hc0))
        · exact (hU _).2 (Or.inl rfl)
        · exact hinv.rooted
        · intro j
          by_cases hr : 1 ≤ j ∧ j ≤ n
          · by_cases hju : used1 j = true
            · exact Or.inl (hsw_used j hju)
            · have hju' : used1 j = false := by simpa using hju
              rcases hsm_cases j hr.1 hr.2 hju' with ⟨_, h5, _⟩ | ⟨_, h5, _⟩
              · exact Or.inl h5
              · exact Or.inr ⟨h5, hju'⟩
          · exact Or.inl (hsw_range j hr)
      · have hTe : T = INF := le_antisymm hinv.T_le (not_lt.mp hT)
        have hsame : ∀ j, sc.way j = s.way j := by
          intro j
          by_cases hr : 1 ≤ j ∧ j ≤ n
          · by_cases hju : used1 j = true
            · exact hsw_used j hju
            · have hju' : used1 j = false := by simpa using hju
              rcases hsm_cases j hr.1 hr.2 hju' with ⟨_, h5, _⟩ | ⟨_, _, h6⟩
              · exact h5
              · have h7 := hinv.minv_le j hr.1 hr.2 (hunused_old j hju')
                have h8 := hcur j hr.1 hr.2
                rw [hTe] at h7
                linarith
          · exact hsw_range j hr
        intro x
        have : sc.way = s.way := funext hsame
        rw [this]; exact hinv.rooted x
    · -- way_le
      intro x
      show sc.way x ≤ n
      rw [hw]
      split
      · exact hinv.j0_le
      · exact hinv.way_le x
    · -- closed
      intro hT1 c hc hc0
      show used1 (sc.way c) = true
      have hT : T < INF := by linarith
      rw [hsw_used c hc]
      rcases (hU c).1 hc with h | h
      · have hju := hinv.j0_unused (h ▸ hc0)
        have hm0 := hinv.minv_j0 (h ▸ hc0)
        rcases hinv.fresh s.j0 (Nat.pos_of_ne_zero (h ▸ hc0)) hinv.j0_le hju with h6 | h6
        · rw [hm0] at h6
          exact absurd (by linarith : T = INF) (ne_of_lt hT)
        · rw [h]; exact (hU _).2 (Or.inr h6)
      · exact (hU _).2 (Or.inr (hinv.closed hT c h hc0))
    · -- j0_used
      intro hu
      show T + sc.delta = INF
      rcases hj with ⟨_, h⟩ | ⟨_, _, h3, _, _⟩
      · rw [h] at hdT ⊢
        have := hinv.T_nonneg
        have : T = 0 := le_antisymm (by linarith) this
        rw [this]; ring
      · have hu' : used1 sc.j1 = true := hu
        rw [h3] at hu'; exact Bool.noConfusion hu'
    · -- j0_unused
      intro h0
      show used1 sc.j1 = false
      rcases hj with ⟨h, _⟩ | ⟨_, _, h3, _, _⟩
      · exact absurd h h0
      · exact h3
  · -- measure
    unfold searchMeasure
    show 2 * unusedCount n used1 + (if used1 sc.j1 = true then 1 else 0) <
      2 * unusedCount n s.used + (if s.used s.j0 = true then 1 else 0)
    by_cases hju : s.used s.j0 = true
    · have hTe := hinv.j0_used hju
      have hsame : used1 = s.used := by
        rw [← hused]
        funext j
        by_cases h : j = s.j0
        · subst h; rw [Function.update_same, hju]
        · rw [Function.update_noteq h]
      have hj1 : used1 sc.j1 = false := by
        rcases hj with ⟨_, h⟩ | ⟨_, _, h3, _, _⟩
        · have h1 := hle jf hjf1 hjf2 hjfu
          have h2 := hsm_le jf hjf1 hjf2 hjfu
          have h3 := hinv.minv_le jf hjf1 hjf2 (hunused_old jf hjfu)
          have := INF_pos (K := K)
          rw [h] at h1; rw [hTe] at h3
          linarith
        · exact h3
      rw [hj1, hsame, if_pos hju]
      simp
    · have hju' : s.used s.j0 = false := by simpa using hju
      have := unusedCount_mark_lt n s.used s.j0 hinv.j0_le hju'
      rw [hused] at this
      rw [if_neg hju]
      split <;> omega

theorem searchLoop_terminates (n : Nat) (a : Nat → Nat → K) :
    ∀ (m : Nat) (s : Search K) (T : K), searchMeasure n s ≤ m → PGood n s.p →
      SearchInv n a s T → s.p s.j0 ≠ 0 →
      ∃ f0 s1, (∀ f, f0 ≤ f → searchLoop id n a f s = some s1) ∧
        (∃ T1, SearchInv n a s1 T1) ∧ s1.p = s.p ∧ s1.p s1.j0 = 0 := by
  intro m
  induction m with
  | zero =>
    intro s T hm hp hinv hpj
    have := (searchBody_inv n a s T hp hinv hpj).2.2
    omega
  | succ m ih =>
    intro s T hm hp hinv hpj
    obtain ⟨⟨T1, hinv1⟩, hp1, hlt⟩ := searchBody_inv n a s T hp hinv hpj
    by_cases hc : (searchBody id n a s).p (searchBody id n a s).j0 ≠ 0
    · obtain ⟨f0, s2, hf, hinv2, hp2, hz⟩ :=
        ih (searchBody id n a s) T1 (by omega) (hp1 ▸ hp) hinv1 hc
      refine ⟨f0 + 1, s2, ?_, hinv2, hp2.trans hp1, hz⟩
      intro f hf0
      obtain ⟨g, rfl⟩ : ∃ g, f = g + 1 := ⟨f - 1, by omega⟩
      show (if (searchBody id n a s).p (searchBody id n a s).j0 ≠ 0 then
        searchLoop id n a g (searchBody id n a s) else some (searchBody id n a s)) = some s2
      rw [if_pos hc]
      exact hf g (by omega)
    · refine ⟨1, searchBody id n a s, ?_, ⟨T1, hinv1⟩, hp1, by simpa using hc⟩
      intro f hf0
      obtain ⟨g, rfl⟩ : ∃ g, f = g + 1 := ⟨f - 1, by omega⟩
      show (if (searchBody id n a s).p (searchBody id n a s).j0 ≠ 0 then
        searchLoop id n a g (searchBody id n a s) else some (searchBody id n a s)) = _
      rw [if_neg hc]

theorem matching_shift (n : Nat) (p : Nat → Nat) (h h1 i : Nat) (hm : Matching n p h i)
    (hh : h ≤ n) (hh1 : h1 ≤ n) : Matching n (Function.update p h (p h1)) h1 i := by
  constructor
  · intro j hj
    by_cases hjh : j = h
    · subst hjh; rw [Function.update_same]; exact hm.le h1 hh1
    · rw [Function.update_noteq hjh]; exact hm.le j hj
  · intro j j1 hj hj1 hne hne1 heq hnz
    by_cases hjh : j = h
    · by_cases hj1h : j1 = h
      · rw [hjh, hj1h]
      · exfalso
        subst hjh
        rw [Function.update_same, Function.update_noteq hj1h] at heq
        rw [Function.update_same] at hnz
        have hh1ne : h1 ≠ j := fun e => hne e.symm
        exact hne1 (hm.inj h1 j1 hh1 hj1 hh1ne hj1h heq hnz).symm
    · by_cases hj1h : j1 = h
      · exfalso
        subst hj1h
        rw [Function.update_same, Function.update_noteq hjh] at heq
        rw [Function.update_noteq hjh] at hnz
        have hh1ne : h1 ≠ j1 := fun e => hne1 e.symm
        exact hne (hm.inj j h1 hj hh1 hjh hh1ne heq hnz)
      · rw [Function.update_noteq hjh, Function.update_noteq hj1h] at heq
        rw [Function.update_noteq hjh] at hnz
        exact hm.inj j j1 hj hj1 hjh hj1h heq hnz
  · intro r hr1 hr2
    obtain ⟨j, hj, hjh, hpj⟩ := hm.surj r hr1 hr2
    by_cases hjh1 : j = h1
    · refine ⟨h, hh, ?_, ?_⟩
      · intro e; exact hjh (hjh1.trans e.symm)
      · rw [Function.update_same, ← hjh1]; exact hpj
    · exact ⟨j, hj, hjh1, by rw [Function.update_noteq hjh]; exact hpj⟩

theorem augmentLoop_spec (n : Nat) (way : Nat → Nat) (hwle : ∀ x, way x ≤ n) (i : Nat) :
    ∀ (k : Nat) (p : Nat → Nat) (h : Nat), h ≤ n → h ≠ 0 → way^[k] h = 0 → Matching n p h i →
      ∃ f0 p1, (∀ f, f0 ≤ f → augmentLoop way f p h = some p1) ∧ Matching n p1 0 i := by
  intro k
  induction k with
  | zero => intro p h _ h0 hk _; exact absurd hk h0
  | succ k ih =>
    intro p h hh h0 hk hm
    rw [Function.iterate_succ_apply] at hk
    have hm1 := matching_shift n p h (way h) i hm hh (hwle h)
    by_cases hc : way h ≠ 0
    · obtain ⟨f0, p1, hf, hm2⟩ := ih (Function.update p h (p (way h))) (way h) (hwle h) hc hk hm1
      refine ⟨f0 + 1, p1, ?_, hm2⟩
      intro f hf0
      obtain ⟨g, rfl⟩ : ∃ g, f = g + 1 := ⟨f - 1, by omega⟩
      show (if way h ≠ 0 then augmentLoop way g (Function.update p h (p (way h))) (way h)
        else some (Function.update p h (p (way h)))) = some p1
      rw [if_pos hc]
      exact hf g (by omega)
    · refine ⟨1, Function.update p h (p (way h)), ?_, ?_⟩
      · intro f hf0
        obtain ⟨g, rfl⟩ : ∃ g, f = g + 1 := ⟨f - 1, by omega⟩
        show (if way h ≠ 0 then augmentLoop way g (Function.update p h (p (way h))) (way h)
          else some (Function.update p h (p (way h)))) = _
        rw [if_neg hc]
      · have : way h = 0 := by simpa using hc
        rw [this] at hm1 ⊢
        exact hm1

theorem exists_free_col (n : Nat) (p : Nat → Nat) (i : Nat) (hm : Matching n p 0 i)
    (hi : i < n) : ∃ j, 1 ≤ j ∧ j ≤ n ∧ p j = 0 := by
  by_contra hcon
  push_neg at hcon
  have hcard : (Finset.Icc 1 n).card ≤ (Finset.Icc 1 i).card := by
    apply Finset.card_le_card_of_injOn p
    · intro j hj
      simp only [Finset.mem_coe, Finset.mem_Icc, Finset.coe_Icc, Set.mem_Icc] at hj
      simp only [Finset.mem_coe, Finset.mem_Icc, Finset.coe_Icc, Set.mem_Icc]
      exact ⟨Nat.pos_of_ne_zero (hcon j hj.1 hj.2), hm.le j hj.2⟩
    · intro j hj j1 hj1 heq
      simp only [Finset.mem_coe, Finset.mem_Icc, Finset.coe_Icc, Set.mem_Icc] at hj hj1
      exact hm.inj j j1 hj.2 hj1.2 (by omega) (by omega) heq (hcon j hj.1 hj.2)
  simp only [Nat.card_Icc] at hcard
  omega

theorem matching_full (n : Nat) (p : Nat → Nat) (hm : Matching n p 0 n) :
    ∀ j, 1 ≤ j → j ≤ n → p j ≠ 0 := by
  intro js hjs1 hjs2 hz
  have hex : ∀ r : Nat, ∃ j, (1 ≤ r ∧ r ≤ n) → (j ≤ n ∧ j ≠ 0 ∧ p j = r) := by
    intro r
    by_cases hr : 1 ≤ r ∧ r ≤ n
    · obtain ⟨j, hj⟩ := hm.surj r hr.1 hr.2
      exact ⟨j, fun _ => hj⟩
    · exact ⟨0, fun h => absurd h hr⟩
  choose g hg using hex
  have hcard : (Finset.Icc 1 n).card ≤ ((Finset.Icc 1 n).erase js).card := by
    apply Finset.card_le_card_of_injOn g
    · intro r hr
      simp only [Finset.mem_coe, Finset.mem_Icc, Finset.coe_Icc, Set.mem_Icc] at hr
      obtain ⟨h1, h2, h3⟩ := hg r hr
      simp only [Finset.mem_coe, Finset.mem_erase, Finset.mem_Icc, Finset.coe_erase,
        Finset.coe_Icc, Set.mem_diff, Set.mem_Icc, Set.mem_singleton_iff]
      have hne : g r ≠ js := by
        intro e
        rw [e, hz] at h3
        omega
      exact ⟨hne, by omega, h1⟩
    · intro r hr r1 hr1 heq
      simp only [Finset.mem_coe, Finset.mem_Icc, Finset.coe_Icc, Set.mem_Icc] at hr hr1
      have h3 := (hg r hr).2.2
      have h4 := (hg r1 hr1).2.2
      rw [← h3, ← h4, heq]
  rw [Finset.card_erase_of_mem (by simp; omega)] at hcard
  simp only [Nat.card_Icc] at hcard
  omega

theorem pgood_start (n : Nat) (a : Nat → Nat → K) (d : Duals K) (i : Nat)
    (hinv : OuterInv n a d i) (hi : i < n) : PGood n (Function.update d.p 0 (i + 1)) := by
    constructor
    · intro j hj
      by_cases hj0 : j = 0
      · subst hj0; rw [Function.update_same]; omega
      · rw [Function.update_noteq hj0]
        have := hinv.matching.le j hj; omega
    · intro c c1 hc hc1 heq hnz
      by_cases hc0 : c = 0
      · by_cases hc10 : c1 = 0
        · rw [hc0, hc10]
        · exfalso
          subst hc0
          rw [Function.update_same, Function.update_noteq hc10] at heq
          have := hinv.matching.le c1 hc1; omega
      · by_cases hc10 : c1 = 0
        · exfalso
          subst hc10
          rw [Function.update_same, Function.update_noteq hc0] at heq
          have := hinv.matching.le c hc; omega
        · rw [Function.update_noteq hc0, Function.update_noteq hc10] at heq
          rw [Function.update_noteq hc0] at hnz
          exact hinv.matching.inj c c1 hc hc1 hc0 hc10 heq hnz
    · rw [Function.update_same]; omega
    · obtain ⟨j, h1, h2, h3⟩ := exists_free_col n d.p i hinv.matching hi
      exact ⟨j, h1, h2, by rw [Function.update_noteq (by omega)]; exact h3⟩

theorem searchInv_start (n : Nat) (a : Nat → Nat → K) (d : Duals K) (i : Nat)
    (hinv : OuterInv n a d i) :
    SearchInv n a
      { u := d.u, v := d.v, p := Function.update d.p 0 (i + 1), way := d.way,
        minv := fun _ => INF, used := fun _ => false, j0 := 0 } 0 := by
    constructor
    · exact Nat.zero_le n
    · intro j hj; exact Bool.noConfusion hj
    · exact hinv.feas
    · exact le_refl _
    · exact le_of_lt INF_pos
    · intro j _ _ _; exact le_of_lt INF_pos
    · intro j _ _ _; simp
    · intro c j hc; exact Bool.noConfusion hc
    · intro j _ _ _; left; simp
    · intro h; exact absurd rfl h
    · exact hinv.rooted
    · exact hinv.way_le
    · intro _ c hc; exact Bool.noConfusion hc
    · intro h; exact Bool.noConfusion h
    · intro h; exact absurd rfl h

theorem addRow_spec (n : Nat) (a : Nat → Nat → K) (d : Duals K) (i : Nat)
    (hinv : OuterInv n a d i) (hi : i < n) :
    ∃ f0 d1, (∀ f, f0 ≤ f → addRow id f n a d (i + 1) = some d1) ∧ OuterInv n a d1 (i + 1) := by
  have hp0 := pgood_start n a d i hinv hi
  have hs0 := searchInv_start n a d i hinv
  obtain ⟨f0, s1, hf, ⟨T1, hinv1⟩, hp1, hz⟩ :=
    searchLoop_terminates n a _ _ 0 (le_refl _) hp0 hs0 (by
      show Function.update d.p 0 (i + 1) 0 ≠ 0
      rw [Function.update_same]; omega)
  have hp1' : s1.p = Function.update d.p 0 (i + 1) := hp1
  have hj0 : s1.j0 ≠ 0 := by
    intro e
    rw [e, hp1', Function.update_same] at hz
    omega
  have hmatch : Matching n s1.p s1.j0 (i + 1) := by
    rw [hp1']
    constructor
    · intro j hj
      by_cases hj0 : j = 0
      · subst hj0; rw [Function.update_same]
      · rw [Function.update_noteq hj0]
        have := hinv.matching.le j hj; omega
    · intro j j1 hj hj1 _ _ heq hnz
      exact hp0.inj j j1 hj hj1 heq hnz
    · intro r hr1 hr2
      by_cases hr : r = i + 1
      · exact ⟨0, Nat.zero_le n, fun e => hj0 e.symm, by rw [Function.update_same, hr]⟩
      · obtain ⟨j, h1, h2, h3⟩ := hinv.matching.surj r hr1 (by omega)
        refine ⟨j, h1, ?_, by rw [Function.update_noteq h2]; exact h3⟩
        intro e
        rw [hp1', Function.update_noteq hj0] at hz
        rw [e] at h3
        omega
  obtain ⟨k, hk⟩ := hinv1.rooted s1.j0
  obtain ⟨f1, p1, hf1, hm1⟩ :=
    augmentLoop_spec n s1.way hinv1.way_le (i + 1) k s1.p s1.j0 hinv1.j0_le hj0 hk hmatch
  refine ⟨max f0 f1, { u := s1.u, v := s1.v, p := p1, way := s1.way }, ?_, ?_⟩
  · intro f hfm
    unfold addRow
    rw [hf f (le_trans (le_max_left _ _) hfm)]
    simp only [Option.some_bind]
    rw [hf1 f (le_trans (le_max_right _ _) hfm)]
    rfl
  · exact ⟨hm1, hinv1.feas, hinv1.rooted, hinv1.way_le⟩

theorem solveTo_succ (rnd : K → K) (fuel n : Nat) (a : Nat → Nat → K) (i : Nat) :
    solveTo rnd fuel n a (i + 1) =
      (solveTo rnd fuel n a i).bind fun d => addRow rnd fuel n a d (i + 1) := by
  unfold solveTo
  rw [List.range'_concat, List.foldl_append]
  have e : 1 + 1 * i = i + 1 := by omega
  rw [e]
  rfl

theorem solveTo_spec (n : Nat) (a : Nat → Nat → K) (ha : ∀ i j, 0 ≤ a i j) :
    ∀ i, i ≤ n → ∃ f0 d, (∀ f, f0 ≤ f → solveTo id f n a i = some d) ∧ OuterInv n a d i := by
  intro i
  induction i with
  | zero =>
    intro _
    refine ⟨0, ⟨fun _ => 0, fun _ => 0, fun _ => 0, fun _ => 0⟩, fun f _ => rfl, ?_⟩
    constructor
    · constructor
      · intro j _; exact le_refl _
      · intro j j1 _ _ _ _ _ h; exact absurd rfl h
      · intro r h1 h2; omega
    · intro r c _ _ _ _
      simp only [add_zero]
      exact ha _ _
    · intro x; exact ⟨1, rfl⟩
    · intro x; exact Nat.zero_le n
  | succ i ih =>
    intro hi
    obtain ⟨f0, d, hf, hinv⟩ := ih (by omega)
    obtain ⟨f1, d1, hf1, hinv1⟩ := addRow_spec n a d i hinv (by omega)
    refine ⟨max f0 f1, d1, ?_, hinv1⟩
    intro f hfm
    rw [solveTo_succ, hf f (le_trans (le_max_left _ _) hfm)]
    simp only [Option.some_bind]
    exact hf1 f (le_trans (le_max_right _ _) hfm)

theorem writeTo_succ (nRows nCols : Nat) (p : Nat → Nat) (k : Nat) :
    writeTo nRows nCols p (k + 1) = writeBack nRows nCols p (writeTo nRows nCols p k) (k + 1) := by
  unfold writeTo
  rw [List.range'_concat, List.foldl_append]
  have e : 1 + 1 * k = k + 1 := by omega
  rw [e]
  rfl

theorem writeTo_spec (nRows nCols n : Nat) (p : Nat → Nat)
    (hnz : ∀ j, 1 ≤ j → j ≤ n → p j ≠ 0) :
    ∀ k, k ≤ n → ∃ asg, writeTo nRows nCols p k = some asg ∧ asg.length = nRows ∧
      ∀ r, r < nRows →
        (∃ j, 1 ≤ j ∧ j ≤ k ∧ j ≤ nCols ∧ p j = r + 1 ∧ asg[r]? = some ((j : Int) - 1)) ∨
        ((∀ j, 1 ≤ j → j ≤ k → j ≤ nCols → p j ≠ r + 1) ∧ asg[r]? = some (-1)) := by
  intro k
  induction k with
  | zero =>
    intro _
    refine ⟨List.replicate nRows (-1), rfl, List.length_replicate _ _, fun r hr => Or.inr ⟨?_, ?_⟩⟩
    · intro j h1 h2; omega
    · rw [List.getElem?_replicate, if_pos hr]
  | succ k ih =>
    intro hk
    obtain ⟨asg, he, hl, hc⟩ := ih (by omega)
    rw [writeTo_succ, he]
    unfold writeBack
    simp only [Option.some_bind]
    have hpk := hnz (k + 1) (by omega) hk
    by_cases hcond : p (k + 1) ≤ nRows ∧ k + 1 ≤ nCols
    · rw [if_pos hcond, if_neg hpk]
      refine ⟨_, rfl, by rw [List.length_set]; exact hl, fun r hr => ?_⟩
      by_cases hrp : p (k + 1) - 1 = r
      · left
        refine ⟨k + 1, by omega, le_refl _, hcond.2, by omega, ?_⟩
        rw [List.getElem?_set, if_pos hrp, if_pos (by omega)]
      · rw [List.getElem?_set_ne hrp]
        rcases hc r hr with ⟨j, h1, h2, h3, h4, h5⟩ | ⟨h1, h2⟩
        · exact Or.inl ⟨j, h1, by omega, h3, h4, h5⟩
        · refine Or.inr ⟨fun j hj1 hj2 hj3 => ?_, h2⟩
          by_cases hjk : j = k + 1
          · subst hjk; omega
          · exact h1 j hj1 (by omega) hj3
    · rw [if_neg hcond]
      refine ⟨asg, rfl, hl, fun r hr => ?_⟩
      rcases hc r hr with ⟨j, h1, h2, h3, h4, h5⟩ | ⟨h1, h2⟩
      · exact Or.inl ⟨j, h1, by omega, h3, h4, h5⟩
      · refine Or.inr ⟨fun j hj1 hj2 hj3 => ?_, h2⟩
        by_cases hjk : j = k + 1
        · subst hjk
          intro e
          apply hcond
          exact ⟨by omega, hj3⟩
        · exact h1 j hj1 (by omega) hj3

theorem padded_nonneg (nRows nCols : Nat) (cm : List (List K))
    (hnn : ∀ row ∈ cm, ∀ x ∈ row, (0 : K) ≤ x) (i j : Nat) : 0 ≤ padded nRows nCols cm i j := by
  unfold padded
  split
  · by_cases hi : i < cm.length
    · rw [List.getD_eq_getElem cm [] hi]
      by_cases hj : j < cm[i].length
      · rw [List.getD_eq_getElem _ _ hj]
        exact hnn cm[i] (List.getElem_mem hi) _ (List.getElem_mem hj)
      · rw [List.getD_eq_default _ _ (by omega)]
        exact le_of_lt INF_pos
    · rw [List.getD_eq_default cm [] (by omega)]
      simp only [List.getD_nil]
      exact le_of_lt INF_pos
  · exact le_of_lt INF_pos

theorem solve_eq_solveTo (rnd : K → K) (fuel n : Nat) (a : Nat → Nat → K) :
    solve rnd fuel n a = solveTo rnd fuel n a n :=
  rfl

/-- Structure of the result of `hungarianAlgorithm` on a non-empty rectangular matrix of
nonnegative costs: with enough fuel the outer loop returns potentials and a matching `d` on
the padded square matrix, and the result is the read-out of `d.p`. -/
theorem hungarian_duals (cm : List (List K)) (nCols : Nat) (hne : cm ≠ [])
    (hrect : ∀ row ∈ cm, row.length = nCols) (hnn : ∀ row ∈ cm, ∀ x ∈ row, (0 : K) ≤ x) :
    ∃ (f0 : Nat) (d : Duals K) (asg : List Int),
      (∀ f, f0 ≤ f → solveTo id f (max cm.length nCols) (padded cm.length nCols cm)
        (max cm.length nCols) = some d) ∧
      OuterInv (max cm.length nCols) (padded cm.length nCols cm) d (max cm.length nCols) ∧
      (∀ f, f0 ≤ f → hungarianAlgorithm id f cm = some asg) ∧ asg.length = cm.length ∧
        ∀ r, r < cm.length →
          (∃ j, 1 ≤ j ∧ j ≤ nCols ∧ d.p j = r + 1 ∧ asg[r]? = some ((j : Int) - 1)) ∨
          ((∀ j, 1 ≤ j → j ≤ nCols → d.p j ≠ r + 1) ∧ asg[r]? = some (-1)) := by
  have hlen : cm.length ≠ 0 := fun h => hne (List.length_eq_zero.mp h)
  have hcols : (cm.getD 0 []).length = nCols := by
    rw [List.getD_eq_getElem cm [] (Nat.pos_of_ne_zero hlen)]
    exact hrect _ (List.getElem_mem _)
  have hall : (cm.all fun r => decide (nCols ≤ r.length)) = true := by
    rw [List.all_eq_true]
    intro row hrow
    simp only [decide_eq_true_eq]
    exact le_of_eq (hrect row hrow).symm
  obtain ⟨f0, d, hf, hinv⟩ := solveTo_spec (max cm.length nCols)
    (padded cm.length nCols cm) (padded_nonneg cm.length nCols cm hnn) (max cm.length nCols)
    (le_refl _)
  have hfull := matching_full _ d.p hinv.matching
  obtain ⟨asg, hw, hl, hc⟩ := writeTo_spec cm.length nCols (max cm.length nCols) d.p hfull
    (max cm.length nCols) (le_refl _)
  refine ⟨f0, d, asg, hf, hinv, fun f hf0 => ?_, hl, fun r hr => ?_⟩
  · unfold hungarianAlgorithm
    simp only [hlen, if_false, hcols, hall, if_true]
    rw [solve_eq_solveTo, hf f hf0]
    exact hw
  · rcases hc r hr with ⟨j, h1, _, h3, h4, h5⟩ | ⟨h1, h2⟩
    · exact Or.inl ⟨j, h1, h3, h4, h5⟩
    · exact Or.inr ⟨fun j hj1 hj2 => h1 j hj1 (le_trans hj2 (le_max_right _ _)) hj2, h2⟩

/-- The result of `hungarianAlgorithm` on a non-empty rectangular matrix of nonnegative
costs is, with enough fuel, the read-out of a bijection `p` between the columns and the rows
of the padded square matrix. -/
theorem hungarian_structure (cm : List (List K)) (nCols : Nat) (hne : cm ≠ [])
    (hrect : ∀ row ∈ cm, row.length = nCols) (hnn : ∀ row ∈ cm, ∀ x ∈ row, (0 : K) ≤ x) :
    ∃ (f0 : Nat) (p : Nat → Nat) (asg : List Int),
      Matching (max cm.length nCols) p 0 (max cm.length nCols) ∧
      (∀ f, f0 ≤ f → hungarianAlgorithm id f cm = some asg) ∧ asg.length = cm.length ∧
        ∀ r, r < cm.length →
          (∃ j, 1 ≤ j ∧ j ≤ nCols ∧ p j = r + 1 ∧ asg[r]? = some ((j : Int) - 1)) ∨
          ((∀ j, 1 ≤ j → j ≤ nCols → p j ≠ r + 1) ∧ asg[r]? = some (-1)) := by
  obtain ⟨f0, d, asg, _, hinv, hf, hl, hc⟩ := hungarian_duals cm nCols hne hrect hnn
  exact ⟨f0, d.p, asg, hinv.matching, hf, hl, hc⟩

/-- With enough fuel `hungarianAlgorithm` returns, on a rectangular matrix of nonnegative
costs, one list of the length of the matrix whose entries are `-1` or column indices, no
column twice, and without `-1` when there are at least as many columns as rows. -/
theorem hungarian_total (cm : List (List K)) (nCols : Nat)
    (hrect : ∀ row ∈ cm, row.length = nCols) (hnn : ∀ row ∈ cm, ∀ x ∈ row, (0 : K) ≤ x) :
    ∃ (f0 : Nat) (asg : List Int),
      (∀ f, f0 ≤ f → hungarianAlgorithm id f cm = some asg) ∧ asg.length = cm.length ∧
      (∀ e ∈ asg, -1 ≤ e ∧ e < (nCols : Int)) ∧
      (∀ (r r1 : Nat) (e : Int), asg[r]? = some e → asg[r1]? = some e → e ≠ -1 → r = r1) ∧
      (cm.length ≤ nCols → ∀ e ∈ asg, e ≠ -1) := by
  by_cases hne : cm = []
  · subst hne
    refine ⟨0, [], fun f _ => rfl, rfl, ?_, ?_, ?_⟩
    · intro e he; exact absurd he (List.not_mem_nil e)
    · intro r r1 e h; simp at h
    · intro _ e he; exact absurd he (List.not_mem_nil e)
  · obtain ⟨f0, p, asg, hm, hf, hl, hc⟩ := hungarian_structure cm nCols hne hrect hnn
    refine ⟨f0, asg, hf, hl, ?_, ?_, ?_⟩
    · intro e he
      obtain ⟨r, hr, hre⟩ := List.mem_iff_getElem.mp he
      have hr1 : asg[r]? = some e := by rw [List.getElem?_eq_getElem hr, hre]
      rcases hc r (hl ▸ hr) with ⟨j, h1, h2, _, h4⟩ | ⟨_, h2⟩
      · rw [hr1] at h4
        have := Option.some.inj h4
        omega
      · rw [hr1] at h2
        have := Option.some.inj h2
        omega
    · intro r r1 e hr hr1 hne1
      have hrl : r < cm.length := by
        rw [← hl]; exact (List.getElem?_eq_some.mp hr).1
      have hr1l : r1 < cm.length := by
        rw [← hl]; exact (List.getElem?_eq_some.mp hr1).1
      rcases hc r hrl with ⟨j, h1, h2, h3, h4⟩ | ⟨_, h2⟩
      · rcases hc r1 hr1l with ⟨j1, g1, g2, g3, g4⟩ | ⟨_, g2⟩
        · rw [hr] at h4; rw [hr1] at g4
          have e1 := Option.some.inj h4
          have e2 := Option.some.inj g4
          have : j = j1 := by omega
          subst this
          omega
        · rw [hr1] at g2
          exact absurd (Option.some.inj g2) hne1
      · rw [hr] at h2
        exact absurd (Option.some.inj h2) hne1
    · intro hle e he
      obtain ⟨r, hr, hre⟩ := List.mem_iff_getElem.mp he
      have hr1 : asg[r]? = some e := by rw [List.getElem?_eq_getElem hr, hre]
      have hrl : r < cm.length := hl ▸ hr
      rcases hc r hrl with ⟨j, h1, h2, _, h4⟩ | ⟨h1, _⟩
      · rw [hr1] at h4
        have := Option.some.inj h4
        omega
      · exfalso
        obtain ⟨j, hj1, hj2, hj3⟩ := hm.surj (r + 1) (by omega)
          (le_trans (by omega : r + 1 ≤ cm.length) (le_max_left _ _))
        have hjn : j ≤ nCols := by
          have : max cm.length nCols = nCols := max_eq_right hle
          omega
        exact h1 j (Nat.pos_of_ne_zero hj2) hjn hj3


/-! ## Shape of the result, for every rounding of the arithmetic

The matching `p` is only written by the second `do ... while` loop, which shifts rows along
the chain `way`; whenever that loop ends, `p` is again a matching. None of this depends on
the values of `u`, `v` and `minv`. -/

theorem searchBody_shape (rnd : K → K) (n : Nat) (a : Nat → Nat → K) (s : Search K)
    (hj : s.j0 ≤ n) (hw : ∀ x, s.way x ≤ n) :
    (searchBody rnd n a s).p = s.p ∧ (searchBody rnd n a s).j0 ≤ n ∧
      ∀ x, (searchBody rnd n a s).way x ≤ n := by
  rw [searchBody_eq]
  obtain ⟨_, hway, _, _, hj1⟩ := scan_round rnd a s.u s.v (Function.update s.used s.j0 true)
    (s.p s.j0) s.j0 s.minv s.way n
  refine ⟨rfl, ?_, ?_⟩
  · rcases hj1 with ⟨h, _⟩ | ⟨_, h, _⟩
    · show (scanTo rnd a s.u s.v (Function.update s.used s.j0 true) (s.p s.j0) s.j0 s.minv
        s.way n).j1 ≤ n
      rw [h]; exact Nat.zero_le n
    · exact h
  · intro x
    show (scanTo rnd a s.u s.v (Function.update s.used s.j0 true) (s.p s.j0) s.j0 s.minv
      s.way n).way x ≤ n
    rw [hway]
    split
    · exact hj
    · exact hw x

theorem searchLoop_shape (rnd : K → K) (n : Nat) (a : Nat → Nat → K) :
    ∀ (fuel : Nat) (s s1 : Search K), s.j0 ≤ n → (∀ x, s.way x ≤ n) →
      searchLoop rnd n a fuel s = some s1 →
      s1.p = s.p ∧ s1.j0 ≤ n ∧ (∀ x, s1.way x ≤ n) ∧ s1.p s1.j0 = 0 := by
  intro fuel
  induction fuel with
  | zero => intro s s1 _ _ h; exact Option.noConfusion h
  | succ fuel ih =>
    intro s s1 hj hw h
    obtain ⟨hp, hj1, hw1⟩ := searchBody_shape rnd n a s hj hw
    have h' : (if (searchBody rnd n a s).p (searchBody rnd n a s).j0 ≠ 0 then
        searchLoop rnd n a fuel (searchBody rnd n a s) else some (searchBody rnd n a s)) =
        some s1 := h
    by_cases hc : (searchBody rnd n a s).p (searchBody rnd n a s).j0 ≠ 0
    · rw [if_pos hc] at h'
      obtain ⟨e1, e2, e3, e4⟩ := ih _ s1 hj1 hw1 h'
      exact ⟨e1.trans hp, e2, e3, e4⟩
    · rw [if_neg hc] at h'
      have e : searchBody rnd n a s = s1 := Option.some.inj h'
      subst e
      exact ⟨hp, hj1, hw1, by simpa using hc⟩

theorem augmentLoop_shape (n : Nat) (way : Nat → Nat) (hwle : ∀ x, way x ≤ n) (i : Nat) :
    ∀ (fuel : Nat) (p : Nat → Nat) (h : Nat) (p1 : Nat → Nat), h ≤ n → Matching n p h i →
      augmentLoop way fuel p h = some p1 → Matching n p1 0 i := by
  intro fuel
  induction fuel with
  | zero => intro p h p1 _ _ he; exact Option.noConfusion he
  | succ fuel ih =>
    intro p h p1 hh hm he
    have hm1 := matching_shift n p h (way h) i hm hh (hwle h)
    have he' : (if way h ≠ 0 then augmentLoop way fuel (Function.update p h (p (way h))) (way h)
        else some (Function.update p h (p (way h)))) = some p1 := he
    by_cases hc : way h ≠ 0
    · rw [if_pos hc] at he'
      exact ih _ _ p1 (hwle h) hm1 he'
    · rw [if_neg hc] at he'
      have e : Function.update p h (p (way h)) = p1 := Option.some.inj he'
      have hz : way h = 0 := by simpa using hc
      rw [hz] at hm1 e
      rw [← e]
      exact hm1

theorem matching_start (n : Nat) (p : Nat → Nat) (i j0 : Nat) (hm : Matching n p 0 i)
    (hz : Function.update p 0 (i + 1) j0 = 0) :
    Matching n (Function.update p 0 (i + 1)) j0 (i + 1) := by
  have hj0 : j0 ≠ 0 := by
    intro e
    rw [e, Function.update_same] at hz
    omega
  rw [Function.update_noteq hj0] at hz
  constructor
  · intro j hj
    by_cases hj0 : j = 0
    · subst hj0; rw [Function.update_same]
    · rw [Function.update_noteq hj0]
      have := hm.le j hj; omega
  · intro c c1 hc hc1 _ _ heq hnz
    by_cases hc0 : c = 0
    · by_cases hc10 : c1 = 0
      · rw [hc0, hc10]
      · exfalso
        subst hc0
        rw [Function.update_same, Function.update_noteq hc10] at heq
        have := hm.le c1 hc1; omega
    · by_cases hc10 : c1 = 0
      · exfalso
        subst hc10
        rw [Function.update_same, Function.update_noteq hc0] at heq
        have := hm.le c hc; omega
      · rw [Function.update_noteq hc0, Function.update_noteq hc10] at heq
        rw [Function.update_noteq hc0] at hnz
        exact hm.inj c c1 hc hc1 hc0 hc10 heq hnz
  · intro r hr1 hr2
    by_cases hr : r = i + 1
    · exact ⟨0, Nat.zero_le n, fun e => hj0 e.symm, by rw [Function.update_same, hr]⟩
    · obtain ⟨j, h1, h2, h3⟩ := hm.surj r hr1 (by omega)
      refine ⟨j, h1, ?_, by rw [Function.update_noteq h2]; exact h3⟩
      intro e
      rw [e] at h3
      omega

theorem addRow_shape (rnd : K → K) (n : Nat) (a : Nat → Nat → K) (d d1 : Duals K)
    (i fuel : Nat) (hm : Matching n d.p 0 i) (hw : ∀ x, d.way x ≤ n)
    (he : addRow rnd fuel n a d (i + 1) = some d1) :
    Matching n d1.p 0 (i + 1) ∧ ∀ x, d1.way x ≤ n := by
  unfold addRow at he
  cases hs : searchLoop rnd n a fuel
      (⟨d.u, d.v, Function.update d.p 0 (i + 1), d.way, fun _ => INF, fun _ => false,
        0⟩ : Search K) with
  | none =>
    rw [hs] at he
    exact Option.noConfusion he
  | some s =>
    rw [hs] at he
    simp only [Option.some_bind] at he
    obtain ⟨hp, hj, hws, hz⟩ := searchLoop_shape rnd n a fuel _ s (Nat.zero_le n) hw hs
    have hp' : s.p = Function.update d.p 0 (i + 1) := hp
    cases ha : augmentLoop s.way fuel s.p s.j0 with
    | none =>
      rw [ha] at he
      exact Option.noConfusion he
    | some p1 =>
      rw [ha] at he
      simp only [Option.map_some'] at he
      have hd1 : d1 = ⟨s.u, s.v, p1, s.way⟩ := (Option.some.inj he).symm
      subst hd1
      have hstart : Matching n s.p s.j0 (i + 1) := by
        rw [hp']
        apply matching_start n d.p i s.j0 hm
        rw [← hp']
        exact hz
      exact ⟨augmentLoop_shape n s.way hws (i + 1) fuel s.p s.j0 p1 hj hstart ha, hws⟩

theorem solveTo_shape (rnd : K → K) (n : Nat) (a : Nat → Nat → K) (fuel : Nat) :
    ∀ (i : Nat) (d : Duals K), solveTo rnd fuel n a i = some d →
      Matching n d.p 0 i ∧ ∀ x, d.way x ≤ n := by
  intro i
  induction i with
  | zero =>
    intro d he
    have hd : d = ⟨fun _ => 0, fun _ => 0, fun _ => 0, fun _ => 0⟩ := (Option.some.inj he).symm
    subst hd
    refine ⟨⟨?_, ?_, ?_⟩, fun x => Nat.zero_le n⟩
    · intro j _; exact le_refl _
    · intro j j1 _ _ _ _ _ h; exact absurd rfl h
    · intro r h1 h2; omega
  | succ i ih =>
    intro d he
    rw [solveTo_succ] at he
    cases hs : solveTo rnd fuel n a i with
    | none => rw [hs] at he; exact Option.noConfusion he
    | some d0 =>
      rw [hs] at he
      simp only [Option.some_bind] at he
      obtain ⟨hm, hw⟩ := ih d0 hs
      exact addRow_shape rnd n a d0 d i fuel hm hw he


theorem readout_shape (m nCols : Nat) (p : Nat → Nat) (asg : List Int)
    (hm : Matching (max m nCols) p 0 (max m nCols)) (hl : asg.length = m)
    (hc : ∀ r, r < m →
      (∃ j, 1 ≤ j ∧ j ≤ nCols ∧ p j = r + 1 ∧ asg[r]? = some ((j : Int) - 1)) ∨
      ((∀ j, 1 ≤ j → j ≤ nCols → p j ≠ r + 1) ∧ asg[r]? = some (-1))) :
    (∀ e ∈ asg, -1 ≤ e ∧ e < (nCols : Int)) ∧
    (∀ (r r1 : Nat) (e : Int), asg[r]? = some e → asg[r1]? = some e → e ≠ -1 → r = r1) ∧
    (m ≤ nCols → ∀ e ∈ asg, e ≠ -1) := by
  refine ⟨?_, ?_, ?_⟩
  · intro e he
    obtain ⟨r, hr, hre⟩ := List.mem_iff_getElem.mp he
    have hr1 : asg[r]? = some e := by rw [List.getElem?_eq_getElem hr, hre]
    rcases hc r (hl ▸ hr) with ⟨j, h1, h2, _, h4⟩ | ⟨_, h2⟩
    · rw [hr1] at h4
      have := Option.some.inj h4
      omega
    · rw [hr1] at h2
      have := Option.some.inj h2
      omega
  · intro r r1 e hr hr1 hne1
    have hrl : r < m := by
      rw [← hl]; exact (List.getElem?_eq_some.mp hr).1
    have hr1l : r1 < m := by
      rw [← hl]; exact (List.getElem?_eq_some.mp hr1).1
    rcases hc r hrl with ⟨j, h1, h2, h3, h4⟩ | ⟨_, h2⟩
    · rcases hc r1 hr1l with ⟨j1, g1, g2, g3, g4⟩ | ⟨_, g2⟩
      · rw [hr] at h4; rw [hr1] at g4
        have e1 := Option.some.inj h4
        have e2 := Option.some.inj g4
        have : j = j1 := by omega
        subst this
        omega
      · rw [hr1] at g2
        exact absurd (Option.some.inj g2) hne1
    · rw [hr] at h2
      exact absurd (Option.some.inj h2) hne1
  · intro hle e he
    obtain ⟨r, hr, hre⟩ := List.mem_iff_getElem.mp he
    have hr1 : asg[r]? = some e := by rw [List.getElem?_eq_getElem hr, hre]
    have hrl : r < m := hl ▸ hr
    rcases hc r hrl with ⟨j, h1, h2, _, h4⟩ | ⟨h1, _⟩
    · rw [hr1] at h4
      have := Option.some.inj h4
      omega
    · exfalso
      obtain ⟨j, hj1, hj2, hj3⟩ := hm.surj (r + 1) (by omega)
        (le_trans (by omega : r + 1 ≤ m) (le_max_left _ _))
      have hjn : j ≤ nCols := by
        have : max m nCols = nCols := max_eq_right hle
        omega
      exact h1 j (Nat.pos_of_ne_zero hj2) hjn hj3

theorem readout_count (m nCols : Nat) (p : Nat → Nat) (asg : List Int)
    (hm : Matching (max m nCols) p 0 (max m nCols)) (hl : asg.length = m)
    (hc : ∀ r, r < m →
      (∃ j, 1 ≤ j ∧ j ≤ nCols ∧ p j = r + 1 ∧ asg[r]? = some ((j : Int) - 1)) ∨
      ((∀ j, 1 ≤ j → j ≤ nCols → p j ≠ r + 1) ∧ asg[r]? = some (-1))) :
    IsAssignment m nCols (min m nCols) asg := by
  obtain ⟨hrange, hdist, hall⟩ := readout_shape m nCols p asg hm hl hc
  have hnd : (asg.filter (fun e => decide (e ≠ -1))).Nodup := by
    have hpw : asg.Pairwise (fun x y => x ≠ -1 → x ≠ y) := by
      rw [List.pairwise_iff_getElem]
      intro i j hi hj hij hne e
      have h1 : asg[i]? = some asg[i] := List.getElem?_eq_getElem hi
      have h2 : asg[j]? = some asg[i] := by rw [List.getElem?_eq_getElem hj, e]
      have := hdist i j asg[i] h1 h2 hne
      omega
    have hpw2 := hpw.filter (fun e => decide (e ≠ -1))
    refine List.Pairwise.imp_of_mem ?_ hpw2
    intro x y hx _ hxy
    have hx1 := (List.mem_filter.mp hx).2
    simp only [ne_eq, decide_not, Bool.not_eq_true', decide_eq_false_iff_not] at hx1
    exact hxy hx1
  refine ⟨hl, hrange, hnd, ?_⟩
  by_cases hle : m ≤ nCols
  · have hfe : asg.filter (fun e => decide (e ≠ -1)) = asg := by
      rw [List.filter_eq_self]
      intro e he
      simpa using hall hle e he
    rw [hfe, hl, min_eq_left hle]
  · have hlt : nCols < m := not_le.mp hle
    have hmax : max m nCols = m := max_eq_left (le_of_lt hlt)
    rw [hmax] at hm
    have hfull := matching_full m p hm
    have hset : (asg.filter (fun e => decide (e ≠ -1))).toFinset =
        (Finset.range nCols).image (fun (c : Nat) => (c : Int)) := by
      ext e
      simp only [List.mem_toFinset, List.mem_filter, ne_eq, decide_not, Bool.not_eq_true',
        decide_eq_false_iff_not, Finset.mem_image, Finset.mem_range]
      constructor
      · rintro ⟨he, hne1⟩
        have := hrange e he
        exact ⟨e.toNat, by omega, by omega⟩
      · rintro ⟨c, hcn, rfl⟩
        have h1 := hfull (c + 1) (by omega) (by omega)
        have h2 := hm.le (c + 1) (by omega)
        refine ⟨?_, by omega⟩
        rcases hc (p (c + 1) - 1) (by omega) with ⟨j, hj1, hj2, hj3, hj4⟩ | ⟨hno, _⟩
        · have hj : j = c + 1 :=
            hm.inj j (c + 1) (by omega) (by omega) (by omega) (by omega) (by omega) (by omega)
          rw [hj] at hj4
          have hmem := List.getElem?_mem hj4
          simpa using hmem
        · exact absurd (by omega) (hno (c + 1) (by omega) (by omega))
    rw [min_eq_right (le_of_lt hlt), ← List.toFinset_card_of_nodup hnd, hset,
      Finset.card_image_of_injective _ Nat.cast_injective, Finset.card_range]

/-- Whenever `hungarianAlgorithm` returns on a non-empty matrix, whatever the rounding of its
arithmetic, the result is the read-out of a bijection `p` between the columns and the rows
of the padded square matrix. -/
theorem hungarian_read (rnd : K → K) (cm : List (List K)) (fuel : Nat) (asg : List Int)
    (hne : cm ≠ []) (h : hungarianAlgorithm rnd fuel cm = some asg) :
    ∃ p : Nat → Nat,
      Matching (max cm.length (cm.getD 0 []).length) p 0 (max cm.length (cm.getD 0 []).length) ∧
      asg.length = cm.length ∧
      ∀ r, r < cm.length →
        (∃ j, 1 ≤ j ∧ j ≤ (cm.getD 0 []).length ∧ p j = r + 1 ∧
          asg[r]? = some ((j : Int) - 1)) ∨
        ((∀ j, 1 ≤ j → j ≤ (cm.getD 0 []).length → p j ≠ r + 1) ∧ asg[r]? = some (-1)) := by
  have hlen : cm.length ≠ 0 := fun e => hne (List.length_eq_zero.mp e)
  unfold hungarianAlgorithm at h
  simp only [hlen, if_false] at h
  split at h
  · rw [solve_eq_solveTo] at h
    cases hs : solveTo rnd fuel (max cm.length (cm.getD 0 []).length)
        (padded cm.length (cm.getD 0 []).length cm) (max cm.length (cm.getD 0 []).length) with
    | none => rw [hs] at h; exact Option.noConfusion h
    | some d =>
      rw [hs] at h
      simp only [Option.some_bind] at h
      obtain ⟨hm, _⟩ := solveTo_shape rnd _ _ fuel _ d hs
      obtain ⟨asg1, hw, hl, hc⟩ := writeTo_spec cm.length (cm.getD 0 []).length
        (max cm.length (cm.getD 0 []).length) d.p (matching_full _ d.p hm)
        (max cm.length (cm.getD 0 []).length) (le_refl _)
      have hw' : (List.range' 1 (max cm.length (cm.getD 0 []).length)).foldl
          (writeBack cm.length (cm.getD 0 []).length d.p)
          (some (List.replicate cm.length (-1))) = some asg1 := hw
      rw [hw'] at h
      have e : asg1 = asg := Option.some.inj h
      subst e
      refine ⟨d.p, hm, hl, fun r hr => ?_⟩
      rcases hc r hr with ⟨j, h1, _, h3, h4, h5⟩ | ⟨h1, h2⟩
      · exact Or.inl ⟨j, h1, h3, h4, h5⟩
      · exact Or.inr ⟨fun j hj1 hj2 => h1 j hj1 (le_trans hj2 (le_max_right _ _)) hj2, h2⟩
  · exact Option.noConfusion h

/-- Whenever `hungarianAlgorithm` returns, whatever the rounding of its arithmetic, the
result has one entry per row, the entries are `-1` or column indices, no column occurs
twice, exactly `min m n` rows have a column, and no row is left out when `m ≤ n`; `n` is
the length of the first row. -/
theorem hungarian_shape (rnd : K → K) (cm : List (List K)) (fuel : Nat) (asg : List Int)
    (h : hungarianAlgorithm rnd fuel cm = some asg) :
    asg.length = cm.length ∧
    (∀ e ∈ asg, -1 ≤ e ∧ e < ((cm.getD 0 []).length : Int)) ∧
    (∀ (r r1 : Nat) (e : Int), asg[r]? = some e → asg[r1]? = some e → e ≠ -1 → r = r1) ∧
    (cm.length ≤ (cm.getD 0 []).length → ∀ e ∈ asg, e ≠ -1) ∧
    IsAssignment cm.length (cm.getD 0 []).length (min cm.length (cm.getD 0 []).length) asg := by
  by_cases hne : cm = []
  · subst hne
    have e : asg = [] := (Option.some.inj h).symm
    subst e
    refine ⟨rfl, ?_, ?_, ?_, ⟨rfl, ?_, List.nodup_nil, rfl⟩⟩
    · intro e he; exact absurd he (List.not_mem_nil e)
    · intro r r1 e h1; simp at h1
    · intro _ e he; exact absurd he (List.not_mem_nil e)
    · intro e he; exact absurd he (List.not_mem_nil e)
  · obtain ⟨p, hm, hl, hc⟩ := hungarian_read rnd cm fuel asg hne h
    obtain ⟨h1, h2, h3⟩ := readout_shape cm.length _ p asg hm hl hc
    exact ⟨hl, h1, h2, h3, readout_count cm.length _ p asg hm hl hc⟩

/-! ## The gating loop -/

theorem gateRow_eq (thr : K) (dets : List (Vector3 K)) (cm : List (List K)) (asg : List Int)
    (s : Gate K) (i : Nat) :
    gateRow thr dets cm asg s i =
      match selOf thr cm asg i with
      | some j =>
        { tracks := s.tracks.modify (fun t => t.update (dets.getD j 0)) i
          assignedTracks := s.assignedTracks ++ [i]
          detectionAssigned := s.detectionAssigned.set j true
          updateCalls := s.updateCalls ++ [(i, j)] }
      | none => s := by
  unfold gateRow selOf
  dsimp only
  split_ifs <;> rfl

theorem gateTo_succ (thr : K) (dets : List (Vector3 K)) (cm : List (List K)) (asg : List Int)
    (tracks : List (Track K)) (k : Nat) :
    gateTo thr dets cm asg tracks (k + 1) =
      gateRow thr dets cm asg (gateTo thr dets cm asg tracks k) k := by
  unfold gateTo
  rw [List.range_succ, List.foldl_append]
  rfl

theorem gate_spec (thr : K) (dets : List (Vector3 K)) (cm : List (List K)) (asg : List Int)
    (tracks : List (Track K))
    (hlt : ∀ i j, selOf thr cm asg i = some j → j < dets.length) (k : Nat) :
    (∀ i, (gateTo thr dets cm asg tracks k).tracks[i]? =
      (tracks[i]?).map fun t => if i < k then updateSel (selOf thr cm asg) dets i t else t) ∧
    (gateTo thr dets cm asg tracks k).assignedTracks =
      (List.range k).filter (fun i => (selOf thr cm asg i).isSome) ∧
    (gateTo thr dets cm asg tracks k).updateCalls =
      ((List.range k).filter (fun i => (selOf thr cm asg i).isSome)).map
        (fun i => (i, (selOf thr cm asg i).getD 0)) ∧
    (gateTo thr dets cm asg tracks k).detectionAssigned.length = dets.length ∧
    (∀ j, (gateTo thr dets cm asg tracks k).detectionAssigned.getD j false =
      (List.range k).any fun i => selOf thr cm asg i == some j) := by
  induction k with
  | zero =>
    refine ⟨fun i => ?_, rfl, rfl, List.length_replicate _ _, fun j => ?_⟩
    · show tracks[i]? = _
      cases tracks[i]? <;> simp
    · show (List.replicate dets.length false).getD j false = _
      rw [List.getD_eq_getElem?_getD, List.getElem?_replicate]
      split <;> simp
  | succ k ih =>
    rw [gateTo_succ, gateRow_eq]
    generalize gateTo thr dets cm asg tracks k = g at ih ⊢
    obtain ⟨h1, h2, h3, h4, h5⟩ := ih
    rw [List.range_succ, List.filter_append, List.map_append]
    cases hs : selOf thr cm asg k with
    | none =>
      refine ⟨fun i => ?_, ?_, ?_, h4, fun j => ?_⟩
      · rw [h1]
        by_cases hik : i = k
        · subst hik
          cases tracks[i]? with
          | none => rfl
          | some t => simp [updateSel, hs]
        · have : i < k + 1 ↔ i < k := by omega
          simp only [this]
      · simp [h2, hs]
      · simp [h3, hs]
      · rw [h5]; simp [hs]
    | some j0 =>
      have hj0 := hlt k j0 hs
      refine ⟨fun i => ?_, ?_, ?_, ?_, fun j => ?_⟩
      · show (List.modify _ k g.tracks)[i]? = _
        rw [List.getElem?_modify, h1]
        by_cases hik : k = i
        · subst hik
          cases tracks[k]? with
          | none => rfl
          | some t => simp [updateSel, hs]
        · have hik' : ¬ i = k := fun e => hik e.symm
          have : i < k + 1 ↔ i < k := by omega
          simp only [this, if_neg hik]
          cases tracks[i]? <;> rfl
      · simp [h2, hs]
      · simp [h3, hs]
      · show (g.detectionAssigned.set j0 true).length = _
        rw [List.length_set]; exact h4
      · show (g.detectionAssigned.set j0 true).getD j false = _
        rw [List.getD_eq_getElem?_getD, List.getElem?_set]
        by_cases hj : j0 = j
        · subst hj
          rw [if_pos rfl, if_pos (by omega)]
          simp [hs]
        · rw [if_neg hj, ← List.getD_eq_getElem?_getD, h5]
          simp [hs, hj]

/-! ## `associateDetectionsToTracks` in closed form -/

theorem updateAll_getElem? (sel : Nat → Option Nat) (dets : List (Vector3 K)) :
    ∀ (ts : List (Track K)) (o i : Nat),
      (updateAll sel dets o ts)[i]? = (ts[i]?).map (updateSel sel dets (o + i)) := by
  intro ts
  induction ts with
  | nil => intro o i; rfl
  | cons t ts ih =>
    intro o i
    cases i with
    | zero => simp [updateAll]
    | succ i =>
      simp only [updateAll, List.getElem?_cons_succ]
      rw [ih]
      have : o + 1 + i = o + (i + 1) := by omega
      rw [this]

theorem updateAll_length (sel : Nat → Option Nat) (dets : List (Vector3 K)) :
    ∀ (ts : List (Track K)) (o : Nat), (updateAll sel dets o ts).length = ts.length := by
  intro ts
  induction ts with
  | nil => intro o; rfl
  | cons t ts ih => intro o; simp [updateAll, ih]

theorem costMatrixOf_row (norm : Vector3 K → K) (tracks : List (Track K))
    (dets : List (Vector3 K)) (i : Nat) :
    ((costMatrixOf norm tracks dets).getD i []).length = if i < tracks.length then dets.length
      else 0 := by
  unfold costMatrixOf
  rw [List.getD_eq_getElem?_getD, List.getElem?_map]
  by_cases h : i < tracks.length
  · rw [List.getElem?_eq_getElem h, if_pos h]
    simp
  · rw [List.getElem?_eq_none (by omega), if_neg h]
    rfl

theorem selOf_lt (norm : Vector3 K → K) (thr : K) (tracks : List (Track K))
    (dets : List (Vector3 K)) (asg : List Int) (i j : Nat)
    (h : selOf thr (costMatrixOf norm tracks dets) asg i = some j) :
    i < tracks.length ∧ j < dets.length := by
  unfold selOf at h
  split at h
  · rename_i hc
    have hj := Option.some.inj h
    have hl := hc.2.1.2
    rw [costMatrixOf_row] at hl
    by_cases hi : i < tracks.length
    · rw [if_pos hi] at hl
      exact ⟨hi, hj ▸ hl⟩
    · rw [if_neg hi] at hl
      omega
  · exact Option.noConfusion h

/-- When `hungarianAlgorithm` returns `asg`, `associateDetectionsToTracks` returns the
association determined by the selection that gates `asg`, whatever the rounding. -/
theorem associate_of (rnd : K → K) (norm : Vector3 K → K) (tr : Tracker K)
    (dets : List (Vector3 K)) (fuel : Nat) (asg : List Int) (hemp : tr.tracks ≠ [])
    (hl : asg.length = tr.tracks.length)
    (hf : hungarianAlgorithm rnd fuel (costMatrixOf norm tr.tracks dets) = some asg) :
    associateDetectionsToTracks rnd fuel norm tr dets =
      some (assocSpec (selOf tr.distanceThreshold (costMatrixOf norm tr.tracks dets) asg)
        tr.tracks dets) := by
  unfold associateDetectionsToTracks
  have hne : tr.tracks.isEmpty = false := by
    cases htr : tr.tracks with
    | nil => exact absurd htr hemp
    | cons _ _ => rfl
  rw [hne]
  simp only [Bool.false_eq_true, if_false]
  rw [hf]
  simp only [Option.map_some']
  have hgs := gate_spec tr.distanceThreshold dets (costMatrixOf norm tr.tracks dets) asg
    tr.tracks (fun i j h => (selOf_lt norm _ tr.tracks dets asg i j h).2) asg.length
  change _ ∧ _ ∧ _ ∧ _ ∧ _ at hgs
  have hfold : (List.range asg.length).foldl
      (gateRow tr.distanceThreshold dets (costMatrixOf norm tr.tracks dets) asg)
      ⟨tr.tracks, [], List.replicate dets.length false, []⟩ =
      gateTo tr.distanceThreshold dets (costMatrixOf norm tr.tracks dets) asg tr.tracks
        asg.length := rfl
  rw [hfold]
  generalize gateTo tr.distanceThreshold dets (costMatrixOf norm tr.tracks dets) asg tr.tracks
    asg.length = g at hgs ⊢
  obtain ⟨h1, h2, h3, h4, h5⟩ := hgs
  have htracks : g.tracks =
      updateAll (selOf tr.distanceThreshold (costMatrixOf norm tr.tracks dets) asg) dets 0
        tr.tracks := by
    apply List.ext_getElem?
    intro i
    rw [h1, updateAll_getElem?]
    by_cases hi : i < tr.tracks.length
    · rw [List.getElem?_eq_getElem hi]
      simp [hl, hi]
    · rw [List.getElem?_eq_none (by omega)]
      rfl
  have hglen : g.tracks.length = tr.tracks.length := by
    rw [htracks, updateAll_length]
  unfold assocSpec
  congr 1
  rw [htracks, h2, h3, hl]
  congr 1
  · rw [updateAll_length]
    apply List.filter_congr
    intro i hi
    have hi' : i < tr.tracks.length := List.mem_range.mp hi
    cases hs : selOf tr.distanceThreshold (costMatrixOf norm tr.tracks dets) asg i with
    | none => simp [hs]
    | some j => simp [hs, hi']
  · unfold freeDetections
    apply List.filter_congr
    intro j _
    rw [h5, hl]

theorem costMatrixOf_cols (norm : Vector3 K → K) (tracks : List (Track K))
    (dets : List (Vector3 K)) (hemp : tracks ≠ []) :
    ((costMatrixOf norm tracks dets).getD 0 []).length = dets.length := by
  cases tracks with
  | nil => exact absurd rfl hemp
  | cons t ts => simp [costMatrixOf]

/-- Whenever `associateDetectionsToTracks` returns, whatever the rounding of the solver, it
returns the association determined by the selection that gates a list `asg` with one entry
per track, entries `-1` or detection indices, no detection twice, and no `-1` when there
are at least as many detections as tracks. -/
theorem associate_some (rnd : K → K) (norm : Vector3 K → K) (tr : Tracker K)
    (dets : List (Vector3 K)) (fuel : Nat) (as : Association K)
    (h : associateDetectionsToTracks rnd fuel norm tr dets = some as) :
    ∃ asg : List Int,
      asg.length = tr.tracks.length ∧
      (∀ e ∈ asg, -1 ≤ e ∧ e < (dets.length : Int)) ∧
      (∀ (r r1 : Nat) (e : Int), asg[r]? = some e → asg[r1]? = some e → e ≠ -1 → r = r1) ∧
      (1 ≤ tr.tracks.length → tr.tracks.length ≤ dets.length → ∀ e ∈ asg, -1 < e) ∧
      as = assocSpec (selOf tr.distanceThreshold (costMatrixOf norm tr.tracks dets) asg)
        tr.tracks dets := by
  by_cases hemp : tr.tracks = []
  · refine ⟨[], by simp [hemp], ?_, ?_, ?_, ?_⟩
    · intro e he; exact absurd he (List.not_mem_nil e)
    · intro r r1 e h1; simp at h1
    · intro _ _ e he; exact absurd he (List.not_mem_nil e)
    · unfold associateDetectionsToTracks at h
      rw [hemp] at h ⊢
      simp only [List.isEmpty_nil, if_true] at h
      rw [← Option.some.inj h]
      simp [assocSpec, updateAll, freeDetections]
  · have hcl : (costMatrixOf norm tr.tracks dets).length = tr.tracks.length := by
      unfold costMatrixOf; simp
    have hcols := costMatrixOf_cols norm tr.tracks dets hemp
    cases hs : hungarianAlgorithm rnd fuel (costMatrixOf norm tr.tracks dets) with
    | none =>
      exfalso
      unfold associateDetectionsToTracks at h
      have hne : tr.tracks.isEmpty = false := by
        cases htr : tr.tracks with
        | nil => exact absurd htr hemp
        | cons _ _ => rfl
      rw [hne] at h
      simp only [Bool.false_eq_true, if_false] at h
      rw [hs] at h
      exact Option.noConfusion h
    | some asg =>
      obtain ⟨hl, hrange, hdist, hfull, _⟩ := hungarian_shape rnd _ fuel asg hs
      rw [hcl] at hl hfull
      rw [hcols] at hrange hfull
      have hof := associate_of rnd norm tr dets fuel asg hemp hl hs
      rw [h] at hof
      refine ⟨asg, hl, hrange, hdist, ?_, Option.some.inj hof⟩
      intro _ h2 e he
      have h3 := hfull h2 e he
      have h4 := (hrange e he).1
      omega

/-- With enough fuel `associateDetectionsToTracks` returns, in exact arithmetic, the
association determined by the selection that gates the result `asg` of
`hungarianAlgorithm`. -/
theorem associate_spec (norm : Vector3 K → K) (tr : Tracker K) (dets : List (Vector3 K))
    (hnorm : ∀ t ∈ tr.tracks, ∀ d ∈ dets, 0 ≤ norm (t.getState - d)) :
    ∃ (f0 : Nat) (asg : List Int),
      asg.length = tr.tracks.length ∧
      (∀ e ∈ asg, -1 ≤ e ∧ e < (dets.length : Int)) ∧
      (∀ (r r1 : Nat) (e : Int), asg[r]? = some e → asg[r1]? = some e → e ≠ -1 → r = r1) ∧
      (1 ≤ tr.tracks.length → tr.tracks.length ≤ dets.length → ∀ e ∈ asg, -1 < e) ∧
      ∀ fuel, f0 ≤ fuel → associateDetectionsToTracks id fuel norm tr dets =
        some (assocSpec (selOf tr.distanceThreshold (costMatrixOf norm tr.tracks dets) asg)
          tr.tracks dets) := by
  by_cases hemp : tr.tracks = []
  · refine ⟨0, [], by simp [hemp], ?_, ?_, ?_, fun fuel _ => ?_⟩
    · intro e he; exact absurd he (List.not_mem_nil e)
    · intro r r1 e h; simp at h
    · intro _ _ e he; exact absurd he (List.not_mem_nil e)
    · unfold associateDetectionsToTracks
      rw [hemp]
      simp [assocSpec, updateAll, freeDetections]
  · have hrect : ∀ row ∈ costMatrixOf norm tr.tracks dets, row.length = dets.length := by
      intro row hrow
      unfold costMatrixOf at hrow
      obtain ⟨t, _, rfl⟩ := List.mem_map.mp hrow
      simp
    have hnn : ∀ row ∈ costMatrixOf norm tr.tracks dets, ∀ x ∈ row, (0 : K) ≤ x := by
      intro row hrow x hx
      unfold costMatrixOf at hrow
      obtain ⟨t, ht, rfl⟩ := List.mem_map.mp hrow
      obtain ⟨d, hd, rfl⟩ := List.mem_map.mp hx
      exact hnorm t ht d hd
    have hcl : (costMatrixOf norm tr.tracks dets).length = tr.tracks.length := by
      unfold costMatrixOf; simp
    obtain ⟨f0, asg, hf, hl, hrange, hdist, hfull⟩ :=
      hungarian_total (costMatrixOf norm tr.tracks dets) dets.length hrect hnn
    rw [hcl] at hl hfull
    refine ⟨f0, asg, hl, hrange, hdist, ?_, fun fuel hfuel =>
      associate_of id norm tr dets fuel asg hemp hl (hf fuel hfuel)⟩
    intro _ h2 e he
    have h3 := hfull h2 e he
    have h4 := (hrange e he).1
    omega

/-! ## `updateTracks` in closed form -/

theorem spawn_fold (dets : List (Vector3 K)) :
    ∀ (js : List Nat) (tr : Tracker K),
      js.foldl (spawn dets) tr =
        { tr with
          tracks := tr.tracks ++ spawnAll dets tr.settings tr.trackId js
          trackId := tr.trackId + js.length } := by
  intro js
  induction js with
  | nil => intro tr; simp [spawnAll]
  | cons j js ih =>
    intro tr
    rw [List.foldl_cons, ih]
    simp only [spawn, spawnAll, List.append_assoc, List.singleton_append, List.length_cons,
      Nat.cast_add, Nat.cast_one]
    congr 1
    ring

theorem ageOrErase_cons (maxAge maxCM : Int) (a : Track K) (l : List (Track K)) (n : Nat) :
    ageOrErase maxAge maxCM (a :: l) (n + 1) = a :: ageOrErase maxAge maxCM l n := by
  unfold ageOrErase
  simp only [List.modify_succ_cons, List.get?_cons_succ]
  cases h : (List.modify (fun t => { t with timeSinceUpdate := t.timeSinceUpdate + 1 }) n l).get? n with
  | none => rfl
  | some t =>
    simp only
    split <;> rfl

theorem ageOrErase_zero (maxAge maxCM : Int) (t : Track K) (l : List (Track K)) :
    ageOrErase maxAge maxCM (t :: l) 0 = (cullOne maxAge maxCM t).toList ++ l := by
  unfold ageOrErase cullOne
  simp only [List.modify_zero_cons, List.get?_cons_zero]
  split <;> rfl

theorem ageOrErase_at (maxAge maxCM : Int) (t : Track K) (C : List (Track K)) :
    ∀ A : List (Track K), ageOrErase maxAge maxCM (A ++ t :: C) A.length =
      A ++ ((cullOne maxAge maxCM t).toList ++ C) := by
  intro A
  induction A with
  | nil => exact ageOrErase_zero maxAge maxCM t C
  | cons a A ih =>
    show ageOrErase maxAge maxCM (a :: (A ++ t :: C)) (A.length + 1) = _
    rw [ageOrErase_cons, ih]
    rfl

theorem cullTo_succ (maxAge maxCM : Int) (q : Nat → Bool) (k : Nat) (L : List (Track K)) :
    cullTo maxAge maxCM q (k + 1) L =
      cullTo maxAge maxCM q k (if q k then ageOrErase maxAge maxCM L k else L) := by
  unfold cullTo
  rw [List.range_succ, List.foldr_append]
  rfl

theorem cullAll_append (maxAge maxCM : Int) (q : Nat → Bool) :
    ∀ (A B : List (Track K)) (o : Nat),
      cullAll maxAge maxCM q o (A ++ B) =
        cullAll maxAge maxCM q o A ++ cullAll maxAge maxCM q (o + A.length) B := by
  intro A
  induction A with
  | nil => intro B o; simp [cullAll]
  | cons a A ih =>
    intro B o
    have e : o + 1 + A.length = o + (A.length + 1) := by omega
    show _ ++ cullAll maxAge maxCM q (o + 1) (A ++ B) =
      (_ ++ cullAll maxAge maxCM q (o + 1) A) ++
        cullAll maxAge maxCM q (o + (A.length + 1)) B
    rw [ih, List.append_assoc, e]

theorem cull_spec (maxAge maxCM : Int) (q : Nat → Bool) :
    ∀ (A C : List (Track K)),
      cullTo maxAge maxCM q A.length (A ++ C) = cullAll maxAge maxCM q 0 A ++ C := by
  intro A
  induction A using List.reverseRecOn with
  | nil => intro C; rfl
  | append_singleton A t ih =>
    intro C
    rw [List.length_append, List.length_singleton, cullTo_succ, cullAll_append]
    simp only [List.append_assoc, List.singleton_append, zero_add, cullAll, List.append_nil]
    by_cases hq : q A.length = true
    · rw [if_pos hq, if_pos hq, ageOrErase_at, ih]
    · rw [if_neg hq, if_neg hq, ih]
      rfl

theorem foldr_filter_eq {α β : Type} (q : α → Bool) (f : α → β → β) (b : β) :
    ∀ l : List α, (l.filter q).foldr f b = l.foldr (fun x acc => if q x then f x acc else acc) b := by
  intro l
  induction l with
  | nil => rfl
  | cons x l ih =>
    by_cases hq : q x = true
    · rw [List.filter_cons_of_pos hq, List.foldr_cons, List.foldr_cons, if_pos hq, ih]
    · rw [List.filter_cons_of_neg hq, List.foldr_cons, if_neg hq, ih]

theorem sort_desc_filter_range (q : Nat → Bool) (m : Nat) :
    ((List.range m).filter q).insertionSort (fun i j => i ≥ j) =
      ((List.range m).filter q).reverse := by
  apply List.eq_of_perm_of_sorted (r := fun i j : Nat => i ≥ j)
  · exact (List.perm_insertionSort _ _).trans (List.reverse_perm _).symm
  · exact List.sorted_insertionSort _ _
  · have h : List.Sorted (fun x1 x2 : Nat => x1 < x2) ((List.range m).filter q) :=
      List.Sorted.filter q (List.sorted_lt_range m)
    unfold List.Sorted at h ⊢
    rw [List.pairwise_reverse]
    exact h.imp (fun hab => le_of_lt hab)

theorem cull_all_update (maxAge maxCM : Int) (sel : Nat → Option Nat)
    (dets : List (Vector3 K)) :
    ∀ (ts : List (Track K)) (o : Nat),
      cullAll maxAge maxCM (fun i => (sel i).isNone) o (updateAll sel dets o ts) =
        oldAll maxAge maxCM sel dets o ts := by
  intro ts
  induction ts with
  | nil => intro o; rfl
  | cons t ts ih =>
    intro o
    simp only [updateAll, cullAll, oldAll, ih]
    congr 1
    rcases Option.eq_none_or_eq_some (sel o) with h | ⟨j, h⟩
    · simp [h, updateSel, oldOne]
    · simp [h, updateSel, oldOne]

/-- When `associateDetectionsToTracks` returns the association of a selection `sel`,
`updateTracks` returns `updateSpec sel`, whatever the rounding. -/
theorem updateTracks_of (rnd : K → K) (norm : Vector3 K → K) (tr : Tracker K)
    (dets : List (Vector3 K)) (fuel : Nat) (sel : Nat → Option Nat)
    (h : associateDetectionsToTracks rnd fuel norm tr dets =
      some (assocSpec sel tr.tracks dets)) :
    updateTracks rnd fuel norm tr dets = some (updateSpec sel tr dets) := by
  unfold updateTracks
  rw [h]
  simp only [Option.map_some']
  congr 1
  unfold updateSpec assocSpec
  simp only
  rw [spawn_fold, sort_desc_filter_range, List.foldl_reverse, foldr_filter_eq]
  simp only
  have hc := cull_spec tr.maxAge tr.maxConsecutiveMisses
    (fun i => (sel i).isNone)
    (updateAll sel dets 0
      tr.tracks)
    (spawnAll dets tr.settings tr.trackId
      (freeDetections sel
        tr.tracks.length dets))
  rw [updateAll_length] at hc
  unfold cullTo at hc
  rw [hc, cull_all_update]

/-- With enough fuel `updateTracks` returns the closed form `updateSpec` for the selection
that gates the result `asg` of `hungarianAlgorithm`. -/
theorem updateTracks_spec (norm : Vector3 K → K) (tr : Tracker K) (dets : List (Vector3 K))
    (hnorm : ∀ t ∈ tr.tracks, ∀ d ∈ dets, 0 ≤ norm (t.getState - d)) :
    ∃ (f0 : Nat) (asg : List Int),
      asg.length = tr.tracks.length ∧
      (∀ e ∈ asg, -1 ≤ e ∧ e < (dets.length : Int)) ∧
      (∀ (r r1 : Nat) (e : Int), asg[r]? = some e → asg[r1]? = some e → e ≠ -1 → r = r1) ∧
      (1 ≤ tr.tracks.length → tr.tracks.length ≤ dets.length → ∀ e ∈ asg, -1 < e) ∧
      ∀ fuel, f0 ≤ fuel →
        associateDetectionsToTracks id fuel norm tr dets =
          some (assocSpec (selOf tr.distanceThreshold (costMatrixOf norm tr.tracks dets) asg)
            tr.tracks dets) ∧
        updateTracks id fuel norm tr dets =
          some (updateSpec (selOf tr.distanceThreshold (costMatrixOf norm tr.tracks dets) asg)
            tr dets) := by
  obtain ⟨f0, asg, hl, hr, hd, hfull, hf⟩ := associate_spec norm tr dets hnorm
  refine ⟨f0, asg, hl, hr, hd, hfull, fun fuel hfuel => ⟨hf fuel hfuel, ?_⟩⟩
  exact updateTracks_of id norm tr dets fuel _ (hf fuel hfuel)

/-! ## More fuel does not change a result -/

theorem searchLoop_mono {rnd : K → K} (n : Nat) (a : Nat → Nat → K) :
    ∀ (f : Nat) (s r : Search K), searchLoop rnd n a f s = some r →
      ∀ g, f ≤ g → searchLoop rnd n a g s = some r := by
  intro f
  induction f with
  | zero => intro s r h; exact Option.noConfusion h
  | succ f ih =>
    intro s r h g hg
    obtain ⟨g1, rfl⟩ : ∃ g1, g = g1 + 1 := ⟨g - 1, by omega⟩
    unfold searchLoop at h ⊢
    dsimp only at h ⊢
    split at h
    · rename_i hc
      rw [if_pos hc]
      exact ih _ _ h g1 (by omega)
    · rename_i hc
      rw [if_neg hc]
      exact h

theorem augmentLoop_mono (way : Nat → Nat) :
    ∀ (f : Nat) (p : Nat → Nat) (j0 : Nat) (r : Nat → Nat), augmentLoop way f p j0 = some r →
      ∀ g, f ≤ g → augmentLoop way g p j0 = some r := by
  intro f
  induction f with
  | zero => intro p j0 r h; exact Option.noConfusion h
  | succ f ih =>
    intro p j0 r h g hg
    obtain ⟨g1, rfl⟩ : ∃ g1, g = g1 + 1 := ⟨g - 1, by omega⟩
    unfold augmentLoop at h ⊢
    dsimp only at h ⊢
    split at h
    · rename_i hc
      rw [if_pos hc]
      exact ih _ _ _ h g1 (by omega)
    · rename_i hc
      rw [if_neg hc]
      exact h

theorem addRow_mono {rnd : K → K} (n : Nat) (a : Nat → Nat → K) (d r : Duals K) (i f g : Nat) (hfg : f ≤ g)
    (h : addRow rnd f n a d i = some r) : addRow rnd g n a d i = some r := by
  unfold addRow at h ⊢
  cases hs : searchLoop rnd n a f
      { u := d.u, v := d.v, p := Function.update d.p 0 i, way := d.way,
        minv := fun _ => INF, used := fun _ => false, j0 := 0 } with
  | none => rw [hs] at h; exact Option.noConfusion h
  | some s =>
    rw [hs] at h
    rw [searchLoop_mono n a f _ s hs g hfg]
    simp only [Option.some_bind] at h ⊢
    cases ha : augmentLoop s.way f s.p s.j0 with
    | none => rw [ha] at h; exact Option.noConfusion h
    | some p =>
      rw [ha] at h
      rw [augmentLoop_mono s.way f _ _ p ha g hfg]
      exact h

theorem solveTo_mono {rnd : K → K} (n : Nat) (a : Nat → Nat → K) (f g : Nat) (hfg : f ≤ g) :
    ∀ (i : Nat) (r : Duals K), solveTo rnd f n a i = some r → solveTo rnd g n a i = some r := by
  intro i
  induction i with
  | zero => intro r h; exact h
  | succ i ih =>
    intro r h
    rw [solveTo_succ] at h ⊢
    cases hs : solveTo rnd f n a i with
    | none => rw [hs] at h; exact Option.noConfusion h
    | some d =>
      rw [hs] at h
      rw [ih d hs]
      simp only [Option.some_bind] at h ⊢
      exact addRow_mono n a d r (i + 1) f g hfg h

theorem hungarianAlgorithm_mono {rnd : K → K} (cm : List (List K)) (f g : Nat) (hfg : f ≤ g) (r : List Int)
    (h : hungarianAlgorithm rnd f cm = some r) : hungarianAlgorithm rnd g cm = some r := by
  unfold hungarianAlgorithm at h ⊢
  dsimp only at h ⊢
  split
  · rename_i h0; rw [if_pos h0] at h; exact h
  · rename_i h0
    rw [if_neg h0] at h
    split
    · rename_i h1
      rw [if_pos h1] at h
      rw [solve_eq_solveTo] at h ⊢
      cases hs : solveTo rnd f (max cm.length (cm.getD 0 []).length)
          (padded cm.length (cm.getD 0 []).length cm) (max cm.length (cm.getD 0 []).length) with
      | none => rw [hs] at h; exact Option.noConfusion h
      | some d =>
        rw [hs] at h
        rw [solveTo_mono _ _ f g hfg _ d hs]
        exact h
    · rename_i h1; rw [if_neg h1] at h; exact Option.noConfusion h

theorem associate_mono {rnd : K → K} (norm : Vector3 K → K) (tr : Tracker K) (dets : List (Vector3 K))
    (f g : Nat) (hfg : f ≤ g) (r : Association K)
    (h : associateDetectionsToTracks rnd f norm tr dets = some r) :
    associateDetectionsToTracks rnd g norm tr dets = some r := by
  unfold associateDetectionsToTracks at h ⊢
  split
  · rename_i h0; rw [if_pos h0] at h; exact h
  · rename_i h0
    rw [if_neg h0] at h
    dsimp only at h ⊢
    cases hs : hungarianAlgorithm rnd f (costMatrixOf norm tr.tracks dets) with
    | none => rw [hs] at h; exact Option.noConfusion h
    | some asg =>
      rw [hs] at h
      rw [hungarianAlgorithm_mono _ f g hfg asg hs]
      exact h

theorem updateTracks_mono {rnd : K → K} (norm : Vector3 K → K) (tr : Tracker K) (dets : List (Vector3 K))
    (f g : Nat) (hfg : f ≤ g) (r : Tracker K) (h : updateTracks rnd f norm tr dets = some r) :
    updateTracks rnd g norm tr dets = some r := by
  unfold updateTracks at h ⊢
  cases hs : associateDetectionsToTracks rnd f norm tr dets with
  | none => rw [hs] at h; exact Option.noConfusion h
  | some as =>
    rw [hs] at h
    rw [associate_mono norm tr dets f g hfg as hs]
    exact h

theorem step_mono {rnd : K → K} (norm : Vector3 K → K) (tr : Tracker K) (dets : List (Vector3 K))
    (f g : Nat) (hfg : f ≤ g) (r : Tracker K) (h : step rnd f norm tr dets = some r) :
    step rnd g norm tr dets = some r :=
  updateTracks_mono norm (predictTracks tr) dets f g hfg r h

/-! ## One frame in closed form -/

theorem oldAll_predict (maxAge maxCM minHits : Int) (sel : Nat → Option Nat)
    (dets : List (Vector3 K)) :
    ∀ (ts : List (Track K)) (o : Nat),
      (oldAll maxAge maxCM sel dets o (ts.map fun t => t.predict.1)).map (sweep minHits) =
        (ts.enumFrom o).filterMap
          (fun it => frameOne maxAge maxCM minHits sel dets it.1 it.2) := by
  intro ts
  induction ts with
  | nil => intro o; rfl
  | cons t ts ih =>
    intro o
    simp only [List.map_cons, oldAll, List.map_append, ih, List.enumFrom_cons,
      List.filterMap_cons, frameOne]
    cases h : oldOne maxAge maxCM sel dets o t.predict.1 <;> simp

theorem updateSpec_predict (sel : Nat → Option Nat) (tr : Tracker K) (dets : List (Vector3 K)) :
    updateSpec sel (predictTracks tr) dets = stepSpec sel tr dets := by
  unfold updateSpec stepSpec predictTracks spawnedTracks
  simp only [List.map_append, List.length_map]
  rw [oldAll_predict]
  rfl

theorem selOf_getElem (thr : K) (cm : List (List K)) (asg : List Int) (i j : Nat)
    (h : selOf thr cm asg i = some j) : asg[i]? = some (j : Int) ∧ (j : Int) ≠ -1 := by
  unfold selOf at h
  split at h
  · rename_i hc
    have hj := Option.some.inj h
    obtain ⟨h1, ⟨h2, _⟩, _⟩ := hc
    have hlt : i < asg.length := by
      by_contra hn
      rw [List.getD_eq_default _ _ (by omega)] at h1
      exact h1 rfl
    rw [List.getD_eq_getElem _ _ hlt] at h1 h2 hj
    rw [List.getElem?_eq_getElem hlt]
    constructor
    · congr 1; omega
    · omega
  · exact Option.noConfusion h

/-- The selection that gates a list `asg` with one entry per track, entries `-1` or
detection indices, no detection twice and no `-1` when there are at least as many
detections as tracks, has the properties `SelOK`. -/
theorem selOK_of (norm : Vector3 K → K) (tr : Tracker K) (dets : List (Vector3 K))
    (asg : List Int) (hl : asg.length = (predictTracks tr).tracks.length)
    (hr : ∀ e ∈ asg, -1 ≤ e ∧ e < (dets.length : Int))
    (hd : ∀ (r r1 : Nat) (e : Int), asg[r]? = some e → asg[r1]? = some e → e ≠ -1 → r = r1)
    (hfull : 1 ≤ (predictTracks tr).tracks.length →
      (predictTracks tr).tracks.length ≤ dets.length → ∀ e ∈ asg, -1 < e) :
    SelOK norm tr dets
      (selOf tr.distanceThreshold (costMatrixOf norm (predictTracks tr).tracks dets) asg) := by
  have hlen : (predictTracks tr).tracks.length = tr.tracks.length := by
    unfold predictTracks; simp
  have hthr : (predictTracks tr).distanceThreshold = tr.distanceThreshold := rfl
  have hrow : ∀ i t, tr.tracks[i]? = some t → ∀ j, j < dets.length →
      ((costMatrixOf norm (predictTracks tr).tracks dets).getD i []).getD j 0 =
        norm (t.predict.1.getState - dets.getD j 0) := by
    intro i t hi j hj
    have hil : i < tr.tracks.length := (List.getElem?_eq_some.mp hi).1
    have hie : tr.tracks[i] = t := (List.getElem?_eq_some.mp hi).2
    unfold costMatrixOf predictTracks
    simp only [List.getD_eq_getElem?_getD, List.getElem?_map,
      List.getElem?_eq_getElem hil, List.getElem?_eq_getElem hj, Option.map_some',
      Option.getD_some, hie]
  refine ⟨?_, ?_, ?_⟩
  · intro i j hs
    have h1 := selOf_lt norm _ _ dets asg i j hs
    rw [hlen] at h1
    refine ⟨h1.2, tr.tracks[i], List.getElem?_eq_getElem h1.1, ?_⟩
    have hs1 := hs
    unfold selOf at hs1
    split at hs1
    · rename_i hc
      have hj := Option.some.inj hs1
      rw [hj] at hc
      rw [← hrow i _ (List.getElem?_eq_getElem h1.1) j h1.2]
      exact hc.2.2
    · exact Option.noConfusion hs1
  · intro i i1 j hs hs1
    have h1 := selOf_getElem _ _ _ i j hs
    have h2 := selOf_getElem _ _ _ i1 j hs1
    exact hd i i1 j h1.1 h2.1 h1.2
  · intro hle i t hi hs
    have hil : i < tr.tracks.length := (List.getElem?_eq_some.mp hi).1
    have hia : i < asg.length := by omega
    have hmem : asg[i] ∈ asg := List.getElem_mem hia
    have h1 := hfull (by omega) (by omega) _ hmem
    have h2 := (hr _ hmem).2
    refine ⟨(asg[i]).toNat, by omega, ?_⟩
    rw [← hrow i t hi _ (by omega)]
    unfold selOf at hs
    split at hs
    · exact Option.noConfusion hs
    · rename_i hc
      rw [List.getD_eq_getElem _ _ hia] at hc
      by_contra hcon
      apply hc
      refine ⟨by omega, ⟨by omega, ?_⟩, not_le.mp hcon⟩
      rw [costMatrixOf_row, hlen, if_pos hil]
      omega

/-- When `associateDetectionsToTracks` returns the association of a selection `sel` for the
predicted tracks, the frame returns `stepSpec sel`, whatever the rounding. -/
theorem step_of (rnd : K → K) (norm : Vector3 K → K) (tr : Tracker K) (dets : List (Vector3 K))
    (fuel : Nat) (sel : Nat → Option Nat)
    (h : associateDetectionsToTracks rnd fuel norm (predictTracks tr) dets =
      some (assocSpec sel (predictTracks tr).tracks dets)) :
    step rnd fuel norm tr dets = some (stepSpec sel tr dets) := by
  unfold step
  rw [updateTracks_of rnd norm (predictTracks tr) dets fuel sel h, updateSpec_predict]

/-- Whenever a frame returns, whatever the rounding of the solver, it returns the closed form
`stepSpec sel` of a selection `sel` with the properties `SelOK`, and
`associateDetectionsToTracks` has returned the association of `sel`. -/
theorem step_assoc (rnd : K → K) (norm : Vector3 K → K) (tr tr1 : Tracker K)
    (dets : List (Vector3 K)) (fuel : Nat) (h : step rnd fuel norm tr dets = some tr1) :
    ∃ sel, SelOK norm tr dets sel ∧
      associateDetectionsToTracks rnd fuel norm (predictTracks tr) dets =
        some (assocSpec sel (predictTracks tr).tracks dets) ∧
      tr1 = stepSpec sel tr dets := by
  cases has : associateDetectionsToTracks rnd fuel norm (predictTracks tr) dets with
  | none =>
    exfalso
    unfold step updateTracks at h
    rw [has] at h
    exact Option.noConfusion h
  | some as =>
    obtain ⟨asg, hl, hr, hd, hfull, he⟩ := associate_some rnd norm (predictTracks tr) dets fuel
      as has
    have hthr : (predictTracks tr).distanceThreshold = tr.distanceThreshold := rfl
    rw [hthr] at he
    refine ⟨_, selOK_of norm tr dets asg hl hr hd hfull, by rw [he], ?_⟩
    have hs := step_of rnd norm tr dets fuel _ (by rw [← he]; exact has)
    rw [h] at hs
    exact Option.some.inj hs

/-- With enough fuel one frame returns the closed form `stepSpec` for a selection with the
properties `SelOK`. -/
theorem step_spec (norm : Vector3 K → K) (tr : Tracker K) (dets : List (Vector3 K))
    (hnorm : ∀ t ∈ tr.tracks, ∀ d ∈ dets, 0 ≤ norm (t.predict.1.getState - d)) :
    ∃ (f0 : Nat) (sel : Nat → Option Nat), SelOK norm tr dets sel ∧
      ∀ fuel, f0 ≤ fuel →
        associateDetectionsToTracks id fuel norm (predictTracks tr) dets =
          some (assocSpec sel (predictTracks tr).tracks dets) ∧
        step id fuel norm tr dets = some (stepSpec sel tr dets) := by
  have hnorm1 : ∀ t ∈ (predictTracks tr).tracks, ∀ d ∈ dets, 0 ≤ norm (t.getState - d) := by
    intro t ht d hd
    unfold predictTracks at ht
    obtain ⟨t0, ht0, rfl⟩ := List.mem_map.mp ht
    exact hnorm t0 ht0 d hd
  obtain ⟨f0, asg, hl, hr, hd, hfull, hf⟩ := updateTracks_spec norm (predictTracks tr) dets hnorm1
  refine ⟨f0, selOf tr.distanceThreshold (costMatrixOf norm (predictTracks tr).tracks dets) asg,
    selOK_of norm tr dets asg hl hr hd hfull, fun fuel hfuel => ?_⟩
  obtain ⟨ha, _⟩ := hf fuel hfuel
  exact ⟨ha, step_of id norm tr dets fuel _ ha⟩


/-! ## One track and one detection -/

theorem hungarian_one (rnd : K → K) (c : K) (hc : rnd (rnd c) < INF) (fuel : Nat) :
    hungarianAlgorithm rnd (fuel + 1) [[c]] = some [0] := by
  simp [hungarianAlgorithm, solve, addRow, searchLoop, searchBody, scanCol, adjustCol,
    augmentLoop, writeBack, padded, List.range', List.range_succ, Function.update_apply, hc]

/-- On a matrix with one entry the solver returns `[0]` for every fuel of at least two,
whatever the entry, for every rounding that keeps `0`. -/
theorem hungarian_single (rnd : K → K) (h0 : rnd 0 = 0) (c : K) (fuel : Nat) :
    hungarianAlgorithm rnd (fuel + 2) [[c]] = some [0] := by
  have hI : (0 : K) < INF := INF_pos
  by_cases h : rnd (rnd c) < INF
  · exact hungarian_one rnd c h (fuel + 1)
  · by_cases h2 : rnd (rnd (c - rnd INF)) < 0
    · have h3 : rnd (rnd (c - rnd INF)) < INF := lt_trans h2 hI
      simp [hungarianAlgorithm, solve, addRow, searchLoop, searchBody, scanCol, adjustCol,
        augmentLoop, writeBack, padded, List.range', List.range_succ, Function.update_apply, h,
        h0, h2, h3, hI]
    · simp [hungarianAlgorithm, solve, addRow, searchLoop, searchBody, scanCol, adjustCol,
        augmentLoop, writeBack, padded, List.range', List.range_succ, Function.update_apply, h,
        h0, h2, hI]

/-- A frame with one detection on a tracker with one track returns, for every fuel of at
least two and every rounding that keeps `0`, the closed form of a selection with the
properties `SelOK`. -/
theorem step_one (rnd : K → K) (h0 : rnd 0 = 0) (norm : Vector3 K → K) (tr : Tracker K)
    (t : Track K) (z : Vector3 K) (htr : tr.tracks = [t]) (fuel : Nat) (hfuel : 2 ≤ fuel) :
    ∃ sel, SelOK norm tr [z] sel ∧
      associateDetectionsToTracks rnd fuel norm (predictTracks tr) [z] =
        some (assocSpec sel (predictTracks tr).tracks [z]) ∧
      step rnd fuel norm tr [z] = some (stepSpec sel tr [z]) := by
  obtain ⟨f, rfl⟩ : ∃ f, fuel = f + 2 := ⟨fuel - 2, by omega⟩
  have hp : (predictTracks tr).tracks = [t.predict.1] := by
    unfold predictTracks
    simp [htr]
  have hcm : costMatrixOf norm (predictTracks tr).tracks [z] =
      [[norm (t.predict.1.getState - z)]] := by
    rw [hp]; rfl
  have hf : hungarianAlgorithm rnd (f + 2) (costMatrixOf norm (predictTracks tr).tracks [z]) =
      some [0] := by
    rw [hcm]; exact hungarian_single rnd h0 _ f
  have hl : ([0] : List Int).length = (predictTracks tr).tracks.length := by rw [hp]; rfl
  have ha := associate_of rnd norm (predictTracks tr) [z] (f + 2) [0]
    (by rw [hp]; exact List.cons_ne_nil _ _) hl hf
  have hthr : (predictTracks tr).distanceThreshold = tr.distanceThreshold := rfl
  rw [hthr] at ha
  refine ⟨_, selOK_of norm tr [z] [0] hl ?_ ?_ ?_, ha, step_of rnd norm tr [z] (f + 2) _ ha⟩
  · intro e he
    have : e = 0 := by simpa using he
    subst this
    simp
  · intro r r1 e hr hr1 _
    have h1 := (List.getElem?_eq_some.mp hr).1
    have h2 := (List.getElem?_eq_some.mp hr1).1
    simp only [List.length_singleton] at h1 h2
    omega
  · intro _ _ e he
    have : e = 0 := by simpa using he
    subst this
    decide

/-! ## Facts about spawned tracks and the sweep -/

theorem sweep_id (minHits : Int) (t : Track K) : (sweep minHits t).id = t.id := by
  unfold sweep; dsimp only; split <;> split <;> rfl

theorem sweep_positionHistory (minHits : Int) (t : Track K) :
    (sweep minHits t).positionHistory = t.positionHistory := by
  unfold sweep; dsimp only; split <;> split <;> rfl

theorem sweep_hits (minHits : Int) (t : Track K) : (sweep minHits t).hits = t.hits := by
  unfold sweep; dsimp only; split <;> split <;> rfl

theorem sweep_age (minHits : Int) (t : Track K) : (sweep minHits t).age = t.age := by
  unfold sweep; dsimp only; split <;> split <;> rfl

theorem sweep_timeSinceUpdate (minHits : Int) (t : Track K) :
    (sweep minHits t).timeSinceUpdate = t.timeSinceUpdate := by
  unfold sweep; dsimp only; split <;> split <;> rfl

theorem sweep_consecutiveMisses (minHits : Int) (t : Track K) :
    (sweep minHits t).consecutiveMisses = t.consecutiveMisses := by
  unfold sweep; dsimp only; split <;> split <;> rfl

theorem sweep_kalmanFilter (minHits : Int) (t : Track K) :
    (sweep minHits t).kalmanFilter = t.kalmanFilter := by
  unfold sweep; dsimp only; split <;> split <;> rfl

theorem sweep_stage_eq (minHits : Int) (t : Track K) :
    (sweep minHits t).stage =
      if t.hits ≥ minHits ∧ t.stage = TrackStage.INITIALIZED then TrackStage.CONFIRMED
      else t.stage := by
  unfold sweep
  dsimp only
  by_cases h : t.hits ≥ minHits ∧ t.stage = TrackStage.INITIALIZED
  · simp only [if_pos h]; split <;> rfl
  · simp only [if_neg h]; split <;> rfl

theorem sweep_stage (minHits : Int) (t : Track K) :
    (sweep minHits t).stage = TrackStage.CONFIRMED ↔
      (t.stage = TrackStage.CONFIRMED ∨ minHits ≤ t.hits) := by
  rw [sweep_stage_eq]
  cases hst : t.stage <;> by_cases hh : minHits ≤ t.hits <;> simp [hh]

theorem spawnAll_length (dets : List (Vector3 K)) (settings : TrackSettings K) :
    ∀ (js : List Nat) (id : Int), (spawnAll dets settings id js).length = js.length := by
  intro js
  induction js with
  | nil => intro id; rfl
  | cons j js ih => intro id; simp [spawnAll, ih]

theorem spawnAll_history (dets : List (Vector3 K)) (settings : TrackSettings K) :
    ∀ (js : List Nat) (id : Int),
      (spawnAll dets settings id js).map (fun t => t.positionHistory) =
        js.map fun j => [dets.getD j 0] := by
  intro js
  induction js with
  | nil => intro id; rfl
  | cons j js ih => intro id; simp [spawnAll, ih, Track.new]

theorem spawnAll_ids (dets : List (Vector3 K)) (settings : TrackSettings K) :
    ∀ (js : List Nat) (id : Int),
      (spawnAll dets settings id js).map (fun t => t.id) =
        (List.range js.length).map fun (k : Nat) => id + (k : Int) := by
  intro js
  induction js with
  | nil => intro id; rfl
  | cons j js ih =>
    intro id
    rw [List.length_cons, List.range_succ_eq_map]
    simp only [spawnAll, List.map_cons, ih, List.map_map, Track.new]
    congr 1
    · simp
    · apply List.map_congr_left
      intro k _
      simp only [Function.comp, Nat.succ_eq_add_one]
      push_cast
      ring

theorem spawnedTracks_history (sel : Nat → Option Nat) (tr : Tracker K)
    (dets : List (Vector3 K)) :
    (spawnedTracks sel tr dets).map (fun t => t.positionHistory) =
      (freeDetections sel tr.tracks.length dets).map fun j => [dets.getD j 0] := by
  unfold spawnedTracks
  rw [List.map_map, ← spawnAll_history dets tr.settings _ tr.trackId]
  apply List.map_congr_left
  intro t _
  exact sweep_positionHistory _ _

theorem spawnedTracks_ids (sel : Nat → Option Nat) (tr : Tracker K) (dets : List (Vector3 K)) :
    (spawnedTracks sel tr dets).map (fun t => t.id) =
      (List.range (freeDetections sel tr.tracks.length dets).length).map
        fun (k : Nat) => tr.trackId + (k : Int) := by
  unfold spawnedTracks
  rw [List.map_map, ← spawnAll_ids dets tr.settings _ tr.trackId]
  apply List.map_congr_left
  intro t _
  exact sweep_id _ _

/-! ## Every detection is used once -/

theorem calls_count (sel : Nat → Option Nat) (m : Nat) (dets : List (Vector3 K))
    (hinj : ∀ i i1 j, sel i = some j → sel i1 = some j → i = i1)
    (hm : ∀ i j, sel i = some j → i < m) (j : Nat) (hj : j < dets.length) :
    ((((List.range m).filter fun i => (sel i).isSome).map
        fun i => (i, (sel i).getD 0)).map Prod.snd).count j +
      (freeDetections sel m dets).count j = 1 := by
  have hnd : ((((List.range m).filter fun i => (sel i).isSome).map
      fun i => (i, (sel i).getD 0)).map Prod.snd).Nodup := by
    rw [List.map_map]
    apply List.Nodup.map_on
    · intro x hx y hy hxy
      have hx1 := (List.mem_filter.mp hx).2
      have hy1 := (List.mem_filter.mp hy).2
      obtain ⟨jx, hjx⟩ := Option.isSome_iff_exists.mp hx1
      obtain ⟨jy, hjy⟩ := Option.isSome_iff_exists.mp hy1
      simp only [Function.comp, hjx, hjy, Option.getD_some] at hxy
      subst hxy
      exact hinj x y jx hjx hjy
    · exact List.Nodup.filter _ (List.nodup_range m)
  have hnd2 : (freeDetections sel m dets).Nodup :=
    List.Nodup.filter _ (List.nodup_range _)
  have hmem1 : j ∈ ((((List.range m).filter fun i => (sel i).isSome).map
      fun i => (i, (sel i).getD 0)).map Prod.snd) ↔ ∃ i, sel i = some j := by
    rw [List.map_map]
    simp only [List.mem_map, List.mem_filter, List.mem_range, Function.comp]
    constructor
    · rintro ⟨i, ⟨_, hs⟩, hg⟩
      obtain ⟨j1, hj1⟩ := Option.isSome_iff_exists.mp hs
      rw [hj1] at hg
      exact ⟨i, by rw [hj1]; exact congrArg some hg⟩
    · rintro ⟨i, hs⟩
      exact ⟨i, ⟨hm i j hs, by rw [hs]; rfl⟩, by rw [hs]; rfl⟩
  have hmem2 : j ∈ freeDetections sel m dets ↔ ¬ ∃ i, sel i = some j := by
    unfold freeDetections
    simp only [List.mem_filter, List.mem_range, hj, true_and, Bool.not_eq_true',
      List.any_eq_false, beq_iff_eq]
    constructor
    · rintro h ⟨i, hs⟩
      exact h i (hm i j hs) hs
    · intro h i _ hs
      exact h ⟨i, hs⟩
  by_cases hex : ∃ i, sel i = some j
  · rw [List.count_eq_one_of_mem hnd (hmem1.mpr hex),
      List.count_eq_zero_of_not_mem (fun h => (hmem2.mp h) hex)]
  · rw [List.count_eq_zero_of_not_mem (fun h => hex (hmem1.mp h)),
      List.count_eq_one_of_mem hnd2 (hmem2.mpr hex)]

theorem norm1_nonneg (w : Vector3 K) : 0 ≤ norm1 w := by
  unfold norm1; positivity

/-- The scan keeps the first column of least `minv`: every unused column before `j1` has a
larger `minv` than `delta`. -/
theorem scan_first (rnd : K → K) (a : Nat → Nat → K) (u v : Nat → K) (used : Nat → Bool) (i0 j0 : Nat)
    (minv : Nat → K) (way : Nat → Nat) (k : Nat) :
    ∀ j, 1 ≤ j → j < (scanTo rnd a u v used i0 j0 minv way k).j1 → used j = false →
      (scanTo rnd a u v used i0 j0 minv way k).delta <
        (scanTo rnd a u v used i0 j0 minv way k).minv j := by
  induction k with
  | zero => intro j h1 h2; exact absurd h2 (Nat.not_lt_zero j)
  | succ k ih =>
    obtain ⟨_, _, _, hle, hj⟩ := scan_round rnd a u v used i0 j0 minv way k
    rw [scanTo_succ]
    generalize scanTo rnd a u v used i0 j0 minv way k = sc at ih hle hj ⊢
    have hj1 : sc.j1 ≤ k := by
      rcases hj with ⟨h, _⟩ | ⟨_, h, _⟩
      · omega
      · exact h
    intro j h1 h2 h3
    unfold scanCol at h2 ⊢
    by_cases hu : used (k + 1) = true
    · rw [if_pos hu] at h2 ⊢; exact ih j h1 h2 h3
    · rw [if_neg hu] at h2 ⊢
      dsimp only at h2 ⊢
      split_ifs at h2 ⊢ with hc hd hd
      · dsimp only at h2 hd ⊢
        rw [Function.update_same] at hd
        rw [Function.update_same]
        have hjk : j ≠ k + 1 := by omega
        rw [Function.update_noteq hjk]
        exact lt_of_lt_of_le hd (hle j h1 (by omega) h3)
      · dsimp only at h2 hd ⊢
        have hjk : j ≠ k + 1 := by omega
        rw [Function.update_noteq hjk]
        exact ih j h1 h2 h3
      · dsimp only at h2 ⊢
        exact lt_of_lt_of_le hd (hle j h1 (by omega) h3)
      · exact ih j h1 h2 h3

/-! ## The solver on a matrix with constant rows, in any arithmetic that keeps its values -/

/-- The first iteration of the search for row `i + 1` on a matrix with constant rows. When
the row holds `INF`, no column is below `INF`: `delta = INF` and the next column is again
`0`. When it holds a value below `INF`, all columns tie: `delta` is that value and the next
column is `1`. -/
theorem pad_first (rnd : K → K) (h0 : rnd 0 = 0) (n : Nat) (rho : Nat → K)
    (hrho : ∀ r, rnd (rho r) = rho r) (hle : ∀ r, rho r ≤ INF)
    (a : Nat → Nat → K) (ha : ∀ r j, j < n → a r j = rho r) (d : Duals K) (i : Nat)
    (hO : PadOuter n rho d i) (hi : i < n) :
    PadSearch n rho (i + 1) (if rho i < INF then 1 else 0) (searchBody rnd n a
      ⟨d.u, d.v, Function.update d.p 0 (i + 1), d.way, fun _ => INF, fun _ => false, 0⟩) := by
  rw [searchBody_eq]
  dsimp only
  have hU : ∀ j, (Function.update (fun _ => false) 0 true : Nat → Bool) j = true ↔ j = 0 := by
    intro j
    by_cases hj : j = 0
    · subst hj; rw [Function.update_same]; simp
    · rw [Function.update_noteq hj]; simp [hj]
  generalize (Function.update (fun _ => false) 0 true : Nat → Bool) = used1 at hU
  rw [Function.update_same]
  obtain ⟨hm, hw, _, hdle, hj⟩ :=
    scan_round rnd a d.u d.v used1 (i + 1) 0 (fun _ => INF) d.way n
  have hfirst := scan_first rnd a d.u d.v used1 (i + 1) 0 (fun _ => INF) d.way n
  generalize scanTo rnd a d.u d.v used1 (i + 1) 0 (fun _ => INF) d.way n = sc
    at hm hw hdle hj hfirst ⊢
  have hun : ∀ j, 1 ≤ j → used1 j = false := by
    intro j hj1
    by_contra hu
    have hu1 : used1 j = true := by simpa using hu
    have := (hU j).1 hu1
    omega
  have hcur : ∀ j, 1 ≤ j → j ≤ n → curR rnd a d.u d.v (i + 1) j = rho i := by
    intro j h1 h2
    unfold curR
    rw [ha (i + 1 - 1) (j - 1) (by omega), hO.u_zero (i + 1) (by omega), hO.v_zero j h1 h2]
    simp only [sub_zero, Nat.add_sub_cancel, hrho]
  have hscm : ∀ j, 1 ≤ j → j ≤ n → sc.minv j = rho i := by
    intro j h1 h2
    rw [hm, hcur j h1 h2]
    by_cases hlt : rho i < INF
    · rw [if_pos ⟨⟨h1, h2⟩, hun j h1, hlt⟩]
    · rw [if_neg (fun h => hlt h.2.2)]
      exact (le_antisymm (hle i) (not_lt.mp hlt)).symm
  have hscw : ∀ j, j ≤ n → sc.way j = 0 := by
    intro j hj
    rw [hw]
    split_ifs
    · rfl
    · exact hO.way0 j hj
  have hdelta : sc.delta = rho i ∧ sc.j1 = if rho i < INF then 1 else 0 := by
    by_cases hlt : rho i < INF
    · rw [if_pos hlt]
      have h1 := hdle 1 (le_refl _) (by omega) (hun 1 (le_refl _))
      rw [hscm 1 (le_refl _) (by omega)] at h1
      rcases hj with ⟨_, h2⟩ | ⟨h2, h3, _, h5, _⟩
      · rw [h2] at h1
        exact absurd (lt_of_le_of_lt h1 hlt) (lt_irrefl _)
      · rw [hscm _ h2 h3] at h5
        refine ⟨h5.symm, ?_⟩
        by_contra hne
        have h9 := hfirst 1 (le_refl _) (by omega) (hun 1 (le_refl _))
        rw [hscm 1 (le_refl _) (by omega), ← h5] at h9
        exact lt_irrefl _ h9
    · rw [if_neg hlt]
      have he : rho i = INF := le_antisymm (hle i) (not_lt.mp hlt)
      rcases hj with ⟨h1, h2⟩ | ⟨h2, h3, _, h5, h6⟩
      · exact ⟨by rw [h2, he], h1⟩
      · rw [hscm _ h2 h3, he] at h5
        rw [← h5] at h6
        exact absurd h6 (lt_irrefl _)
  have hinj1 : ∀ c c1, c < n + 1 → c1 < n + 1 → used1 c = true → used1 c1 = true →
      Function.update d.p 0 (i + 1) c = Function.update d.p 0 (i + 1) c1 → c = c1 := by
    intro c c1 _ _ h3 h4 _
    rw [(hU c).1 h3, (hU c1).1 h4]
  obtain ⟨hv, hmv, hu1, hu2⟩ := adjust_round rnd (Function.update d.p 0 (i + 1)) used1 sc.delta
    d.u d.v sc.minv (n + 1) hinj1
  generalize adjustTo rnd (Function.update d.p 0 (i + 1)) used1 sc.delta d.u d.v sc.minv
    (n + 1) = ad at hv hmv hu1 hu2 ⊢
  have hui : ad.u (i + 1) = rho i := by
    have := hu1 0 (by omega) ((hU 0).2 rfl)
    rw [Function.update_same, hdelta.1, hO.u_zero (i + 1) (by omega), zero_add, hrho] at this
    exact this
  have huo : ∀ r, r ≠ i + 1 → ad.u r = d.u r := by
    intro r hr
    apply hu2
    intro c _ hc
    rw [(hU c).1 hc, Function.update_same]
    exact fun e => hr e.symm
  exact
    { i_pos := by omega
      i_le := by omega
      k_le := by split_ifs <;> omega
      p0 := by
        dsimp only
        exact Function.update_same _ _ _
      p_id := by
        intro j h1 h2
        dsimp only
        rw [Function.update_noteq (by omega)]
        exact hO.p_id j h1 (by omega)
      p_free := by
        intro j h1 h2
        dsimp only
        rw [Function.update_noteq (by omega)]
        exact hO.p_free j (by omega) h2
      way0 := by
        intro j hj
        dsimp only
        exact hscw j hj
      used_iff := by
        intro j _
        dsimp only
        rw [hU j]
        split_ifs <;> omega
      j0_eq := hdelta.2
      minv0 := by
        intro j h1 h2
        dsimp only
        rw [hmv, if_pos ⟨by omega, hun j h1⟩, hscm j h1 h2, hdelta.1, sub_self, h0]
      u_row := by
        intro r h1 h2
        dsimp only
        by_cases hr : r = i + 1
        · rw [hr, Nat.add_sub_cancel]; exact hui
        · rw [huo r hr]; exact hO.u_row r h1 (by omega)
      u_zero := by
        intro r h1
        dsimp only
        rw [huo r (by omega)]
        exact hO.u_zero r (by omega)
      v_zero := by
        intro j h1 h2
        dsimp only
        rw [hv, if_neg (by rw [hun j h1]; simp)]
        exact hO.v_zero j h1 h2 }

/-- A later iteration of the search on a matrix with constant rows: from column `k < i` the
search moves on to column `k + 1` with `delta = 0`. -/
theorem pad_next (rnd : K → K) (h0 : rnd 0 = 0) (n : Nat) (rho : Nat → K)
    (hrho : ∀ r, rnd (rho r) = rho r)
    (a : Nat → Nat → K) (ha : ∀ r j, j < n → a r j = rho r) (i k : Nat) (s : Search K)
    (h : PadSearch n rho i k s) (hk : k < i) :
    PadSearch n rho i (k + 1) (searchBody rnd n a s) := by
  rw [searchBody_eq]
  have hin := h.i_le
  have hU : ∀ j, j ≤ n → (Function.update s.used s.j0 true j = true ↔ (j = 0 ∨ j < k + 1)) := by
    intro j hj
    rw [h.j0_eq]
    by_cases hjk : j = k
    · subst hjk; rw [Function.update_same]; simp only [true_iff]; omega
    · rw [Function.update_noteq hjk, h.used_iff j hj]
      omega
  generalize Function.update s.used s.j0 true = used1 at hU
  have hun : ∀ j, j ≤ n → k + 1 ≤ j → used1 j = false := by
    intro j hj hkj
    by_contra hu
    have hu1 : used1 j = true := by simpa using hu
    have := (hU j hj).1 hu1
    omega
  have hun' : ∀ j, j ≤ n → used1 j = false → k + 1 ≤ j := by
    intro j hj hu
    by_contra hlt
    have := (hU j hj).2 (by omega)
    rw [hu] at this
    exact Bool.noConfusion this
  have hp : ∀ c, c ≤ n → used1 c = true → s.p c = if c = 0 then i else c := by
    intro c hc hu
    by_cases hc0 : c = 0
    · subst hc0; rw [if_pos rfl]; exact h.p0
    · rw [if_neg hc0]
      have := (hU c hc).1 hu
      exact h.p_id c (by omega) (by omega)
  have hprange : ∀ c, c ≤ n → used1 c = true → 1 ≤ s.p c ∧ s.p c ≤ i := by
    intro c hc hu
    rw [hp c hc hu]
    have := (hU c hc).1 hu
    have := h.i_pos
    split_ifs <;> omega
  have hinj1 : ∀ c c1, c < n + 1 → c1 < n + 1 → used1 c = true → used1 c1 = true →
      s.p c = s.p c1 → c = c1 := by
    intro c c1 h1 h2 h3 h4 h5
    have hc := (hU c (by omega)).1 h3
    have hc1 := (hU c1 (by omega)).1 h4
    rw [hp c (by omega) h3, hp c1 (by omega) h4] at h5
    split_ifs at h5 <;> omega
  have hj0u : used1 s.j0 = true := by
    rw [h.j0_eq]
    exact (hU k (by omega)).2 (by omega)
  have hi0 := hprange s.j0 (by rw [h.j0_eq]; omega) hj0u
  generalize s.p s.j0 = i0 at hi0
  obtain ⟨hm, hw, _, hle, hj⟩ := scan_round rnd a s.u s.v used1 i0 s.j0 s.minv s.way n
  have hfirst := scan_first rnd a s.u s.v used1 i0 s.j0 s.minv s.way n
  generalize scanTo rnd a s.u s.v used1 i0 s.j0 s.minv s.way n = sc at hm hw hle hj hfirst ⊢
  have hcur : ∀ j, 1 ≤ j → j ≤ n → curR rnd a s.u s.v i0 j = 0 := by
    intro j h1 h2
    unfold curR
    rw [ha (i0 - 1) (j - 1) (by omega), h.u_row i0 hi0.1 hi0.2, h.v_zero j h1 h2]
    simp only [sub_self, sub_zero, h0]
  have hcond : ∀ j, ¬ ((1 ≤ j ∧ j ≤ n) ∧ used1 j = false ∧ curR rnd a s.u s.v i0 j < s.minv j) := by
    rintro j ⟨⟨h1, h2⟩, _, h4⟩
    rw [hcur j h1 h2, h.minv0 j h1 h2] at h4
    exact lt_irrefl _ h4
  have hscm : sc.minv = s.minv := by
    funext j; rw [hm, if_neg (hcond j)]
  have hscw : sc.way = s.way := by
    funext j; rw [hw, if_neg (hcond j)]
  have hkn : k + 1 ≤ n := by omega
  have hdelta : sc.delta = 0 ∧ sc.j1 = k + 1 := by
    have h1 := hle (k + 1) (by omega) hkn (hun (k + 1) hkn (le_refl _))
    rw [hscm, h.minv0 (k + 1) (by omega) hkn] at h1
    rcases hj with ⟨_, h2⟩ | ⟨h2, h3, h4, h5, _⟩
    · rw [h2] at h1
      exact absurd h1 (not_le.mpr INF_pos)
    · rw [hscm, h.minv0 _ h2 h3] at h5
      refine ⟨h5.symm, ?_⟩
      have h6 := hun' _ h3 h4
      by_contra hne
      have h9 := hfirst (k + 1) (by omega) (by omega) (hun (k + 1) hkn (le_refl _))
      rw [hscm, h.minv0 (k + 1) (by omega) hkn, ← h5] at h9
      exact lt_irrefl _ h9
  obtain ⟨hv, hmv, hu1, hu2⟩ := adjust_round rnd s.p used1 sc.delta s.u s.v sc.minv (n + 1) hinj1
  generalize adjustTo rnd s.p used1 sc.delta s.u s.v sc.minv (n + 1) = ad at hv hmv hu1 hu2 ⊢
  have hadu : ∀ r, ad.u r = s.u r := by
    intro r
    by_cases hex : ∃ c, c < n + 1 ∧ used1 c = true ∧ s.p c = r
    · obtain ⟨c, h1, h2, h3⟩ := hex
      have h4 := hu1 c h1 h2
      have h5 := hprange c (by omega) h2
      rw [h3] at h4 h5
      rw [h4, hdelta.1, add_zero, h.u_row r h5.1 h5.2, hrho]
    · apply hu2
      intro c h1 h2 h3
      exact hex ⟨c, h1, h2, h3⟩
  exact
    { i_pos := h.i_pos
      i_le := h.i_le
      k_le := by omega
      p0 := h.p0
      p_id := h.p_id
      p_free := h.p_free
      way0 := by
        intro j hj
        dsimp only
        rw [hscw]
        exact h.way0 j hj
      used_iff := hU
      j0_eq := hdelta.2
      minv0 := by
        intro j h1 h2
        dsimp only
        rw [hmv, hscm, h.minv0 j h1 h2, hdelta.1, sub_zero, h0]
        split_ifs <;> rfl
      u_row := by
        intro r h1 h2
        dsimp only
        rw [hadu r]
        exact h.u_row r h1 h2
      u_zero := by
        intro r h1
        dsimp only
        rw [hadu r]
        exact h.u_zero r h1
      v_zero := by
        intro j h1 h2
        dsimp only
        rw [hv, h.v_zero j h1 h2, hdelta.1, sub_zero, h0]
        split_ifs <;> rfl }

/-- The search on a matrix with constant rows returns: from column `k ≤ i` it walks the
columns `k + 1, ..., i` and ends at column `i`, which is free. -/
theorem pad_loop (rnd : K → K) (h0 : rnd 0 = 0) (n : Nat) (rho : Nat → K)
    (hrho : ∀ r, rnd (rho r) = rho r)
    (a : Nat → Nat → K) (ha : ∀ r j, j < n → a r j = rho r) (i : Nat) :
    ∀ (g k : Nat) (s : Search K), PadSearch n rho i k s → k < i → i - k ≤ g →
      ∃ s1, searchLoop rnd n a g s = some s1 ∧ PadSearch n rho i i s1 := by
  intro g
  induction g with
  | zero => intro k s _ hk hg; omega
  | succ g ih =>
    intro k s h hk hg
    have h1 := pad_next rnd h0 n rho hrho a ha i k s h hk
    unfold searchLoop
    dsimp only
    by_cases hki : k + 1 = i
    · have hp : (searchBody rnd n a s).p (searchBody rnd n a s).j0 = 0 := by
        rw [h1.j0_eq, hki]
        exact h1.p_free i (le_refl _) h1.i_le
      rw [if_neg (by rw [hp]; simp)]
      exact ⟨_, rfl, hki ▸ h1⟩
    · have hp : (searchBody rnd n a s).p (searchBody rnd n a s).j0 ≠ 0 := by
        rw [h1.j0_eq, h1.p_id (k + 1) (by omega) (by omega)]
        omega
      rw [if_pos hp]
      exact ih (k + 1) _ h1 (by omega) (by omega)

/-- Inserting row `i + 1` on a matrix with constant rows returns, for every fuel of at least
`i + 2`, and keeps the invariant. -/
theorem pad_addRow (rnd : K → K) (h0 : rnd 0 = 0) (n : Nat) (rho : Nat → K)
    (hrho : ∀ r, rnd (rho r) = rho r) (hle : ∀ r, rho r ≤ INF)
    (a : Nat → Nat → K) (ha : ∀ r j, j < n → a r j = rho r) (d : Duals K) (i : Nat)
    (hO : PadOuter n rho d i) (hi : i < n) (fuel : Nat) (hfuel : i + 2 ≤ fuel) :
    ∃ d1, addRow rnd fuel n a d (i + 1) = some d1 ∧ PadOuter n rho d1 (i + 1) := by
  obtain ⟨g, rfl⟩ : ∃ g, fuel = g + 1 := ⟨fuel - 1, by omega⟩
  have hfirst := pad_first rnd h0 n rho hrho hle a ha d i hO hi
  unfold addRow
  generalize (⟨d.u, d.v, Function.update d.p 0 (i + 1), d.way, fun _ => INF, fun _ => false,
    0⟩ : Search K) = s0 at hfirst ⊢
  generalize hk : (if rho i < INF then 1 else 0 : Nat) = k at hfirst
  have hk1 : k ≤ 1 := by rw [← hk]; split_ifs <;> omega
  have hsearch : ∃ s, searchLoop rnd n a (g + 1) s0 = some s ∧ PadSearch n rho (i + 1) (i + 1) s := by
    unfold searchLoop
    dsimp only
    by_cases hki : k = i + 1
    · have hp : (searchBody rnd n a s0).p (searchBody rnd n a s0).j0 = 0 := by
        rw [hfirst.j0_eq, hki]
        exact hfirst.p_free (i + 1) (le_refl _) hfirst.i_le
      rw [if_neg (by rw [hp]; simp)]
      exact ⟨_, rfl, hki ▸ hfirst⟩
    · have hp : (searchBody rnd n a s0).p (searchBody rnd n a s0).j0 ≠ 0 := by
        rw [hfirst.j0_eq]
        by_cases hk0 : k = 0
        · rw [hk0, hfirst.p0]; omega
        · rw [hfirst.p_id k (by omega) (by have := hfirst.k_le; omega)]
          exact hk0
      rw [if_pos hp]
      exact pad_loop rnd h0 n rho hrho a ha (i + 1) g k _ hfirst
        (by have := hfirst.k_le; omega) (by omega)
  obtain ⟨s, hs1, hS⟩ := hsearch
  rw [hs1]
  simp only [Option.some_bind]
  have hway : s.way s.j0 = 0 := hS.way0 _ (by rw [hS.j0_eq]; omega)
  have haug : augmentLoop s.way (g + 1) s.p s.j0 =
      some (Function.update s.p (i + 1) (i + 1)) := by
    unfold augmentLoop
    simp only [hway, ne_eq, not_true_eq_false, if_false]
    rw [hS.j0_eq, hS.p0]
  rw [haug]
  refine ⟨_, rfl, ?_⟩
  exact
    { p_id := by
        intro j hj1 hj2
        dsimp only
        by_cases hji : j = i + 1
        · rw [hji, Function.update_same]
        · rw [Function.update_noteq hji]
          exact hS.p_id j hj1 (by omega)
      p_free := by
        intro j hj1 hj2
        dsimp only
        rw [Function.update_noteq (by omega)]
        exact hS.p_free j (by omega) hj2
      way0 := hS.way0
      u_row := hS.u_row
      u_zero := hS.u_zero
      v_zero := hS.v_zero }

/-- The outer loop on a matrix with constant rows returns after every number of rows, for
every fuel of at least `n + 1`. -/
theorem pad_solveTo (rnd : K → K) (h0 : rnd 0 = 0) (n : Nat) (rho : Nat → K)
    (hrho : ∀ r, rnd (rho r) = rho r) (hle : ∀ r, rho r ≤ INF)
    (a : Nat → Nat → K) (ha : ∀ r j, j < n → a r j = rho r) (fuel : Nat)
    (hfuel : n + 1 ≤ fuel) :
    ∀ i, i ≤ n → ∃ d, solveTo rnd fuel n a i = some d ∧ PadOuter n rho d i := by
  intro i
  induction i with
  | zero =>
    intro _
    refine ⟨⟨fun _ => 0, fun _ => 0, fun _ => 0, fun _ => 0⟩, rfl, ?_⟩
    exact
      { p_id := by intro j h1 h2; omega
        p_free := fun _ _ _ => rfl
        way0 := fun _ _ => rfl
        u_row := by intro r h1 h2; omega
        u_zero := fun _ _ => rfl
        v_zero := fun _ _ _ => rfl }
  | succ i ih =>
    intro hi
    obtain ⟨d, hd, hO⟩ := ih (by omega)
    obtain ⟨d1, hd1, hO1⟩ := pad_addRow rnd h0 n rho hrho hle a ha d i hO (by omega) fuel
      (by omega)
    exact ⟨d1, by rw [solveTo_succ, hd]; exact hd1, hO1⟩

/-- On a cost matrix of `m` rows without columns the solver returns `m` entries `-1`, for
every fuel of at least `m + 1`, in every arithmetic whose rounding keeps `0` and `INF`. -/
theorem hungarian_pad (rnd : K → K) (h0 : rnd 0 = 0) (hI : rnd INF = INF) (m fuel : Nat)
    (hfuel : m + 1 ≤ fuel) :
    hungarianAlgorithm rnd fuel (List.replicate m ([] : List K)) =
      some (List.replicate m (-1)) := by
  by_cases hm : m = 0
  · subst hm
    rfl
  have ha : ∀ r j, j < m → padded m 0 (List.replicate m ([] : List K)) r j = INF := by
    intro r j _
    unfold padded
    rw [if_neg (by omega)]
  obtain ⟨d, hd, hO⟩ := pad_solveTo rnd h0 m (fun _ => INF) (fun _ => hI) (fun _ => le_refl _)
    _ ha fuel hfuel m (le_refl _)
  have hnz : ∀ j, 1 ≤ j → j ≤ m → d.p j ≠ 0 := by
    intro j h1 h2
    rw [hO.p_id j h1 h2]
    omega
  obtain ⟨asg, hw, hl, hc⟩ := writeTo_spec m 0 m d.p hnz m (le_refl _)
  have hasg : asg = List.replicate m (-1) := by
    rw [List.eq_replicate_iff]
    refine ⟨hl, fun e he => ?_⟩
    obtain ⟨r, hr, hre⟩ := List.mem_iff_getElem.mp he
    have hr1 : asg[r]? = some e := by rw [List.getElem?_eq_getElem hr, hre]
    rcases hc r (hl ▸ hr) with ⟨j, h1, _, h3, _⟩ | ⟨_, h2⟩
    · omega
    · rw [hr1] at h2
      exact Option.some.inj h2
  have e : hungarianAlgorithm rnd fuel (List.replicate m ([] : List K)) =
      (solve rnd fuel m (padded m 0 (List.replicate m ([] : List K)))).bind fun d =>
        writeTo m 0 d.p m := by
    unfold hungarianAlgorithm
    have h1 : (List.replicate m ([] : List K)).length = m := List.length_replicate _ _
    have h2 : ((List.replicate m ([] : List K)).getD 0 []).length = 0 := by
      cases m with
      | zero => exact absurd rfl hm
      | succ k => rfl
    simp only [h1, h2, hm, if_false, Nat.zero_le, decide_True, List.all_eq_true, implies_true,
      if_true, Nat.max_zero, max_eq_left]
    rfl
  rw [e, solve_eq_solveTo, hd]
  simp only [Option.some_bind]
  rw [hw, hasg]

/-! ## Tracks that are left unassigned -/

theorem frameOne_none (maxAge maxCM minHits : Int) (sel : Nat → Option Nat)
    (dets : List (Vector3 K)) (i : Nat) (t : Track K) (h : sel i = none) :
    frameOne maxAge maxCM minHits sel dets i t = missFrame maxAge maxCM minHits t := by
  unfold frameOne missFrame oldOne
  rw [h]

theorem frameOne_some (maxAge maxCM minHits : Int) (sel : Nat → Option Nat)
    (dets : List (Vector3 K)) (i j : Nat) (t : Track K) (h : sel i = some j) :
    frameOne maxAge maxCM minHits sel dets i t =
      some (sweep minHits (t.predict.1.update (dets.getD j 0))) := by
  unfold frameOne oldOne
  rw [h]
  rfl

theorem missFrame_eq (maxAge maxCM minHits : Int) (t : Track K) :
    missFrame maxAge maxCM minHits t =
      if t.timeSinceUpdate + 1 > maxAge ∨ t.consecutiveMisses + 1 > maxCM then none
      else some (sweep minHits { t.predict.1 with timeSinceUpdate := t.timeSinceUpdate + 1 }) := by
  unfold missFrame cullOne Track.predict
  dsimp only
  split <;> rfl

theorem missFrame_none (maxAge maxCM minHits : Int) (t : Track K) :
    missFrame maxAge maxCM minHits t = none ↔
      (t.timeSinceUpdate + 1 > maxAge ∨ t.consecutiveMisses + 1 > maxCM) := by
  rw [missFrame_eq]
  split
  · rename_i h; simp [h]
  · rename_i h; simp [h]

theorem missFrame_some (maxAge maxCM minHits : Int) (t t1 : Track K)
    (h : missFrame maxAge maxCM minHits t = some t1) :
    t1.age = t.age + 1 ∧ t1.consecutiveMisses = t.consecutiveMisses + 1 ∧
      t1.timeSinceUpdate = t.timeSinceUpdate + 1 ∧ t1.hits = t.hits ∧ t1.id = t.id ∧
      t1.positionHistory = t.positionHistory := by
  rw [missFrame_eq] at h
  split at h
  · exact Option.noConfusion h
  · have := Option.some.inj h
    subst this
    refine ⟨?_, ?_, ?_, ?_, ?_, ?_⟩
    · rw [sweep_age]; rfl
    · rw [sweep_consecutiveMisses]; rfl
    · rw [sweep_timeSinceUpdate]
    · rw [sweep_hits]; rfl
    · rw [sweep_id]; rfl
    · rw [sweep_positionHistory]; rfl

theorem missFrames_spec (maxAge maxCM minHits : Int) (t : Track K)
    (h1 : t.timeSinceUpdate = 0) (h2 : t.consecutiveMisses = 0) :
    ∀ k : Nat,
      ((k : Int) ≤ min maxAge maxCM →
        ∃ t1, missFrames maxAge maxCM minHits k t = some t1 ∧ t1.timeSinceUpdate = k ∧
          t1.consecutiveMisses = k) ∧
      (min maxAge maxCM < (k : Int) → 0 ≤ min maxAge maxCM →
        missFrames maxAge maxCM minHits k t = none) := by
  intro k
  induction k with
  | zero =>
    refine ⟨fun _ => ⟨t, rfl, by simpa using h1, by simpa using h2⟩, fun h3 h4 => ?_⟩
    simp only [Nat.cast_zero] at h3
    omega
  | succ k ih =>
    constructor
    · intro hk
      obtain ⟨t1, ht1, ha, hb⟩ := ih.1 (by push_cast at hk; omega)
      have hsome : missFrame maxAge maxCM minHits t1 ≠ none := by
        rw [Ne, missFrame_none, ha, hb]
        push_cast at hk
        have := min_le_left maxAge maxCM
        have := min_le_right maxAge maxCM
        omega
      obtain ⟨t2, ht2⟩ := Option.ne_none_iff_exists'.mp hsome
      refine ⟨t2, ?_, ?_, ?_⟩
      · show (missFrames maxAge maxCM minHits k t).bind _ = _
        rw [ht1]; exact ht2
      · rw [(missFrame_some _ _ _ _ _ ht2).2.2.1, ha]; push_cast; ring
      · rw [(missFrame_some _ _ _ _ _ ht2).2.1, hb]; push_cast; ring
    · intro hk h0
      show (missFrames maxAge maxCM minHits k t).bind _ = none
      by_cases hk1 : (k : Int) ≤ min maxAge maxCM
      · obtain ⟨t1, ht1, ha, hb⟩ := ih.1 hk1
        rw [ht1]
        simp only [Option.some_bind]
        rw [missFrame_none, ha, hb]
        push_cast at hk
        rcases min_choice maxAge maxCM with h | h
        · left; rw [h] at hk hk1; omega
        · right; rw [h] at hk hk1; omega
      · rw [ih.2 (by omega) h0]
        rfl

theorem stepSpec_tracks (sel : Nat → Option Nat) (tr : Tracker K) (dets : List (Vector3 K)) :
    (stepSpec sel tr dets).tracks =
      tr.tracks.enum.filterMap (fun it =>
        match sel it.1 with
        | some j => some (sweep tr.minHits (it.2.predict.1.update (dets.getD j 0)))
        | none => missFrame tr.maxAge tr.maxConsecutiveMisses tr.minHits it.2) ++
      spawnedTracks sel tr dets := by
  unfold stepSpec
  simp only
  congr 1
  apply List.filterMap_congr
  intro it _
  rcases Option.eq_none_or_eq_some (sel it.1) with h | ⟨j, h⟩
  · rw [frameOne_none _ _ _ _ _ _ _ h]
    simp only [h]
  · rw [frameOne_some _ _ _ _ _ _ _ _ h]
    simp only [h]

/-- C5 (deletion rule). For every rounding of the solver's arithmetic, whenever one frame
returns: its tracks are the tracks live before it, each independently and in their order
either updated with its selected detection (never removed) or, when left unassigned, passed
through `missFrame`, followed by one new track per unassigned detection (never removed). An
unassigned track is removed exactly when, after the increments, `timeSinceUpdate > maxAge`
or `consecutiveMisses > maxConsecutiveMisses`, and otherwise both counters are one larger.
Hence a track with both counters `0` (just updated or created) survives exactly
`min maxAge maxConsecutiveMisses` consecutive missed frames when both limits are
nonnegative, and is removed in the next one. -/
theorem deletion_rule (rnd : K → K) (norm : Vector3 K → K) (tr tr1 : Tracker K)
    (dets : List (Vector3 K)) (fuel : Nat) (h : step rnd fuel norm tr dets = some tr1) :
    ∃ (sel : Nat → Option Nat) (as : Association K),
      associateDetectionsToTracks rnd fuel norm (predictTracks tr) dets = some as ∧
      (∀ i j, (i, j) ∈ as.updateCalls ↔ sel i = some j) ∧
      tr1.tracks =
        tr.tracks.enum.filterMap (fun it =>
          match sel it.1 with
          | some j => some (sweep tr.minHits (it.2.predict.1.update (dets.getD j 0)))
          | none => missFrame tr.maxAge tr.maxConsecutiveMisses tr.minHits it.2) ++
        spawnedTracks sel tr dets ∧
      (spawnedTracks sel tr dets).length = as.unassignedDetections.length ∧
      (∀ t : Track K, missFrame tr.maxAge tr.maxConsecutiveMisses tr.minHits t = none ↔
        (t.timeSinceUpdate + 1 > tr.maxAge ∨
          t.consecutiveMisses + 1 > tr.maxConsecutiveMisses)) ∧
      (∀ t t1 : Track K, missFrame tr.maxAge tr.maxConsecutiveMisses tr.minHits t = some t1 →
        t1.timeSinceUpdate = t.timeSinceUpdate + 1 ∧
        t1.consecutiveMisses = t.consecutiveMisses + 1 ∧ t1.id = t.id) ∧
      (0 ≤ tr.maxAge → 0 ≤ tr.maxConsecutiveMisses →
        ∀ t : Track K, t.timeSinceUpdate = 0 → t.consecutiveMisses = 0 → ∀ k : Nat,
          ((missFrames tr.maxAge tr.maxConsecutiveMisses tr.minHits k t).isSome ↔
            (k : Int) ≤ min tr.maxAge tr.maxConsecutiveMisses)) := by
  obtain ⟨sel, hsel, hassoc, rfl⟩ := step_assoc rnd norm tr tr1 dets fuel h
  have hlen : (predictTracks tr).tracks.length = tr.tracks.length := by
    unfold predictTracks; simp
  refine ⟨sel, assocSpec sel (predictTracks tr).tracks dets, hassoc, ?_,
    stepSpec_tracks sel tr dets, ?_, fun t => missFrame_none _ _ _ t, ?_, ?_⟩
  · intro i j
    unfold assocSpec
    simp only [List.mem_map, List.mem_filter, List.mem_range, Prod.mk.injEq, hlen]
    constructor
    · rintro ⟨i1, ⟨_, hs⟩, rfl, hg⟩
      obtain ⟨j1, hj1⟩ := Option.isSome_iff_exists.mp hs
      rw [hj1] at hg ⊢
      exact congrArg some hg
    · intro hs
      obtain ⟨_, t, ht, _⟩ := hsel.gate i j hs
      exact ⟨i, ⟨(List.getElem?_eq_some.mp ht).1, by rw [hs]; rfl⟩, rfl, by rw [hs]; rfl⟩
  · unfold spawnedTracks assocSpec
    simp only [List.length_map, spawnAll_length, hlen]
  · intro t t1 h
    have := missFrame_some _ _ _ _ _ h
    exact ⟨this.2.2.1, this.2.1, this.2.2.2.2.1⟩
  · intro h1 h2 t ht1 ht2 k
    have hs := missFrames_spec tr.maxAge tr.maxConsecutiveMisses tr.minHits t ht1 ht2 k
    constructor
    · intro hisSome
      by_contra hcon
      rw [hs.2 (not_le.mp hcon) (le_min h1 h2)] at hisSome
      exact Bool.noConfusion hisSome
    · intro hk
      obtain ⟨t1, ht, _⟩ := hs.1 hk
      rw [ht]; rfl

/-- Witness of C5: the example tracker (limits 3 and 3), whose one track is at the origin,
and one detection at distance 6, on doubles (the solver and the distance in binary64). The
frame returns. -/
theorem deletion_rule_witness :
    ∃ tr1 : Tracker ℚ, step roundDouble 2 normDouble exampleTracker [![6, 0, 0]] = some tr1 ∧
      ∃ (sel : Nat → Option Nat) (as : Association ℚ),
        associateDetectionsToTracks roundDouble 2 normDouble (predictTracks exampleTracker)
          [![6, 0, 0]] = some as ∧
        (∀ i j, (i, j) ∈ as.updateCalls ↔ sel i = some j) ∧
        tr1.tracks =
          exampleTracker.tracks.enum.filterMap (fun it =>
            match sel it.1 with
            | some j =>
              some (sweep exampleTracker.minHits
                (it.2.predict.1.update (([![6, 0, 0]] : List (Vector3 ℚ)).getD j 0)))
            | none => missFrame exampleTracker.maxAge exampleTracker.maxConsecutiveMisses
                exampleTracker.minHits it.2) ++
          spawnedTracks sel exampleTracker [![6, 0, 0]] ∧
        (spawnedTracks sel exampleTracker [![6, 0, 0]]).length =
          as.unassignedDetections.length ∧
        (∀ t : Track ℚ, missFrame exampleTracker.maxAge exampleTracker.maxConsecutiveMisses
            exampleTracker.minHits t = none ↔
          (t.timeSinceUpdate + 1 > exampleTracker.maxAge ∨
            t.consecutiveMisses + 1 > exampleTracker.maxConsecutiveMisses)) ∧
        (∀ t t1 : Track ℚ, missFrame exampleTracker.maxAge
            exampleTracker.maxConsecutiveMisses exampleTracker.minHits t = some t1 →
          t1.timeSinceUpdate = t.timeSinceUpdate + 1 ∧
          t1.consecutiveMisses = t.consecutiveMisses + 1 ∧ t1.id = t.id) ∧
        (0 ≤ exampleTracker.maxAge → 0 ≤ exampleTracker.maxConsecutiveMisses →
          ∀ t : Track ℚ, t.timeSinceUpdate = 0 → t.consecutiveMisses = 0 → ∀ k : Nat,
            ((missFrames exampleTracker.maxAge exampleTracker.maxConsecutiveMisses
                exampleTracker.minHits k t).isSome ↔
              (k : Int) ≤ min exampleTracker.maxAge exampleTracker.maxConsecutiveMisses)) := by
  obtain ⟨sel, _, _, hs⟩ := step_one roundDouble rfl normDouble exampleTracker _ ![6, 0, 0] rfl 2
    (le_refl _)
  exact ⟨_, hs, deletion_rule roundDouble normDouble exampleTracker _ [![6, 0, 0]] 2 hs⟩

/-! ## Trackers reached from a new tracker -/

theorem step_some {rnd : K → K} (norm : Vector3 K → K) (tr tr1 : Tracker K)
    (dets : List (Vector3 K)) (fuel : Nat) (h : step rnd fuel norm tr dets = some tr1) :
    ∃ sel, SelOK norm tr dets sel ∧ tr1 = stepSpec sel tr dets := by
  obtain ⟨sel, hsel, _, he⟩ := step_assoc rnd norm tr tr1 dets fuel h
  exact ⟨sel, hsel, he⟩

theorem mem_spawnAll (dets : List (Vector3 K)) (settings : TrackSettings K) :
    ∀ (js : List Nat) (id : Int) (t : Track K), t ∈ spawnAll dets settings id js →
      ∃ (k : Nat) (z : Vector3 K), k < js.length ∧ t = Track.new (id + k) z 0 0 settings := by
  intro js
  induction js with
  | nil => intro id t h; exact absurd h (List.not_mem_nil t)
  | cons j js ih =>
    intro id t h
    simp only [spawnAll, List.mem_cons] at h
    rcases h with h | h
    · exact ⟨0, dets.getD j 0, by simp, by simp [h]⟩
    · obtain ⟨k, z, hk, ht⟩ := ih (id + 1) t h
      refine ⟨k + 1, z, by simp; omega, ?_⟩
      rw [ht]
      push_cast
      congr 1
      ring

theorem mem_spawnedTracks (sel : Nat → Option Nat) (tr : Tracker K) (dets : List (Vector3 K))
    (t : Track K) (h : t ∈ spawnedTracks sel tr dets) :
    ∃ (k : Nat) (z : Vector3 K), k < (freeDetections sel tr.tracks.length dets).length ∧
      t = sweep tr.minHits (Track.new (tr.trackId + k) z 0 0 tr.settings) := by
  unfold spawnedTracks at h
  obtain ⟨t0, ht0, rfl⟩ := List.mem_map.mp h
  obtain ⟨k, z, hk, rfl⟩ := mem_spawnAll dets tr.settings _ _ _ ht0
  exact ⟨k, z, hk, rfl⟩

theorem mem_stepSpec (sel : Nat → Option Nat) (tr : Tracker K) (dets : List (Vector3 K))
    (t1 : Track K) (h : t1 ∈ (stepSpec sel tr dets).tracks) :
    (∃ t ∈ tr.tracks, ∃ i,
      frameOne tr.maxAge tr.maxConsecutiveMisses tr.minHits sel dets i t = some t1) ∨
    t1 ∈ spawnedTracks sel tr dets := by
  unfold stepSpec at h
  simp only [List.mem_append, List.mem_filterMap] at h
  rcases h with ⟨it, hit, hf⟩ | h
  · left
    have := List.mem_enum_iff_getElem?.mp hit
    obtain ⟨hlt, he⟩ := List.getElem?_eq_some.mp this
    exact ⟨it.2, he ▸ List.getElem_mem hlt, it.1, hf⟩
  · exact Or.inr h

theorem frameOne_facts (maxAge maxCM minHits : Int) (sel : Nat → Option Nat)
    (dets : List (Vector3 K)) (i : Nat) (t t1 : Track K)
    (h : frameOne maxAge maxCM minHits sel dets i t = some t1) :
    t1.id = t.id ∧ t.hits ≤ t1.hits ∧
      (t1.stage = TrackStage.CONFIRMED ↔ (t.stage = TrackStage.CONFIRMED ∨ minHits ≤ t1.hits)) := by
  rcases Option.eq_none_or_eq_some (sel i) with hs | ⟨j, hs⟩
  · rw [frameOne_none _ _ _ _ _ _ _ hs, missFrame_eq] at h
    split at h
    · exact Option.noConfusion h
    · have := Option.some.inj h
      subst this
      refine ⟨by rw [sweep_id]; rfl, by rw [sweep_hits]; exact le_refl _, ?_⟩
      rw [sweep_stage, sweep_hits]
      rfl
  · rw [frameOne_some _ _ _ _ _ _ _ _ hs] at h
    have := Option.some.inj h
    subst this
    refine ⟨by rw [sweep_id]; rfl, ?_, ?_⟩
    · rw [sweep_hits]
      show t.hits ≤ t.hits + 1
      omega
    · rw [sweep_stage, sweep_hits]
      rfl

theorem spawned_facts (minHits id : Int) (z : Vector3 K) (settings : TrackSettings K) :
    (sweep minHits (Track.new id z 0 0 settings)).id = id ∧
      (sweep minHits (Track.new id z 0 0 settings)).hits = 1 ∧
      ((sweep minHits (Track.new id z 0 0 settings)).stage = TrackStage.CONFIRMED ↔
        minHits ≤ 1) := by
  refine ⟨by rw [sweep_id]; rfl, by rw [sweep_hits]; rfl, ?_⟩
  rw [sweep_stage]
  simp [Track.new]

theorem enum_filterMap_ids (f : Nat × Track K → Option (Track K))
    (hf : ∀ it t1, f it = some t1 → t1.id = it.2.id) :
    ∀ (l : List (Track K)) (o : Nat),
      (((l.enumFrom o).filterMap f).map fun (t : Track K) => t.id).Sublist
        (l.map fun (t : Track K) => t.id) := by
  intro l
  induction l with
  | nil => intro o; exact List.Sublist.slnil
  | cons t ts ih =>
    intro o
    rw [List.enumFrom_cons, List.filterMap_cons]
    cases h : f (o, t) with
    | none =>
      simp only [List.map_cons]
      exact List.Sublist.cons _ (ih (o + 1))
    | some t1 =>
      simp only [List.map_cons]
      rw [hf (o, t) t1 h]
      exact List.Sublist.cons₂ _ (ih (o + 1))

theorem stepSpec_survivor_ids (sel : Nat → Option Nat) (tr : Tracker K)
    (dets : List (Vector3 K)) :
    ((tr.tracks.enum.filterMap (fun it =>
      frameOne tr.maxAge tr.maxConsecutiveMisses tr.minHits sel dets it.1 it.2)).map
        fun (t : Track K) => t.id).Sublist (tr.tracks.map fun (t : Track K) => t.id) :=
  enum_filterMap_ids _ (fun _ _ h => (frameOne_facts _ _ _ _ _ _ _ _ h).1) tr.tracks 0

theorem stepSpec_inv (settings : TrackSettings K) (sel : Nat → Option Nat) (tr : Tracker K)
    (dets : List (Vector3 K)) (hinv : TrackerInv settings tr) :
    TrackerInv settings (stepSpec sel tr dets) := by
  constructor
  · exact hinv.minHits
  · show List.Sorted (fun a b : Int => a < b)
      (((tr.tracks.enum.filterMap (fun it =>
        frameOne tr.maxAge tr.maxConsecutiveMisses tr.minHits sel dets it.1 it.2)) ++
          spawnedTracks sel tr dets).map fun (t : Track K) => t.id)
    rw [List.map_append, spawnedTracks_ids]
    unfold List.Sorted
    rw [List.pairwise_append]
    refine ⟨List.Pairwise.sublist (stepSpec_survivor_ids sel tr dets) hinv.sorted, ?_, ?_⟩
    · rw [List.pairwise_map]
      exact (List.pairwise_lt_range _).imp (fun h => by simpa using h)
    · intro a ha b hb
      obtain ⟨t, ht, rfl⟩ := List.mem_map.mp ((stepSpec_survivor_ids sel tr dets).subset ha)
      obtain ⟨k, _, rfl⟩ := List.mem_map.mp hb
      have := hinv.below t ht
      omega
  · intro t1 ht1
    show t1.id < tr.trackId + _
    rcases mem_stepSpec sel tr dets t1 ht1 with ⟨t, ht, i, hf⟩ | hs
    · rw [(frameOne_facts _ _ _ _ _ _ _ _ hf).1]
      have := hinv.below t ht
      omega
    · obtain ⟨k, z, hk, rfl⟩ := mem_spawnedTracks sel tr dets t1 hs
      rw [(spawned_facts _ _ _ _).1]
      omega
  · intro t1 ht1
    show _ ↔ tr.minHits ≤ t1.hits
    rcases mem_stepSpec sel tr dets t1 ht1 with ⟨t, ht, i, hf⟩ | hs
    · obtain ⟨_, h2, h3⟩ := frameOne_facts _ _ _ _ _ _ _ _ hf
      rw [h3, hinv.stage t ht]
      constructor
      · rintro (h | h)
        · omega
        · exact h
      · exact fun h => Or.inr h
    · obtain ⟨k, z, hk, rfl⟩ := mem_spawnedTracks sel tr dets t1 hs
      obtain ⟨_, h2, h3⟩ := spawned_facts tr.minHits (tr.trackId + k) z tr.settings
      rw [h3, h2]

theorem reachable_inv {rnd : K → K} (norm : Vector3 K → K)
    (settings : TrackSettings K) (tr : Tracker K) (hr : Reachable rnd norm settings tr) :
    TrackerInv settings tr := by
  induction hr with
  | init =>
    constructor
    · rfl
    · exact List.sorted_nil
    · intro t ht; exact absurd ht (List.not_mem_nil t)
    · intro t ht; exact absurd ht (List.not_mem_nil t)
  | frame tr tr1 fuel dets _ hstep ih =>
    obtain ⟨sel, _, rfl⟩ := step_some norm tr tr1 dets fuel hstep
    exact stepSpec_inv settings sel tr dets ih

theorem reachable_stepsTo {rnd : K → K} (norm : Vector3 K → K) (settings : TrackSettings K)
    (tr tr2 : Tracker K) (hr : Reachable rnd norm settings tr) (hs : StepsTo rnd norm tr tr2) :
    Reachable rnd norm settings tr2 := by
  induction hs with
  | refl => exact hr
  | frame tr1 tr2 fuel dets _ hstep ih => exact Reachable.frame tr1 tr2 fuel dets ih hstep

theorem stepsTo_origin {rnd : K → K} (norm : Vector3 K → K) (tr tr2 : Tracker K)
    (hs : StepsTo rnd norm tr tr2) :
    tr.trackId ≤ tr2.trackId ∧ tr2.minHits = tr.minHits ∧
      ∀ t2 ∈ tr2.tracks,
        (∃ t ∈ tr.tracks, t2.id = t.id ∧ t.hits ≤ t2.hits ∧
          (t.stage = TrackStage.CONFIRMED → t2.stage = TrackStage.CONFIRMED)) ∨
        tr.trackId ≤ t2.id := by
  induction hs with
  | refl =>
    exact ⟨le_refl _, rfl, fun t2 ht2 => Or.inl ⟨t2, ht2, rfl, le_refl _, fun h => h⟩⟩
  | frame tr1 tr2 fuel dets _ hstep ih =>
    obtain ⟨sel, _, rfl⟩ := step_some norm tr1 tr2 dets fuel hstep
    obtain ⟨h1, h2, h3⟩ := ih
    refine ⟨?_, h2, fun t2 ht2 => ?_⟩
    · show tr.trackId ≤ tr1.trackId + _
      omega
    · rcases mem_stepSpec sel tr1 dets t2 ht2 with ⟨t1, ht1, i, hf⟩ | hsp
      · obtain ⟨g1, g2, g3⟩ := frameOne_facts _ _ _ _ _ _ _ _ hf
        rcases h3 t1 ht1 with ⟨t, ht, e1, e2, e3⟩ | hge
        · exact Or.inl ⟨t, ht, g1.trans e1, le_trans e2 g2, fun hc => g3.mpr (Or.inl (e3 hc))⟩
        · exact Or.inr (by rw [g1]; exact hge)
      · obtain ⟨k, z, hk, rfl⟩ := mem_spawnedTracks sel tr1 dets t2 hsp
        right
        rw [(spawned_facts _ _ _ _).1]
        omega


/-- The first frame of a new tracker, with one detection: no solver call is made. -/
theorem step_first {rnd : K → K} (norm : Vector3 K → K) (settings : TrackSettings K) (z : Vector3 K)
    (fuel : Nat) :
    step rnd fuel norm (Tracker.new settings) [z] =
      some { Tracker.new settings with
        tracks := [sweep settings.minHits (Track.new 0 z 0 0 settings)]
        trackId := 1 } := by
  unfold step updateTracks associateDetectionsToTracks predictTracks
  simp [Tracker.new, spawn, List.range_succ, List.insertionSort]

/-- The example tracker after one frame is reachable, whatever the rounding. -/
theorem exampleFrame_reachable (rnd : ℚ → ℚ) : Reachable rnd norm1 exampleSettings exampleFrame :=
  Reachable.frame (Tracker.new exampleSettings) exampleFrame 1 [![0, 0, 0]] Reachable.init
    (step_first norm1 exampleSettings ![0, 0, 0] 1)

/-- The first frame of a new tracker, with two detections: no solver call is made. -/
theorem step_first_two {rnd : K → K} (norm : Vector3 K → K) (settings : TrackSettings K)
    (z z1 : Vector3 K) (fuel : Nat) :
    step rnd fuel norm (Tracker.new settings) [z, z1] =
      some { Tracker.new settings with
        tracks := [sweep settings.minHits (Track.new 0 z 0 0 settings),
          sweep settings.minHits (Track.new 1 z1 0 0 settings)]
        trackId := 2 } := by
  unfold step updateTracks associateDetectionsToTracks predictTracks
  simp [Tracker.new, spawn, List.range_succ, List.insertionSort]

/-! ## The solver on doubles: a chain of `way` that never reaches column 0 -/

/-- The second `do ... while` loop never ends when the chain of `way` from `j0` stays inside a
set of columns that does not hold `0`. -/
theorem augmentLoop_cycle (way : Nat → Nat) (S : Nat → Prop)
    (hS : ∀ j, S j → way j ≠ 0 ∧ S (way j)) :
    ∀ (fuel : Nat) (p : Nat → Nat) (j0 : Nat), S j0 → augmentLoop way fuel p j0 = none := by
  intro fuel
  induction fuel with
  | zero => intro p j0 _; rfl
  | succ fuel ih =>
    intro p j0 h
    unfold augmentLoop
    dsimp only
    rw [if_pos (hS j0 h).1]
    exact ih _ _ (hS j0 h).2

/-- On the matrix `hangMatrix` in binary64 arithmetic, three rows are added and the search of
the fourth (pad) row ends at column 3 with `way[3] = 2`, `way[2] = 1` and `way[1] = 2`. -/
theorem hang_state :
    ((solveTo roundDouble 8 4 (padded 2 4 hangMatrix) 3).bind fun d =>
      (searchLoop roundDouble 4 (padded 2 4 hangMatrix) 8
        { u := d.u, v := d.v, p := Function.update d.p 0 4, way := d.way,
          minv := fun _ => INF, used := fun _ => false, j0 := 0 }).map fun s =>
        (s.j0, s.way 1, s.way 2, s.way 3)) = some (3, 2, 1, 2) := by
  decide!

/-- On the matrix `hangMatrix` in binary64 arithmetic the solver returns for no fuel: the
second `do ... while` loop of the fourth row runs along `3, 2, 1, 2, 1, ...`. -/
theorem hungarian_hang (fuel : Nat) : hungarianAlgorithm roundDouble fuel hangMatrix = none := by
  have key : ∀ g, 8 ≤ g → hungarianAlgorithm roundDouble g hangMatrix = none := by
    intro g hg
    have hs := hang_state
    obtain ⟨d, hd, hs1⟩ := Option.bind_eq_some.mp hs
    obtain ⟨s, hsr, hobs⟩ := Option.map_eq_some'.mp hs1
    have hj0 : s.j0 = 3 := congrArg (fun t => t.1) hobs
    have hw1 : s.way 1 = 2 := congrArg (fun t => t.2.1) hobs
    have hw2 : s.way 2 = 1 := congrArg (fun t => t.2.2.1) hobs
    have hw3 : s.way 3 = 2 := congrArg (fun t => t.2.2.2) hobs
    have hd1 := solveTo_mono 4 (padded 2 4 hangMatrix) 8 g hg 3 d hd
    have hsr1 := searchLoop_mono 4 (padded 2 4 hangMatrix) 8 _ s hsr g hg
    have hcyc : augmentLoop s.way g s.p s.j0 = none := by
      apply augmentLoop_cycle s.way (fun j => j = 1 ∨ j = 2 ∨ j = 3)
      · intro j hj
        rcases hj with rfl | rfl | rfl
        · rw [hw1]; exact ⟨by decide, Or.inr (Or.inl rfl)⟩
        · rw [hw2]; exact ⟨by decide, Or.inl rfl⟩
        · rw [hw3]; exact ⟨by decide, Or.inr (Or.inl rfl)⟩
      · exact Or.inr (Or.inr hj0)
    have hsolve : solve roundDouble g 4 (padded 2 4 hangMatrix) = none := by
      rw [solve_eq_solveTo, solveTo_succ, hd1]
      show addRow roundDouble g 4 (padded 2 4 hangMatrix) d 4 = none
      unfold addRow
      rw [hsr1]
      show (augmentLoop s.way g s.p s.j0).map _ = none
      rw [hcyc]
      rfl
    have e : hungarianAlgorithm roundDouble g hangMatrix =
        (solve roundDouble g 4 (padded 2 4 hangMatrix)).bind fun d =>
          (List.range' 1 4).foldl (writeBack 2 4 d.p) (some (List.replicate 2 (-1))) := rfl
    rw [e, hsolve]
    rfl
  rcases le_total 8 fuel with h | h
  · exact key fuel h
  · cases hr : hungarianAlgorithm roundDouble fuel hangMatrix with
    | none => rfl
    | some r =>
      have := hungarianAlgorithm_mono hangMatrix fuel 8 h r hr
      rw [key 8 (le_refl _)] at this
      exact Option.noConfusion this

/-! ## Rounding-dependent results of the solver -/

/-- The entries of `hangMatrix` are doubles, finite and nonnegative, in two rows of four. -/
theorem hangMatrix_wellFormed :
    (∀ row ∈ hangMatrix, row.length = 4) ∧
    (∀ row ∈ hangMatrix, ∀ x ∈ row, roundDouble x = x ∧ 0 ≤ x ∧ x < 5) := by
  decide!

/-- C2 (termination and shape of the result) fails on doubles. `hangMatrix` is a matrix of
two rows and four columns whose entries are doubles, finite and nonnegative; in binary64
arithmetic `hungarianAlgorithm` returns on it for no fuel (the second `do ... while` loop of
the fourth, pad, row never reaches column `0`), while in exact arithmetic it returns
`[3, 0]`. -/
theorem hungarianAlgorithm_never_returns :
    (∀ row ∈ hangMatrix, row.length = 4) ∧
    (∀ row ∈ hangMatrix, ∀ x ∈ row, roundDouble x = x ∧ 0 ≤ x ∧ x < 5) ∧
    (∀ fuel, hungarianAlgorithm roundDouble fuel hangMatrix = none) ∧
    (∀ fuel, 10 ≤ fuel → hungarianAlgorithm id fuel hangMatrix = some [3, 0]) :=
  ⟨hangMatrix_wellFormed.1, hangMatrix_wellFormed.2, hungarian_hang,
    fun fuel hfuel => hungarianAlgorithm_mono _ 10 fuel hfuel _ (by decide!)⟩

theorem calls_length (sel : Nat → Option Nat) (m : Nat) (dets : List (Vector3 K))
    (hinj : ∀ i i1 j, sel i = some j → sel i1 = some j → i = i1)
    (hm : ∀ i j, sel i = some j → i < m) (hlt : ∀ i j, sel i = some j → j < dets.length) :
    (((List.range m).filter fun i => (sel i).isSome).map fun i => (i, (sel i).getD 0)).length +
      (freeDetections sel m dets).length = dets.length := by
  have hperm : ((((List.range m).filter fun i => (sel i).isSome).map
      fun i => (i, (sel i).getD 0)).map Prod.snd ++ freeDetections sel m dets).Perm
      (List.range dets.length) := by
    rw [List.perm_iff_count]
    intro j
    rw [List.count_append]
    by_cases hj : j < dets.length
    · rw [calls_count sel m dets hinj hm j hj,
        List.count_eq_one_of_mem (List.nodup_range _) (List.mem_range.mpr hj)]
    · rw [List.count_eq_zero_of_not_mem, List.count_eq_zero_of_not_mem,
        List.count_eq_zero_of_not_mem]
      · intro h; exact hj (List.mem_range.mp h)
      · intro h
        unfold freeDetections at h
        exact hj (List.mem_range.mp (List.mem_filter.mp h).1)
      · intro h
        rw [List.map_map] at h
        obtain ⟨i, hi, hij⟩ := List.mem_map.mp h
        have hs := (List.mem_filter.mp hi).2
        obtain ⟨j1, hj1⟩ := Option.isSome_iff_exists.mp hs
        simp only [Function.comp, hj1, Option.getD_some] at hij
        subst hij
        exact hj (hlt i j1 hj1)
  have hlen := hperm.length_eq
  rw [List.length_append, List.length_map, List.length_range] at hlen
  exact hlen

/-- Detection conservation in the frames that return. For every rounding of the solver's
arithmetic, every tracker and every detection list: whenever one frame (`predictTracks`
followed by `updateTracks`) returns, every call of `Track::update` names a live track and a
detection of the frame; every detection index occurs exactly once among the update calls
and the unassigned detections taken together (never both, never neither); no track is
updated twice; the tracks appended in the frame are, in order, one per unassigned detection,
with that detection as initial position; and the number of update calls plus the number of
spawned tracks is the number of detections. -/
theorem step_conservation (rnd : K → K) (norm : Vector3 K → K) (tr tr1 : Tracker K)
    (dets : List (Vector3 K)) (fuel : Nat) (h : step rnd fuel norm tr dets = some tr1) :
    ∃ (as : Association K) (survivors spawned : List (Track K)),
      associateDetectionsToTracks rnd fuel norm (predictTracks tr) dets = some as ∧
      (∀ c ∈ as.updateCalls, c.1 < tr.tracks.length ∧ c.2 < dets.length) ∧
      (∀ j, j < dets.length →
        (as.updateCalls.map Prod.snd).count j + as.unassignedDetections.count j = 1) ∧
      (as.updateCalls.map Prod.fst).Nodup ∧
      tr1.tracks = survivors ++ spawned ∧ survivors.length ≤ tr.tracks.length ∧
      spawned.map (fun t => t.positionHistory) =
        as.unassignedDetections.map (fun j => [dets.getD j 0]) ∧
      as.updateCalls.length + spawned.length = dets.length := by
  obtain ⟨sel, hsel, hassoc, rfl⟩ := step_assoc rnd norm tr tr1 dets fuel h
  have hlen : (predictTracks tr).tracks.length = tr.tracks.length := by
    unfold predictTracks; simp
  have hm : ∀ i j, sel i = some j → i < tr.tracks.length := by
    intro i j hs
    obtain ⟨_, t, ht, _⟩ := hsel.gate i j hs
    exact (List.getElem?_eq_some.mp ht).1
  have hlt : ∀ i j, sel i = some j → j < dets.length := fun i j hs => (hsel.gate i j hs).1
  refine ⟨assocSpec sel (predictTracks tr).tracks dets, _, spawnedTracks sel tr dets, hassoc,
    ?_, ?_, ?_, rfl, ?_, ?_, ?_⟩
  · intro c hc
    unfold assocSpec at hc
    simp only [List.mem_map, List.mem_filter, List.mem_range] at hc
    obtain ⟨i, ⟨hi, hs⟩, rfl⟩ := hc
    obtain ⟨j, hj⟩ := Option.isSome_iff_exists.mp hs
    rw [hlen] at hi
    exact ⟨hi, by simp only [hj, Option.getD_some]; exact hlt i j hj⟩
  · intro j hj
    unfold assocSpec
    simp only [hlen]
    exact calls_count sel tr.tracks.length dets hsel.inj hm j hj
  · unfold assocSpec
    simp only [List.map_map]
    apply List.Nodup.map_on
    · intro x _ y _ hxy; exact hxy
    · exact List.Nodup.filter _ (List.nodup_range _)
  · refine le_trans (List.length_filterMap_le _ _) ?_
    rw [List.enum_length]
  · rw [spawnedTracks_history]
    unfold assocSpec
    simp only [hlen]
  · unfold assocSpec spawnedTracks
    simp only [hlen, List.length_map, spawnAll_length]
    have := calls_length sel tr.tracks.length dets hsel.inj hm hlt
    rw [List.length_map] at this
    exact this

/-- Detection conservation in a frame on doubles: the example tracker, whose one track is at
the origin, and one detection at distance 1. The frame returns. -/
theorem step_conservation_example :
    ∃ tr1 : Tracker ℚ, step roundDouble 2 normDouble exampleTracker [![1, 0, 0]] = some tr1 ∧
      ∃ (as : Association ℚ) (survivors spawned : List (Track ℚ)),
        associateDetectionsToTracks roundDouble 2 normDouble (predictTracks exampleTracker)
          [![1, 0, 0]] = some as ∧
        (∀ c ∈ as.updateCalls, c.1 < exampleTracker.tracks.length ∧
          c.2 < ([![1, 0, 0]] : List (Vector3 ℚ)).length) ∧
        (∀ j, j < ([![1, 0, 0]] : List (Vector3 ℚ)).length →
          (as.updateCalls.map Prod.snd).count j + as.unassignedDetections.count j = 1) ∧
        (as.updateCalls.map Prod.fst).Nodup ∧
        tr1.tracks = survivors ++ spawned ∧
        survivors.length ≤ exampleTracker.tracks.length ∧
        spawned.map (fun t => t.positionHistory) =
          as.unassignedDetections.map
            (fun j => [([![1, 0, 0]] : List (Vector3 ℚ)).getD j 0]) ∧
        as.updateCalls.length + spawned.length = ([![1, 0, 0]] : List (Vector3 ℚ)).length := by
  obtain ⟨sel, _, _, hs⟩ := step_one roundDouble rfl normDouble exampleTracker _ ![1, 0, 0] rfl 2
    (le_refl _)
  exact ⟨_, hs, step_conservation roundDouble normDouble exampleTracker _ [![1, 0, 0]] 2 hs⟩

theorem getD_zero_singleton (z : Vector3 K) : ([z] : List (Vector3 K)).getD 0 0 = z := rfl

theorem tracker_eta (tr : Tracker K) (h : tr.tracks = []) :
    ({ tr with tracks := [] } : Tracker K) = tr := by
  cases tr
  simp only at h
  subst h
  rfl

theorem step_no_tracks (rnd : K → K) (norm : Vector3 K → K) (tr : Tracker K) (fuel : Nat)
    (h : tr.tracks = []) : step rnd fuel norm tr [] = some tr := by
  unfold step updateTracks associateDetectionsToTracks predictTracks
  simp only [h, List.map_nil, List.isEmpty_nil, if_true, Option.map_some', List.length_nil,
    List.range_zero, List.foldl_nil, List.insertionSort]
  congr 1
  exact tracker_eta tr h

/-- A frame without detections, whatever the rounding of the solver: whenever it returns, no
update call was made, no track was created, and the tracks are the former tracks, in their
order, each passed through `missFrame`. -/
theorem empty_frame_returns (rnd : K → K) (norm : Vector3 K → K) (tr tr1 : Tracker K)
    (fuel : Nat) (h : step rnd fuel norm tr [] = some tr1) :
    (∃ as : Association K,
      associateDetectionsToTracks rnd fuel norm (predictTracks tr) [] = some as ∧
      as.updateCalls = []) ∧
    tr1 = { tr with
      tracks := tr.tracks.filterMap (missFrame tr.maxAge tr.maxConsecutiveMisses tr.minHits) } := by
  obtain ⟨sel, hsel, hassoc, rfl⟩ := step_assoc rnd norm tr tr1 [] fuel h
  have hnone : ∀ i, sel i = none := by
    intro i
    rcases Option.eq_none_or_eq_some (sel i) with h | ⟨j, h⟩
    · exact h
    · have := (hsel.gate i j h).1
      simp at this
  refine ⟨⟨_, hassoc, ?_⟩, ?_⟩
  · unfold assocSpec
    simp only [hnone, Option.isSome_none, Bool.false_eq_true, List.filter_false, List.map_nil]
  · have htr : (stepSpec sel tr []).tracks =
        tr.tracks.filterMap (missFrame tr.maxAge tr.maxConsecutiveMisses tr.minHits) := by
      rw [stepSpec_tracks]
      simp only [hnone, spawnedTracks, freeDetections, List.length_nil, List.range_zero,
        List.filter_nil, spawnAll, List.map_nil, List.append_nil]
      have : tr.tracks.filterMap (missFrame tr.maxAge tr.maxConsecutiveMisses tr.minHits) =
          (tr.tracks.enum.map Prod.snd).filterMap
            (missFrame tr.maxAge tr.maxConsecutiveMisses tr.minHits) := by
        rw [List.enum_map_snd]
      rw [this, List.filterMap_map]
      rfl
    unfold stepSpec at htr ⊢
    simp only at htr
    simp only [htr, freeDetections, List.length_nil, List.range_zero, List.filter_nil,
      Nat.cast_zero, add_zero]

/-- A frame without detections returns, for every fuel above the number of tracks, in every
arithmetic whose rounding keeps `0` and `INF`: the cost matrix has no column, and the solver
returns on it. -/
theorem empty_frame_total (rnd : K → K) (h0 : rnd 0 = 0) (hI : rnd INF = INF)
    (norm : Vector3 K → K) (tr : Tracker K) (fuel : Nat) (hfuel : tr.tracks.length + 1 ≤ fuel) :
    ∃ tr1, step rnd fuel norm tr [] = some tr1 := by
  have hc : costMatrixOf norm (predictTracks tr).tracks [] =
      List.replicate tr.tracks.length ([] : List K) := by
    unfold costMatrixOf predictTracks
    simp only [List.map_nil, List.map_map]
    rw [List.eq_replicate_iff]
    refine ⟨by rw [List.length_map], fun e he => ?_⟩
    obtain ⟨_, _, rfl⟩ := List.mem_map.mp he
    rfl
  have hh := hungarian_pad rnd h0 hI tr.tracks.length fuel hfuel
  rw [← hc] at hh
  unfold step updateTracks associateDetectionsToTracks
  dsimp only
  split
  · exact ⟨_, rfl⟩
  · rw [hh]
    exact ⟨_, rfl⟩

/-- C8 (frame without detections). In every arithmetic whose rounding keeps `0` and `INF`
(exact arithmetic, binary64), with enough fuel a frame with an empty detection list returns
on every tracker: `Track::update` is never called, no track is created and `trackId` is
unchanged, and the tracks are the former tracks, in their order, each passed through
`missFrame`: removed exactly when the incremented `timeSinceUpdate` exceeds `maxAge` or the
incremented `consecutiveMisses` exceeds `maxConsecutiveMisses`, and otherwise with `age`,
`consecutiveMisses` and `timeSinceUpdate` one larger and `hits`, `id` and `positionHistory`
unchanged. On a tracker without tracks the frame leaves the tracker unchanged, for every
fuel, and the frame report is empty. -/
theorem empty_frame (rnd : K → K) (h0 : rnd 0 = 0) (hI : rnd INF = INF)
    (norm : Vector3 K → K) (tr : Tracker K) :
    ∃ f0 : Nat, ∀ fuel, f0 ≤ fuel → ∃ as : Association K,
      associateDetectionsToTracks rnd fuel norm (predictTracks tr) [] = some as ∧
      as.updateCalls = [] ∧
      step rnd fuel norm tr [] =
        some { tr with
          tracks := tr.tracks.filterMap
            (missFrame tr.maxAge tr.maxConsecutiveMisses tr.minHits) } ∧
      (∀ t : Track K, missFrame tr.maxAge tr.maxConsecutiveMisses tr.minHits t = none ↔
        (t.timeSinceUpdate + 1 > tr.maxAge ∨
          t.consecutiveMisses + 1 > tr.maxConsecutiveMisses)) ∧
      (∀ t t1 : Track K, missFrame tr.maxAge tr.maxConsecutiveMisses tr.minHits t = some t1 →
        t1.age = t.age + 1 ∧ t1.consecutiveMisses = t.consecutiveMisses + 1 ∧
        t1.timeSinceUpdate = t.timeSinceUpdate + 1 ∧ t1.hits = t.hits ∧ t1.id = t.id ∧
        t1.positionHistory = t.positionHistory) ∧
      (tr.tracks = [] →
        (∀ fuel1, step rnd fuel1 norm tr [] = some tr) ∧ tracksArray tr = []) := by
  refine ⟨tr.tracks.length + 1, fun fuel hfuel => ?_⟩
  obtain ⟨tr1, hs⟩ := empty_frame_total rnd h0 hI norm tr fuel hfuel
  obtain ⟨⟨as, hassoc, hcalls⟩, htr1⟩ := empty_frame_returns rnd norm tr tr1 fuel hs
  refine ⟨as, hassoc, hcalls, by rw [hs, htr1], fun t => missFrame_none _ _ _ t,
    fun t t1 h => missFrame_some _ _ _ t t1 h,
    fun h => ⟨fun fuel1 => step_no_tracks rnd norm tr fuel1 h, ?_⟩⟩
  unfold tracksArray
  rw [h]
  rfl

/-- Witness of C8 on doubles (the solver and the distance in binary64), at the tracker after
one frame with two detections, which holds two tracks. -/
theorem empty_frame_witness :
    (roundDouble 0 = 0 ∧ roundDouble INF = INF) ∧
    ∃ f0 : Nat, ∀ fuel, f0 ≤ fuel → ∃ as : Association ℚ,
      associateDetectionsToTracks roundDouble fuel normDouble (predictTracks pairFrame) [] =
        some as ∧
      as.updateCalls = [] ∧
      step roundDouble fuel normDouble pairFrame [] =
        some { pairFrame with
          tracks := pairFrame.tracks.filterMap
            (missFrame pairFrame.maxAge pairFrame.maxConsecutiveMisses pairFrame.minHits) } ∧
      (∀ t : Track ℚ,
        missFrame pairFrame.maxAge pairFrame.maxConsecutiveMisses pairFrame.minHits t = none ↔
        (t.timeSinceUpdate + 1 > pairFrame.maxAge ∨
          t.consecutiveMisses + 1 > pairFrame.maxConsecutiveMisses)) ∧
      (∀ t t1 : Track ℚ,
        missFrame pairFrame.maxAge pairFrame.maxConsecutiveMisses pairFrame.minHits t =
          some t1 →
        t1.age = t.age + 1 ∧ t1.consecutiveMisses = t.consecutiveMisses + 1 ∧
        t1.timeSinceUpdate = t.timeSinceUpdate + 1 ∧ t1.hits = t.hits ∧ t1.id = t.id ∧
        t1.positionHistory = t.positionHistory) ∧
      (pairFrame.tracks = [] →
        (∀ fuel1, step roundDouble fuel1 normDouble pairFrame [] = some pairFrame) ∧
        tracksArray pairFrame = []) :=
  ⟨⟨rfl, by decide!⟩, empty_frame roundDouble rfl (by decide!) normDouble pairFrame⟩

theorem same_id_same_track (l : List (Track K))
    (hs : (l.map fun t => t.id).Sorted (fun a b => a < b)) (t t1 : Track K) (ht : t ∈ l)
    (ht1 : t1 ∈ l) (hid : t.id = t1.id) : t = t1 := by
  have hnd : (l.map fun t => t.id).Nodup := hs.imp (fun h => ne_of_lt h)
  exact List.inj_on_of_nodup_map hnd ht ht1 hid

/-- C6 (confirmation). In every tracker reached from a new tracker by whole frames a live
track is `CONFIRMED` if and only if its `hits` is at least `minHits`; and a track that is
`CONFIRMED` is `CONFIRMED` in every later tracker in which a track with its identifier is
live. -/
theorem confirmation (rnd : K → K) (norm : Vector3 K → K)
    (settings : TrackSettings K) (tr : Tracker K) (hr : Reachable rnd norm settings tr) :
    (∀ t ∈ tr.tracks, (t.stage = TrackStage.CONFIRMED ↔ settings.minHits ≤ t.hits)) ∧
    (∀ tr2, StepsTo rnd norm tr tr2 → ∀ t ∈ tr.tracks, t.stage = TrackStage.CONFIRMED →
      ∀ t2 ∈ tr2.tracks, t2.id = t.id → t2.stage = TrackStage.CONFIRMED) := by
  have hinv := reachable_inv norm settings tr hr
  constructor
  · intro t ht
    rw [hinv.stage t ht, hinv.minHits]
  · intro tr2 hs t ht hc t2 ht2 hid
    obtain ⟨_, _, h3⟩ := stepsTo_origin norm tr tr2 hs
    rcases h3 t2 ht2 with ⟨t1, ht1, e1, _, e3⟩ | hge
    · have : t1 = t := same_id_same_track tr.tracks hinv.sorted t1 t ht1 ht (e1.symm.trans hid)
      subst this
      exact e3 hc
    · have := hinv.below t ht
      omega

/-- Witness of C6 on doubles, at the tracker with `minHits = 1` after one frame with one
detection: it holds one track, which is `CONFIRMED`. -/
theorem confirmation_witness :
    Reachable roundDouble normDouble quickSettings quickFrame ∧
    (∃ t ∈ quickFrame.tracks, t.stage = TrackStage.CONFIRMED) ∧
    ((∀ t ∈ quickFrame.tracks,
        (t.stage = TrackStage.CONFIRMED ↔ quickSettings.minHits ≤ t.hits)) ∧
      (∀ tr2, StepsTo roundDouble normDouble quickFrame tr2 →
        ∀ t ∈ quickFrame.tracks, t.stage = TrackStage.CONFIRMED →
          ∀ t2 ∈ tr2.tracks, t2.id = t.id → t2.stage = TrackStage.CONFIRMED)) :=
  ⟨Reachable.frame (Tracker.new quickSettings) quickFrame 1 [![0, 0, 0]] Reachable.init
      (step_first normDouble quickSettings ![0, 0, 0] 1),
    ⟨_, List.mem_singleton.mpr rfl, by decide⟩,
    confirmation roundDouble normDouble quickSettings quickFrame
      (Reachable.frame (Tracker.new quickSettings) quickFrame 1 [![0, 0, 0]] Reachable.init
        (step_first normDouble quickSettings ![0, 0, 0] 1))⟩

theorem freeDetections_sorted (sel : Nat → Option Nat) (m : Nat) (dets : List (Vector3 K)) :
    (freeDetections sel m dets).Sorted (fun a b => a < b) ∧
      ∀ j ∈ freeDetections sel m dets, j < dets.length := by
  unfold freeDetections
  exact ⟨List.Sorted.filter _ (List.sorted_lt_range _),
    fun j hj => List.mem_range.mp (List.mem_filter.mp hj).1⟩

/-- C7 (track identities). In every tracker reached from a new tracker by whole frames the
identifiers of the live tracks increase strictly along the track list, so they are pairwise
distinct, and lie below `trackId`. A frame keeps the identifier of every surviving track
(the identifiers of the survivors are a sublist of the former ones), and it gives the tracks
it spawns, taken in ascending order of the detection index, the consecutive identifiers
`trackId, trackId + 1, ...`, advancing `trackId` past them. The identifier of a track
deleted in a frame belongs to no track of any later tracker. -/
theorem track_identities (rnd : K → K) (norm : Vector3 K → K)
    (settings : TrackSettings K) (tr : Tracker K) (hr : Reachable rnd norm settings tr) :
    (tr.tracks.map fun t => t.id).Sorted (fun a b => a < b) ∧
    (tr.tracks.map fun t => t.id).Nodup ∧
    (∀ t ∈ tr.tracks, t.id < tr.trackId) ∧
    (∀ fuel dets tr1, step rnd fuel norm tr dets = some tr1 →
      ∃ (survivors spawned : List (Track K)) (js : List Nat),
        tr1.tracks = survivors ++ spawned ∧
        (survivors.map fun t => t.id).Sublist (tr.tracks.map fun t => t.id) ∧
        js.Sorted (fun a b => a < b) ∧ (∀ j ∈ js, j < dets.length) ∧
        spawned.map (fun t => t.positionHistory) = js.map (fun j => [dets.getD j 0]) ∧
        spawned.map (fun t => t.id) =
          (List.range js.length).map (fun (k : Nat) => tr.trackId + (k : Int)) ∧
        tr1.trackId = tr.trackId + (js.length : Int)) ∧
    (∀ fuel dets tr1 tr2, step rnd fuel norm tr dets = some tr1 → StepsTo rnd norm tr1 tr2 →
      ∀ t ∈ tr.tracks, (∀ t1 ∈ tr1.tracks, t1.id ≠ t.id) →
        ∀ t2 ∈ tr2.tracks, t2.id ≠ t.id) := by
  have hinv := reachable_inv norm settings tr hr
  refine ⟨hinv.sorted, hinv.sorted.imp (fun h => ne_of_lt h), hinv.below, ?_, ?_⟩
  · intro fuel dets tr1 hstep
    obtain ⟨sel, _, rfl⟩ := step_some norm tr tr1 dets fuel hstep
    refine ⟨_, spawnedTracks sel tr dets, freeDetections sel tr.tracks.length dets, rfl,
      stepSpec_survivor_ids sel tr dets, (freeDetections_sorted sel _ dets).1,
      (freeDetections_sorted sel _ dets).2, spawnedTracks_history sel tr dets,
      spawnedTracks_ids sel tr dets, rfl⟩
  · intro fuel dets tr1 tr2 hstep hs t ht hdel t2 ht2 hid
    obtain ⟨sel, _, rfl⟩ := step_some norm tr tr1 dets fuel hstep
    obtain ⟨_, _, h3⟩ := stepsTo_origin norm (stepSpec sel tr dets) tr2 hs
    rcases h3 t2 ht2 with ⟨t1, ht1, e1, _, _⟩ | hge
    · exact hdel t1 ht1 (e1.symm.trans hid)
    · have h1 := hinv.below t ht
      have h2 : tr.trackId ≤ (stepSpec sel tr dets).trackId := by
        show tr.trackId ≤ tr.trackId + _
        omega
      omega

/-- Witness of C7 on doubles, at the tracker after one frame with two detections: it holds
two tracks, with the identifiers `0` and `1`, and `trackId = 2`. -/
theorem track_identities_witness :
    Reachable roundDouble normDouble exampleSettings pairFrame ∧
    pairFrame.tracks.map (fun t => t.id) = [0, 1] ∧ pairFrame.trackId = 2 ∧
    ((pairFrame.tracks.map fun t => t.id).Sorted (fun a b => a < b) ∧
    (pairFrame.tracks.map fun t => t.id).Nodup ∧
    (∀ t ∈ pairFrame.tracks, t.id < pairFrame.trackId) ∧
    (∀ fuel dets tr1, step roundDouble fuel normDouble pairFrame dets = some tr1 →
      ∃ (survivors spawned : List (Track ℚ)) (js : List Nat),
        tr1.tracks = survivors ++ spawned ∧
        (survivors.map fun t => t.id).Sublist
          (pairFrame.tracks.map fun t => t.id) ∧
        js.Sorted (fun a b => a < b) ∧ (∀ j ∈ js, j < dets.length) ∧
        spawned.map (fun t => t.positionHistory) = js.map (fun j => [dets.getD j 0]) ∧
        spawned.map (fun t => t.id) =
          (List.range js.length).map
            (fun (k : Nat) => pairFrame.trackId + (k : Int)) ∧
        tr1.trackId = pairFrame.trackId + (js.length : Int)) ∧
    (∀ fuel dets tr1 tr2, step roundDouble fuel normDouble pairFrame dets = some tr1 →
      StepsTo roundDouble normDouble tr1 tr2 →
      ∀ t ∈ pairFrame.tracks, (∀ t1 ∈ tr1.tracks, t1.id ≠ t.id) →
        ∀ t2 ∈ tr2.tracks, t2.id ≠ t.id)) :=
  ⟨Reachable.frame (Tracker.new exampleSettings) pairFrame 1 [![0, 0, 0], ![10, 0, 0]]
      Reachable.init (step_first_two normDouble exampleSettings ![0, 0, 0] ![10, 0, 0] 1),
    by simp [pairFrame, sweep_id, Track.new], rfl,
    track_identities roundDouble normDouble exampleSettings pairFrame
      (Reachable.frame (Tracker.new exampleSettings) pairFrame 1 [![0, 0, 0], ![10, 0, 0]]
        Reachable.init (step_first_two normDouble exampleSettings ![0, 0, 0] ![10, 0, 0] 1))⟩

/-! ## A stationary target -/

theorem transition_resting (z : Vector3 K) :
    (transitionMatrix : Matrix (Fin 9) (Fin 9) K).mulVec (restingState z) = restingState z := by
  funext i
  fin_cases i <;>
    simp [transitionMatrix, setCoeff, restingState, Matrix.mulVec, Matrix.dotProduct,
      Fin.sum_univ_succ, Function.update_apply, Matrix.one_apply]
  rfl

theorem vec3_eta (z : Vector3 K) : (![z 0, z 1, z 2] : Fin 3 → K) = z := by
  funext i
  fin_cases i <;> rfl

theorem runFrames_cons {rnd : K → K} (fuel : Nat) (norm : Vector3 K → K) (tr tr1 : Tracker K)
    (dets : List (Vector3 K)) (rest : List (List (Vector3 K)))
    (h : step rnd fuel norm tr dets = some tr1) :
    runFrames rnd fuel norm tr (dets :: rest) =
      (runFrames rnd fuel norm tr1 rest).map fun r => (r.1, tracksArray tr1 :: r.2) := by
  rw [runFrames, h]
  rfl

/-- After `predict`, a track just built at `z` with zero velocity and acceleration is still at
`z` (in exact arithmetic, and on doubles: the products and sums involved are exact). -/
theorem predict_position (minHits id : Int) (z : Vector3 K) (settings : TrackSettings K) :
    (sweep minHits (Track.new id z 0 0 settings)).predict.1.getState = z := by
  have hx : (sweep minHits (Track.new id z 0 0 settings)).predict.1.kalmanFilter.x =
      restingState z := by
    simp only [Track.predict, KalmanFilter.predict, sweep_kalmanFilter]
    exact transition_resting z
  unfold Track.getState
  rw [hx]
  funext i
  fin_cases i <;> simp [restingState]

/-- The distances, computed on doubles, from the two tracks of `hangFrame` after `predict`
to the four detections `hangDetections` are the entries of `hangMatrix`. -/
theorem hang_costs :
    costMatrixOf normDouble (predictTracks hangFrame).tracks hangDetections = hangMatrix := by
  have e : costMatrixOf normDouble (predictTracks hangFrame).tracks hangDetections =
      [hangDetections.map fun d => normDouble (![1 / 2, 0, 0] - d),
        hangDetections.map fun d => normDouble (![roundDouble (1 / 5), 0, 0] - d)] := by
    unfold costMatrixOf predictTracks hangFrame
    simp only [List.map_cons, List.map_nil, predict_position]
  rw [e]
  decide!

/-- The frame `hangDetections` on the tracker `hangFrame`, on doubles, returns for no fuel. -/
theorem frame_hang (fuel : Nat) : step roundDouble fuel normDouble hangFrame hangDetections = none := by
  unfold step updateTracks associateDetectionsToTracks
  have hne : (predictTracks hangFrame).tracks.isEmpty = false := rfl
  simp only [hne, Bool.false_eq_true, if_false, hang_costs, hungarian_hang, Option.map_none']

/-- C3 (detection conservation) fails on doubles, through the solver. A new tracker with the
example settings is fed the detections `(0.5, 0, 0)` and `(0.2, 0, 0)`, which gives the
tracker `hangFrame` with two tracks. In the next frame, with the four detections at
`x = 4.7, 0.4, 1.7, 1.5`, the cost matrix computed on doubles is `hangMatrix`, on which the
solver returns for no fuel; so the frame, and the run of the two frames, return for no fuel:
none of the four detections is used, neither in an update nor for a new track. -/
theorem detection_conservation_hang :
    step roundDouble 1 normDouble (Tracker.new exampleSettings) hangFirst = some hangFrame ∧
    hangDetections.length = 4 ∧
    costMatrixOf normDouble (predictTracks hangFrame).tracks hangDetections = hangMatrix ∧
    (∀ fuel, step roundDouble fuel normDouble hangFrame hangDetections = none) ∧
    (∀ fuel, runTrackerWithParameters roundDouble fuel normDouble exampleSettings
      [hangFirst, hangDetections] = none) := by
  refine ⟨step_first_two normDouble exampleSettings _ _ 1, rfl, hang_costs, frame_hang, ?_⟩
  intro fuel
  unfold runTrackerWithParameters
  have h1 : step roundDouble fuel normDouble (Tracker.new exampleSettings) hangFirst =
      some hangFrame := step_first_two normDouble exampleSettings _ _ fuel
  rw [runFrames_cons fuel normDouble _ _ _ _ h1, runFrames, frame_hang]
  rfl

theorem foldl_report (ts : List (Track K)) (acc : List (TrackReport K)) :
    ts.foldl (fun acc t => if t.stage = TrackStage.CONFIRMED then acc ++ [trackJson t] else acc)
        acc =
      acc ++ (ts.filter fun t => decide (t.stage = TrackStage.CONFIRMED)).map trackJson := by
  induction ts generalizing acc with
  | nil => simp
  | cons t ts ih =>
    rw [List.foldl_cons, ih]
    by_cases h : t.stage = TrackStage.CONFIRMED
    · simp [h]
    · simp [h]

theorem foldl_add_apply (ps : List (Vector3 K)) (acc : Vector3 K) (i : Fin 3) :
    (ps.foldl (fun acc pos => acc + pos) acc) i = acc i + (ps.map fun pos => pos i).sum := by
  induction ps generalizing acc with
  | nil => simp
  | cons q ps ih =>
    rw [List.foldl_cons, ih]
    simp [add_assoc]

theorem smoothed_apply (t : Track K) (i : Fin 3) :
    t.getSmoothedPosition i =
      if t.positionHistory = [] then 0
      else (t.positionHistory.map fun pos => pos i).sum / (t.positionHistory.length : K) := by
  unfold Track.getSmoothedPosition
  by_cases h : t.positionHistory = []
  · simp [h]
  · have h1 : t.positionHistory.isEmpty = false := by
      cases hp : t.positionHistory with
      | nil => exact absurd hp h
      | cons a l => rfl
    rw [h1, if_neg h]
    simp only [Bool.false_eq_true, if_false]
    rw [foldl_add_apply]
    simp

/-- C10 (frame report). In every run of the frame loop, whatever the rounding of the solver's
arithmetic, the report of a frame is built from
the tracker state `tr1` left by the step of that frame, and for every tracker state `tr1` this
report is the list of the entries of the tracks of `tr1.tracks` whose stage is `CONFIRMED`,
in the order of `tr1.tracks` (so a track that is not `CONFIRMED` has no entry). The entry
of a track carries its `id`, in `x`, `y`, `z` the smoothed position, which is the
componentwise mean of `positionHistory` (the zero vector when the history is empty), in
`vx`, `vy`, `vz` the state components 3, 4, 5 and in `ax`, `ay`, `az` the state components
6, 7, 8. -/
theorem frame_report (rnd : K → K) (fuel : Nat) (norm : Vector3 K → K) (tr : Tracker K)
    (dets : List (Vector3 K)) (rest : List (List (Vector3 K))) :
    runFrames rnd fuel norm tr (dets :: rest) =
      ((step rnd fuel norm tr dets).bind fun tr1 =>
        (runFrames rnd fuel norm tr1 rest).map fun r =>
          (r.1, (tr1.tracks.filter fun t => decide (t.stage = TrackStage.CONFIRMED)).map
            trackJson :: r.2)) ∧
    (∀ tr1 : Tracker K, tracksArray tr1 =
      (tr1.tracks.filter fun t => decide (t.stage = TrackStage.CONFIRMED)).map trackJson) ∧
    ∀ t : Track K,
      (trackJson t).id = t.id ∧
      (trackJson t).x = t.getSmoothedPosition 0 ∧
      (trackJson t).y = t.getSmoothedPosition 1 ∧
      (trackJson t).z = t.getSmoothedPosition 2 ∧
      (∀ i : Fin 3, t.getSmoothedPosition i =
        if t.positionHistory = [] then 0
        else (t.positionHistory.map fun pos => pos i).sum / (t.positionHistory.length : K)) ∧
      (trackJson t).vx = t.kalmanFilter.x 3 ∧
      (trackJson t).vy = t.kalmanFilter.x 4 ∧
      (trackJson t).vz = t.kalmanFilter.x 5 ∧
      (trackJson t).ax = t.kalmanFilter.x 6 ∧
      (trackJson t).ay = t.kalmanFilter.x 7 ∧
      (trackJson t).az = t.kalmanFilter.x 8 := by
  have harr : ∀ tr1 : Tracker K, tracksArray tr1 =
      (tr1.tracks.filter fun t => decide (t.stage = TrackStage.CONFIRMED)).map trackJson := by
    intro tr1
    unfold tracksArray
    rw [foldl_report]
    simp
  refine ⟨?_, harr, ?_⟩
  · rw [runFrames]
    congr 1
    funext tr1
    rw [harr tr1]
  · intro t
    exact ⟨rfl, rfl, rfl, rfl, smoothed_apply t, rfl, rfl, rfl, rfl, rfl, rfl⟩


/-- C15 (degenerate shapes). In every arithmetic whose rounding keeps `0` and `INF` (exact
arithmetic, binary64): on a cost matrix without rows `hungarianAlgorithm` returns the empty
list, for every fuel; and on a matrix of `m` rows without columns it terminates, with enough
fuel, and returns the list of `m` entries `-1`. -/
theorem degenerate_shapes (rnd : K → K) (h0 : rnd 0 = 0) (hI : rnd INF = INF) :
    (∀ fuel, hungarianAlgorithm rnd fuel ([] : List (List K)) = some []) ∧
    ∀ m : Nat, ∃ f0 : Nat, ∀ fuel, f0 ≤ fuel →
      hungarianAlgorithm rnd fuel (List.replicate m ([] : List K)) =
        some (List.replicate m (-1)) :=
  ⟨fun _ => rfl, fun m => ⟨m + 1, fun fuel hfuel => hungarian_pad rnd h0 hI m fuel hfuel⟩⟩

/-- Witness of C15 on doubles: binary64 rounding keeps `0` and `INF = 1e9`. -/
theorem degenerate_shapes_witness :
    (roundDouble 0 = 0 ∧ roundDouble INF = INF) ∧
    (∀ fuel, hungarianAlgorithm roundDouble fuel ([] : List (List ℚ)) = some []) ∧
    ∀ m : Nat, ∃ f0 : Nat, ∀ fuel, f0 ≤ fuel →
      hungarianAlgorithm roundDouble fuel (List.replicate m ([] : List ℚ)) =
        some (List.replicate m (-1)) :=
  ⟨⟨rfl, by decide!⟩, degenerate_shapes roundDouble rfl (by decide!)⟩


theorem sweep_hitStreak (minHits : Int) (t : Track K) :
    (sweep minHits t).hitStreak = if t.timeSinceUpdate > 1 then 0 else t.hitStreak := by
  unfold sweep
  dsimp only
  by_cases h : t.hits ≥ minHits ∧ t.stage = TrackStage.INITIALIZED
  · simp only [if_pos h]; split <;> rfl
  · simp only [if_neg h]; split <;> rfl

/-- A property of tracks that holds for the tracks as they are spawned and swept, and that
survives a frame with an update and a frame without, holds for all tracks of the trackers
reached from a new tracker. -/
theorem reachable_tracks {rnd : K → K} (norm : Vector3 K → K)
    (settings : TrackSettings K) (Q : Track K → Prop)
    (hnew : ∀ (id : Int) (z : Vector3 K) (minHits : Int) (st : TrackSettings K),
      Q (sweep minHits (Track.new id z 0 0 st)))
    (hupd : ∀ (t : Track K) (z : Vector3 K) (minHits : Int), Q t →
      Q (sweep minHits (t.predict.1.update z)))
    (hmiss : ∀ (t : Track K) (minHits : Int), Q t →
      Q (sweep minHits { t.predict.1 with timeSinceUpdate := t.timeSinceUpdate + 1 }))
    (tr : Tracker K) (hr : Reachable rnd norm settings tr) : ∀ t ∈ tr.tracks, Q t := by
  induction hr with
  | init => intro t ht; exact absurd ht (List.not_mem_nil t)
  | frame tr tr1 fuel dets _ hstep ih =>
    obtain ⟨sel, _, rfl⟩ := step_some norm tr tr1 dets fuel hstep
    intro t1 ht1
    rcases mem_stepSpec sel tr dets t1 ht1 with ⟨t, ht, i, hf⟩ | hs
    · rcases Option.eq_none_or_eq_some (sel i) with hsel | ⟨j, hsel⟩
      · rw [frameOne_none _ _ _ _ _ _ _ hsel, missFrame_eq] at hf
        split at hf
        · exact Option.noConfusion hf
        · rw [← Option.some.inj hf]
          exact hmiss t _ (ih t ht)
      · rw [frameOne_some _ _ _ _ _ _ _ _ hsel] at hf
        rw [← Option.some.inj hf]
        exact hupd t _ _ (ih t ht)
    · obtain ⟨k, z, _, rfl⟩ := mem_spawnedTracks sel tr dets t1 hs
      exact hnew _ _ _ _

theorem counters_reachable {rnd : K → K} (norm : Vector3 K → K)
    (settings : TrackSettings K) (tr : Tracker K) (hr : Reachable rnd norm settings tr) :
    ∀ t ∈ tr.tracks, (1 ≤ t.hits ∧ t.hitStreak ≤ t.hits ∧ t.hits - 1 ≤ t.age) ∧
      t.consecutiveMisses = t.timeSinceUpdate ∧ 0 ≤ t.timeSinceUpdate ∧
      (t.timeSinceUpdate > 1 → t.hitStreak = 0) := by
  refine reachable_tracks norm settings
    (fun t => (1 ≤ t.hits ∧ t.hitStreak ≤ t.hits ∧ t.hits - 1 ≤ t.age) ∧
      t.consecutiveMisses = t.timeSinceUpdate ∧ 0 ≤ t.timeSinceUpdate ∧
      (t.timeSinceUpdate > 1 → t.hitStreak = 0)) ?_ ?_ ?_ tr hr
  · intro id z minHits st
    rw [sweep_hitStreak, sweep_hits, sweep_age, sweep_consecutiveMisses, sweep_timeSinceUpdate]
    simp [Track.new]
  · intro t z minHits ⟨⟨h1, h2, h3⟩, h4, h5, h6⟩
    rw [sweep_hitStreak, sweep_hits, sweep_age, sweep_consecutiveMisses, sweep_timeSinceUpdate]
    dsimp only [Track.update, Track.predict]
    refine ⟨⟨by omega, ?_, by omega⟩, rfl, le_refl _, fun h => by omega⟩
    rw [if_neg (by omega)]
    omega
  · intro t minHits ⟨⟨h1, h2, h3⟩, h4, h5, h6⟩
    rw [sweep_hitStreak, sweep_hits, sweep_age, sweep_consecutiveMisses, sweep_timeSinceUpdate]
    dsimp only [Track.predict]
    refine ⟨⟨h1, ?_, by omega⟩, by omega, by omega, fun h => by rw [if_pos h]⟩
    split <;> omega


theorem frameOne_counters (maxAge maxCM minHits : Int) (sel : Nat → Option Nat)
    (dets : List (Vector3 K)) (i : Nat) (t t1 : Track K)
    (h : frameOne maxAge maxCM minHits sel dets i t = some t1) :
    (sel i ≠ none ∧ t1.timeSinceUpdate = 0 ∧ t1.hitStreak = t.hitStreak + 1) ∨
    (sel i = none ∧ t1.timeSinceUpdate = t.timeSinceUpdate + 1 ∧
      t1.hitStreak = if t.timeSinceUpdate + 1 > 1 then 0 else t.hitStreak) := by
  rcases Option.eq_none_or_eq_some (sel i) with hsel | ⟨j, hsel⟩
  · right
    rw [frameOne_none _ _ _ _ _ _ _ hsel, missFrame_eq] at h
    split at h
    · exact Option.noConfusion h
    · rw [← Option.some.inj h, sweep_timeSinceUpdate, sweep_hitStreak]
      exact ⟨hsel, rfl, rfl⟩
  · left
    rw [frameOne_some _ _ _ _ _ _ _ _ hsel] at h
    rw [← Option.some.inj h, sweep_timeSinceUpdate, sweep_hitStreak]
    refine ⟨by rw [hsel]; exact Option.some_ne_none j, rfl, ?_⟩
    have e : (t.predict.1.update (dets.getD j 0)).timeSinceUpdate = 0 := rfl
    rw [e, if_neg (by omega)]
    rfl

theorem missFrame_hitStreak (maxAge maxCM minHits : Int) (t t1 : Track K)
    (h : missFrame maxAge maxCM minHits t = some t1) :
    t1.hitStreak = if t.timeSinceUpdate + 1 > 1 then 0 else t.hitStreak := by
  rw [missFrame_eq] at h
  split at h
  · exact Option.noConfusion h
  · rw [← Option.some.inj h, sweep_hitStreak]
    rfl

theorem missFrames_two (maxAge maxCM minHits : Int) (t t2 : Track K)
    (h0 : 0 ≤ t.timeSinceUpdate) (h : missFrames maxAge maxCM minHits 2 t = some t2) :
    t2.hitStreak = 0 ∧ t2.timeSinceUpdate = t.timeSinceUpdate + 2 := by
  have h' : ((some t).bind (missFrame maxAge maxCM minHits)).bind
      (missFrame maxAge maxCM minHits) = some t2 := h
  rw [Option.some_bind] at h'
  cases h1 : missFrame maxAge maxCM minHits t with
  | none => rw [h1] at h'; exact Option.noConfusion h'
  | some t1 =>
    rw [h1, Option.some_bind] at h'
    have a1 := (missFrame_some _ _ _ _ _ h1).2.2.1
    have a2 := (missFrame_some _ _ _ _ _ h').2.2.1
    have b2 := missFrame_hitStreak _ _ _ _ _ h'
    rw [b2, if_pos (by omega)]
    exact ⟨rfl, by omega⟩

theorem step_tracks {rnd : K → K} (norm : Vector3 K → K) (tr tr1 : Tracker K)
    (dets : List (Vector3 K)) (fuel : Nat) (h : step rnd fuel norm tr dets = some tr1) :
    ∃ sel : Nat → Option Nat,
      tr1.tracks =
        tr.tracks.enum.filterMap (fun it =>
          frameOne tr.maxAge tr.maxConsecutiveMisses tr.minHits sel dets it.1 it.2) ++
        spawnedTracks sel tr dets := by
  obtain ⟨sel, _, rfl⟩ := step_some norm tr tr1 dets fuel h
  exact ⟨sel, rfl⟩


/-- C11 (counter invariants). In every tracker reached from a new tracker by whole frames,
every live track has `hits >= 1`, `hitStreak <= hits` and `age >= hits - 1`. -/
theorem counter_invariants (rnd : K → K) (norm : Vector3 K → K)
    (settings : TrackSettings K) (tr : Tracker K) (hr : Reachable rnd norm settings tr) :
    ∀ t ∈ tr.tracks, 1 ≤ t.hits ∧ t.hitStreak ≤ t.hits ∧ t.age ≥ t.hits - 1 := by
  intro t ht
  obtain ⟨⟨h1, h2, h3⟩, _⟩ := counters_reachable norm settings tr hr t ht
  exact ⟨h1, h2, h3⟩

/-- Witness of C11 at the example tracker after one frame with one detection. -/
theorem counter_invariants_witness :
    Reachable roundDouble norm1 exampleSettings exampleFrame ∧
    ∀ t ∈ exampleFrame.tracks, 1 ≤ t.hits ∧ t.hitStreak ≤ t.hits ∧ t.age ≥ t.hits - 1 :=
  ⟨exampleFrame_reachable roundDouble,
    counter_invariants roundDouble norm1 exampleSettings exampleFrame
      (exampleFrame_reachable roundDouble)⟩


/-- C18 (`hitStreak`). `Track::update` increases `hitStreak` by exactly one, `Track::predict`
and the age-and-cull loop leave it unchanged, and the sweep sets it to `0` exactly for the
tracks with `timeSinceUpdate > 1`. Hence in every tracker reached from a new tracker by whole
frames a live track with `timeSinceUpdate > 1` has `hitStreak = 0`; and in a frame from such
a tracker a track that is updated ends with `hitStreak` one larger, a track that is missed
for the first time (`timeSinceUpdate` was `0`) keeps its `hitStreak`, a track that is missed
again ends with `hitStreak = 0`, and a track that survives two consecutive frames without
update has `hitStreak = 0`. -/
theorem hit_streak_semantics (rnd : K → K) (norm : Vector3 K → K)
    (settings : TrackSettings K) (tr : Tracker K) (hr : Reachable rnd norm settings tr) :
    (∀ (t : Track K) (z : Vector3 K), (t.update z).hitStreak = t.hitStreak + 1) ∧
    (∀ t : Track K, t.predict.1.hitStreak = t.hitStreak) ∧
    (∀ (maxAge maxCM : Int) (t t1 : Track K), cullOne maxAge maxCM t = some t1 →
      t1.hitStreak = t.hitStreak) ∧
    (∀ (minHits : Int) (t : Track K),
      (sweep minHits t).hitStreak = if t.timeSinceUpdate > 1 then 0 else t.hitStreak) ∧
    (∀ t ∈ tr.tracks, t.timeSinceUpdate > 1 → t.hitStreak = 0) ∧
    (∀ fuel dets tr1, step rnd fuel norm tr dets = some tr1 →
      (∀ t1 ∈ tr1.tracks, t1.timeSinceUpdate > 1 → t1.hitStreak = 0) ∧
      ∃ sel : Nat → Option Nat,
        tr1.tracks =
          tr.tracks.enum.filterMap (fun it =>
            frameOne tr.maxAge tr.maxConsecutiveMisses tr.minHits sel dets it.1 it.2) ++
          spawnedTracks sel tr dets ∧
        ∀ t ∈ tr.tracks, ∀ (i : Nat) (t1 : Track K),
          frameOne tr.maxAge tr.maxConsecutiveMisses tr.minHits sel dets i t = some t1 →
          (sel i ≠ none → t1.timeSinceUpdate = 0 ∧ t1.hitStreak = t.hitStreak + 1) ∧
          (sel i = none → t1.timeSinceUpdate = t.timeSinceUpdate + 1 ∧
            t1.hitStreak = if t.timeSinceUpdate = 0 then t.hitStreak else 0)) ∧
    (∀ t ∈ tr.tracks, ∀ t2 : Track K,
      missFrames tr.maxAge tr.maxConsecutiveMisses tr.minHits 2 t = some t2 →
      t2.hitStreak = 0 ∧ t2.timeSinceUpdate = t.timeSinceUpdate + 2) := by
  have hc := counters_reachable norm settings tr hr
  refine ⟨fun _ _ => rfl, fun _ => rfl, ?_, sweep_hitStreak, fun t ht => (hc t ht).2.2.2, ?_, ?_⟩
  · intro maxAge maxCM t t1 h
    unfold cullOne at h
    split at h
    · exact Option.noConfusion h
    · rw [← Option.some.inj h]
  · intro fuel dets tr1 hstep
    have hr1 := Reachable.frame tr tr1 fuel dets hr hstep
    refine ⟨fun t1 ht1 => (counters_reachable norm settings tr1 hr1 t1 ht1).2.2.2, ?_⟩
    obtain ⟨sel, hsel⟩ := step_tracks norm tr tr1 dets fuel hstep
    refine ⟨sel, hsel, ?_⟩
    intro t ht i t1 hf
    have h0 := (hc t ht).2.2.1
    rcases frameOne_counters _ _ _ _ _ _ _ _ hf with ⟨h1, h2, h3⟩ | ⟨h1, h2, h3⟩
    · exact ⟨fun _ => ⟨h2, h3⟩, fun e => absurd e h1⟩
    · refine ⟨fun e => absurd h1 e, fun _ => ⟨h2, ?_⟩⟩
      rw [h3]
      by_cases hz : t.timeSinceUpdate = 0
      · rw [if_pos hz, if_neg (by omega)]
      · rw [if_neg hz, if_pos (by omega)]
  · intro t ht t2 h
    exact missFrames_two _ _ _ t t2 (hc t ht).2.2.1 h

/-- Witness of C18 at the example tracker after one frame with one detection. -/
theorem hit_streak_semantics_witness :
    Reachable roundDouble norm1 exampleSettings exampleFrame ∧
    ((∀ (t : Track ℚ) (z : Vector3 ℚ), (t.update z).hitStreak = t.hitStreak + 1) ∧
    (∀ t : Track ℚ, t.predict.1.hitStreak = t.hitStreak) ∧
    (∀ (maxAge maxCM : Int) (t t1 : Track ℚ), cullOne maxAge maxCM t = some t1 →
      t1.hitStreak = t.hitStreak) ∧
    (∀ (minHits : Int) (t : Track ℚ),
      (sweep minHits t).hitStreak = if t.timeSinceUpdate > 1 then 0 else t.hitStreak) ∧
    (∀ t ∈ exampleFrame.tracks, t.timeSinceUpdate > 1 → t.hitStreak = 0) ∧
    (∀ fuel dets tr1, step roundDouble fuel norm1 exampleFrame dets = some tr1 →
      (∀ t1 ∈ tr1.tracks, t1.timeSinceUpdate > 1 → t1.hitStreak = 0) ∧
      ∃ sel : Nat → Option Nat,
        tr1.tracks =
          exampleFrame.tracks.enum.filterMap (fun it =>
            frameOne exampleFrame.maxAge exampleFrame.maxConsecutiveMisses
              exampleFrame.minHits sel dets it.1 it.2) ++
          spawnedTracks sel exampleFrame dets ∧
        ∀ t ∈ exampleFrame.tracks, ∀ (i : Nat) (t1 : Track ℚ),
          frameOne exampleFrame.maxAge exampleFrame.maxConsecutiveMisses
            exampleFrame.minHits sel dets i t = some t1 →
          (sel i ≠ none → t1.timeSinceUpdate = 0 ∧ t1.hitStreak = t.hitStreak + 1) ∧
          (sel i = none → t1.timeSinceUpdate = t.timeSinceUpdate + 1 ∧
            t1.hitStreak = if t.timeSinceUpdate = 0 then t.hitStreak else 0)) ∧
    (∀ t ∈ exampleFrame.tracks, ∀ t2 : Track ℚ,
      missFrames exampleFrame.maxAge exampleFrame.maxConsecutiveMisses exampleFrame.minHits 2 t =
        some t2 →
      t2.hitStreak = 0 ∧ t2.timeSinceUpdate = t.timeSinceUpdate + 2)) :=
  ⟨exampleFrame_reachable roundDouble,
    hit_streak_semantics roundDouble norm1 exampleSettings exampleFrame
      (exampleFrame_reachable roundDouble)⟩


/-- C19 (one miss count). In every tracker reached from a new tracker by whole frames every
live track has `consecutiveMisses = timeSinceUpdate`. Hence a track that a frame leaves
unassigned is removed in it exactly when the incremented common count exceeds
`min maxAge maxConsecutiveMisses`, and the tracks after a frame are the former tracks, each
updated or passed through that single test, followed by the spawned tracks. -/
theorem miss_counters_agree (rnd : K → K) (norm : Vector3 K → K)
    (settings : TrackSettings K) (tr : Tracker K) (hr : Reachable rnd norm settings tr) :
    (∀ t ∈ tr.tracks, t.consecutiveMisses = t.timeSinceUpdate) ∧
    (∀ t ∈ tr.tracks,
      (missFrame tr.maxAge tr.maxConsecutiveMisses tr.minHits t = none ↔
        min tr.maxAge tr.maxConsecutiveMisses < t.timeSinceUpdate + 1)) ∧
    (∀ fuel dets tr1, step rnd fuel norm tr dets = some tr1 →
      ∃ sel : Nat → Option Nat,
        tr1.tracks =
          tr.tracks.enum.filterMap (fun it =>
            match sel it.1 with
            | some j => some (sweep tr.minHits (it.2.predict.1.update (dets.getD j 0)))
            | none =>
              if min tr.maxAge tr.maxConsecutiveMisses < it.2.timeSinceUpdate + 1 then none
              else some (sweep tr.minHits
                { it.2.predict.1 with timeSinceUpdate := it.2.timeSinceUpdate + 1 })) ++
          spawnedTracks sel tr dets) := by
  have hc := counters_reachable norm settings tr hr
  have hiff : ∀ t ∈ tr.tracks,
      ((t.timeSinceUpdate + 1 > tr.maxAge ∨
        t.consecutiveMisses + 1 > tr.maxConsecutiveMisses) ↔
        min tr.maxAge tr.maxConsecutiveMisses < t.timeSinceUpdate + 1) := by
    intro t ht
    rw [(hc t ht).2.1, min_lt_iff]
  refine ⟨fun t ht => (hc t ht).2.1, ?_, ?_⟩
  · intro t ht
    rw [missFrame_none, hiff t ht]
  · intro fuel dets tr1 hstep
    obtain ⟨sel, _, rfl⟩ := step_some norm tr tr1 dets fuel hstep
    refine ⟨sel, ?_⟩
    rw [stepSpec_tracks]
    congr 1
    apply List.filterMap_congr
    intro it hit
    have hmem : it.2 ∈ tr.tracks := by
      have := List.mem_enum_iff_getElem?.mp hit
      obtain ⟨hlt, he⟩ := List.getElem?_eq_some.mp this
      exact he ▸ List.getElem_mem hlt
    rcases Option.eq_none_or_eq_some (sel it.1) with h | ⟨j, h⟩
    · simp only [h]
      rw [missFrame_eq]
      by_cases hd : it.2.timeSinceUpdate + 1 > tr.maxAge ∨
          it.2.consecutiveMisses + 1 > tr.maxConsecutiveMisses
      · rw [if_pos hd, if_pos ((hiff it.2 hmem).mp hd)]
      · rw [if_neg hd, if_neg (fun e => hd ((hiff it.2 hmem).mpr e))]
    · simp only [h]

/-- Witness of C19 at the example tracker after one frame with one detection. -/
theorem miss_counters_agree_witness :
    Reachable roundDouble norm1 exampleSettings exampleFrame ∧
    ((∀ t ∈ exampleFrame.tracks, t.consecutiveMisses = t.timeSinceUpdate) ∧
    (∀ t ∈ exampleFrame.tracks,
      (missFrame exampleFrame.maxAge exampleFrame.maxConsecutiveMisses exampleFrame.minHits t =
          none ↔
        min exampleFrame.maxAge exampleFrame.maxConsecutiveMisses < t.timeSinceUpdate + 1)) ∧
    (∀ fuel dets tr1, step roundDouble fuel norm1 exampleFrame dets = some tr1 →
      ∃ sel : Nat → Option Nat,
        tr1.tracks =
          exampleFrame.tracks.enum.filterMap (fun it =>
            match sel it.1 with
            | some j =>
              some (sweep exampleFrame.minHits (it.2.predict.1.update (dets.getD j 0)))
            | none =>
              if min exampleFrame.maxAge exampleFrame.maxConsecutiveMisses <
                  it.2.timeSinceUpdate + 1 then none
              else some (sweep exampleFrame.minHits
                { it.2.predict.1 with timeSinceUpdate := it.2.timeSinceUpdate + 1 })) ++
          spawnedTracks sel exampleFrame dets)) :=
  ⟨exampleFrame_reachable roundDouble,
    miss_counters_agree roundDouble norm1 exampleSettings exampleFrame
      (exampleFrame_reachable roundDouble)⟩


/-! ## Tracks reached from the constructor by `predict` and `update` calls -/

theorem runOps_cons (t : Track K) (op : TrackOp K) (ops : List (TrackOp K)) :
    runOps t (op :: ops) = runOps (applyOp t op) ops := rfl

/-- An invariant of single calls is an invariant of sequences of calls. -/
theorem runOps_induction (Q : Track K → Prop)
    (hp : ∀ t : Track K, Q t → Q t.predict.1)
    (hu : ∀ (t : Track K) (z : Vector3 K), Q t → Q (t.update z)) :
    ∀ (ops : List (TrackOp K)) (t : Track K), Q t → Q (runOps t ops) := by
  intro ops
  induction ops with
  | nil => intro t h; exact h
  | cons op ops ih =>
    intro t h
    rw [runOps_cons]
    apply ih
    cases op with
    | predict => exact hp t h
    | update z => exact hu t z h

theorem history_update (ms : List (Vector3 K)) (z : Vector3 K) (hne : ms ≠ []) :
    (if (ms.drop (ms.length - 5) ++ [z]).length > 5 then (ms.drop (ms.length - 5) ++ [z]).tail
      else ms.drop (ms.length - 5) ++ [z]) =
      (ms ++ [z]).drop ((ms ++ [z]).length - 5) := by
  have hlen : 0 < ms.length := List.length_pos.mpr hne
  by_cases h5 : 5 ≤ ms.length
  · have hl : (ms.drop (ms.length - 5) ++ [z]).length > 5 := by
      rw [List.length_append, List.length_drop, List.length_singleton]
      omega
    rw [if_pos hl, List.length_append, List.length_singleton]
    have e : ms.length + 1 - 5 = (ms.length - 5) + 1 := by omega
    rw [e, List.drop_append_of_le_length (by omega), ← List.drop_drop, List.drop_one,
      List.tail_append_of_ne_nil]
    intro hnil
    have := congrArg List.length hnil
    rw [List.length_drop, List.length_nil] at this
    omega
  · have hl : ¬ (ms.drop (ms.length - 5) ++ [z]).length > 5 := by
      rw [List.length_append, List.length_drop, List.length_singleton]
      omega
    rw [if_neg hl, List.length_append, List.length_singleton]
    have e1 : ms.length - 5 = 0 := by omega
    have e2 : ms.length + 1 - 5 = 0 := by omega
    rw [e1, e2, List.drop_zero, List.drop_zero]

theorem history_runOps :
    ∀ (ops : List (TrackOp K)) (t : Track K) (ms : List (Vector3 K)), ms ≠ [] →
      t.positionHistory = ms.drop (ms.length - 5) → t.hits = (ms.length : Int) →
      (runOps t ops).positionHistory =
          (ms ++ measurements ops).drop ((ms ++ measurements ops).length - 5) ∧
        (runOps t ops).hits = ((ms ++ measurements ops).length : Int) := by
  intro ops
  induction ops with
  | nil =>
    intro t ms _ h1 h2
    simp only [measurements, List.append_nil]
    exact ⟨h1, h2⟩
  | cons op ops ih =>
    intro t ms hne h1 h2
    rw [runOps_cons]
    cases op with
    | predict => exact ih t.predict.1 ms hne h1 h2
    | update z =>
      have e : ms ++ measurements (TrackOp.update z :: ops) =
          (ms ++ [z]) ++ measurements ops := by
        simp [measurements]
      rw [e]
      apply ih (t.update z) (ms ++ [z]) (by simp)
      · show (if (t.positionHistory ++ [z]).length > 5 then (t.positionHistory ++ [z]).tail
          else t.positionHistory ++ [z]) = _
        rw [h1]
        exact history_update ms z hne
      · show t.hits + 1 = _
        rw [h2]
        simp


/-- C12 (position history and smoothing). For the track built by the constructor at
`initialPosition` and then subjected to any sequence `ops` of `predict` and `update` calls,
let `ms` be the initial position followed by the measurements of the `update` calls, in
order. Then `hits` is the length of `ms`, `positionHistory` is exactly the last
`min hits 5` entries of `ms` in their order, so its length is between 1 and 5, and
`getSmoothedPosition` is the arithmetic mean of `positionHistory`; and `predict` never
changes `positionHistory`. -/
theorem position_history (id : Int) (initialPosition initialVelocity initialAcceleration :
    Vector3 K) (settings : TrackSettings K) (ops : List (TrackOp K)) :
    (runOps (Track.new id initialPosition initialVelocity initialAcceleration settings)
        ops).hits = (((initialPosition :: measurements ops).length : Nat) : Int) ∧
    (runOps (Track.new id initialPosition initialVelocity initialAcceleration settings)
        ops).positionHistory =
      (initialPosition :: measurements ops).drop
        ((initialPosition :: measurements ops).length -
          min (initialPosition :: measurements ops).length 5) ∧
    (runOps (Track.new id initialPosition initialVelocity initialAcceleration settings)
        ops).positionHistory.length = min (initialPosition :: measurements ops).length 5 ∧
    1 ≤ (runOps (Track.new id initialPosition initialVelocity initialAcceleration settings)
        ops).positionHistory.length ∧
    (runOps (Track.new id initialPosition initialVelocity initialAcceleration settings)
        ops).positionHistory.length ≤ 5 ∧
    (∀ i : Fin 3,
      (runOps (Track.new id initialPosition initialVelocity initialAcceleration settings)
          ops).getSmoothedPosition i =
        ((runOps (Track.new id initialPosition initialVelocity initialAcceleration settings)
          ops).positionHistory.map fun pos => pos i).sum /
        ((runOps (Track.new id initialPosition initialVelocity initialAcceleration settings)
          ops).positionHistory.length : K)) ∧
    (∀ t : Track K, t.predict.1.positionHistory = t.positionHistory) := by
  obtain ⟨h1, h2⟩ := history_runOps ops
    (Track.new id initialPosition initialVelocity initialAcceleration settings)
    [initialPosition] (by simp) rfl rfl
  rw [List.singleton_append] at h1 h2
  have hlen : 1 ≤ (initialPosition :: measurements ops).length := by simp
  have hsub : (initialPosition :: measurements ops).length -
      min (initialPosition :: measurements ops).length 5 =
      (initialPosition :: measurements ops).length - 5 := by omega
  have hl : (runOps (Track.new id initialPosition initialVelocity initialAcceleration settings)
      ops).positionHistory.length = min (initialPosition :: measurements ops).length 5 := by
    rw [h1, List.length_drop]
    omega
  refine ⟨h2, by rw [hsub]; exact h1, hl, by omega, by omega, ?_, fun _ => rfl⟩
  intro i
  rw [smoothed_apply, if_neg]
  intro hnil
  rw [hnil] at hl
  simp only [List.length_nil] at hl
  omega


theorem sum_fin9 (f : Fin 9 → K) :
    ∑ i, f i = f 0 + f 1 + f 2 + f 3 + f 4 + f 5 + f 6 + f 7 + f 8 := by
  rw [Fin.sum_univ_succ, Fin.sum_univ_eight]
  simp only [add_assoc]
  rfl

theorem idx_0 : idx 0 = (0, 0) := rfl
theorem idx_1 : idx 1 = (0, 1) := rfl
theorem idx_2 : idx 2 = (0, 2) := rfl
theorem idx_3 : idx 3 = (1, 0) := rfl
theorem idx_4 : idx 4 = (1, 1) := rfl
theorem idx_5 : idx 5 = (1, 2) := rfl
theorem idx_6 : idx 6 = (2, 0) := rfl
theorem idx_7 : idx 7 = (2, 1) := rfl
theorem idx_8 : idx 8 = (2, 2) := rfl

theorem idx_posIndex (i : Fin 3) : idx (posIndex i) = (0, i) := by
  fin_cases i <;> rfl

theorem idx_velIndex (i : Fin 3) : idx (velIndex i) = (1, i) := by
  fin_cases i <;> rfl

theorem idx_accIndex (i : Fin 3) : idx (accIndex i) = (2, i) := by
  fin_cases i <;> rfl

theorem lift_apply (M : Matrix (Fin 3) (Fin 3) K) (i j : Fin 9) :
    lift M i j = if (idx i).2 = (idx j).2 then M (idx i).1 (idx j).1 else 0 := by
  unfold lift
  rw [Matrix.submatrix_apply, Matrix.kroneckerMap_apply, Matrix.one_apply]
  split <;> simp

theorem lift_mul (A B : Matrix (Fin 3) (Fin 3) K) : lift A * lift B = lift (A * B) := by
  unfold lift
  have := Matrix.mul_kronecker_mul A B (1 : Matrix (Fin 3) (Fin 3) K)
    (1 : Matrix (Fin 3) (Fin 3) K)
  rw [mul_one] at this
  rw [Matrix.submatrix_mul_equiv, ← this]

theorem lift_one : lift (1 : Matrix (Fin 3) (Fin 3) K) = 1 := by
  unfold lift
  have : Matrix.kroneckerMap (fun a b => a * b) (1 : Matrix (Fin 3) (Fin 3) K)
      (1 : Matrix (Fin 3) (Fin 3) K) = 1 := Matrix.one_kronecker_one
  rw [this, Matrix.submatrix_one_equiv]

theorem lift_transpose (A : Matrix (Fin 3) (Fin 3) K) :
    (lift A).transpose = lift A.transpose := by
  ext i j
  rw [Matrix.transpose_apply, lift_apply, lift_apply, Matrix.transpose_apply]
  by_cases h : (idx i).2 = (idx j).2
  · rw [if_pos h, if_pos h.symm]
  · rw [if_neg h, if_neg (fun e => h e.symm)]

theorem lift_add (A B : Matrix (Fin 3) (Fin 3) K) : lift A + lift B = lift (A + B) := by
  ext i j
  simp only [lift_apply, Matrix.add_apply]
  split <;> simp

theorem lift_sub (A B : Matrix (Fin 3) (Fin 3) K) : lift A - lift B = lift (A - B) := by
  ext i j
  simp only [lift_apply, Matrix.sub_apply]
  split <;> simp

theorem lift_smul (c : K) (A : Matrix (Fin 3) (Fin 3) K) : c • lift A = lift (c • A) := by
  ext i j
  simp only [lift_apply, Matrix.smul_apply]
  split <;> simp

theorem transition_lift : (transitionMatrix : Matrix (Fin 9) (Fin 9) K) = lift transition3 := by
  ext i j
  fin_cases i <;> fin_cases j <;>
    simp [transitionMatrix, setCoeff, lift_apply, transition3, Function.update_apply,
      Matrix.one_apply, idx_0, idx_1, idx_2, idx_3, idx_4, idx_5, idx_6, idx_7, idx_8,
      Matrix.vecHead, Matrix.vecTail]

theorem measurement_mul {n : Nat} (A : Matrix (Fin 9) (Fin n) K) :
    measurementMatrix * A = A.submatrix posIndex id := by
  ext i j
  fin_cases i <;>
    simp [measurementMatrix, setCoeff, Matrix.mul_apply, sum_fin9,
      Function.update_apply, posIndex]

theorem mul_measurement_transpose {n : Nat} (A : Matrix (Fin n) (Fin 9) K) :
    A * (measurementMatrix : Matrix (Fin 3) (Fin 9) K).transpose =
      A.submatrix id posIndex := by
  ext i j
  fin_cases j <;>
    simp [measurementMatrix, setCoeff, Matrix.mul_apply, sum_fin9,
      Function.update_apply, posIndex]

theorem measurement_mulVec (x : Fin 9 → K) :
    (measurementMatrix : Matrix (Fin 3) (Fin 9) K).mulVec x = fun i => x (posIndex i) := by
  funext i
  fin_cases i <;>
    simp [measurementMatrix, setCoeff, Matrix.mulVec, Matrix.dotProduct, sum_fin9,
      Function.update_apply, posIndex]

theorem measurement_gram :
    (measurementMatrix : Matrix (Fin 3) (Fin 9) K).transpose * measurementMatrix =
      lift corner3 := by
  ext i j
  fin_cases i <;> fin_cases j <;>
    simp [measurementMatrix, setCoeff, Matrix.mul_apply, Fin.sum_univ_three, lift_apply,
      corner3, Function.update_apply, idx_0, idx_1, idx_2, idx_3, idx_4, idx_5, idx_6, idx_7,
      idx_8, Matrix.vecHead, Matrix.vecTail]


theorem form_conj {n : Nat} (A M : Matrix (Fin n) (Fin n) K) (y : Fin n → K) :
    Matrix.dotProduct y ((A * M * A.transpose).mulVec y) =
      Matrix.dotProduct (A.transpose.mulVec y) (M.mulVec (A.transpose.mulVec y)) := by
  rw [← Matrix.mulVec_mulVec, ← Matrix.mulVec_mulVec, Matrix.dotProduct_mulVec,
    ← Matrix.mulVec_transpose]

theorem psd_conj {n : Nat} (A M : Matrix (Fin n) (Fin n) K) (h : IsPosSemidef M) :
    IsPosSemidef (A * M * A.transpose) := by
  constructor
  · unfold Matrix.IsSymm
    rw [Matrix.transpose_mul, Matrix.transpose_mul, Matrix.transpose_transpose, h.1.eq,
      Matrix.mul_assoc]
  · intro y
    rw [form_conj]
    exact h.2 _

theorem psd_add {n : Nat} (A B : Matrix (Fin n) (Fin n) K) (hA : IsPosSemidef A)
    (hB : IsPosSemidef B) : IsPosSemidef (A + B) := by
  constructor
  · exact hA.1.add hB.1
  · intro y
    rw [Matrix.add_mulVec, Matrix.dotProduct_add]
    exact add_nonneg (hA.2 y) (hB.2 y)

theorem form_smul_one {n : Nat} (c : K) (y : Fin n → K) :
    Matrix.dotProduct y ((c • (1 : Matrix (Fin n) (Fin n) K)).mulVec y) =
      c * Matrix.dotProduct y y := by
  rw [Matrix.smul_mulVec_assoc, Matrix.one_mulVec, Matrix.dotProduct_smul, smul_eq_mul]

theorem dot_self_nonneg {n : Nat} (y : Fin n → K) : 0 ≤ Matrix.dotProduct y y := by
  unfold Matrix.dotProduct
  exact Finset.sum_nonneg (fun i _ => mul_self_nonneg (y i))

theorem symm_smul_one {n : Nat} (c : K) : (c • (1 : Matrix (Fin n) (Fin n) K)).IsSymm := by
  unfold Matrix.IsSymm
  rw [Matrix.transpose_smul, Matrix.transpose_one]

theorem psd_smul_one {n : Nat} (c : K) (hc : 0 ≤ c) :
    IsPosSemidef (c • (1 : Matrix (Fin n) (Fin n) K)) := by
  refine ⟨symm_smul_one c, fun y => ?_⟩
  rw [form_smul_one]
  exact mul_nonneg hc (dot_self_nonneg y)

theorem pd_smul_one {n : Nat} (c : K) (hc : 0 < c) :
    IsPosDef (c • (1 : Matrix (Fin n) (Fin n) K)) := by
  refine ⟨symm_smul_one c, fun y hy => ?_⟩
  rw [form_smul_one]
  apply mul_pos hc
  rcases lt_or_eq_of_le (dot_self_nonneg y) with h | h
  · exact h
  · exact absurd (Matrix.dotProduct_self_eq_zero.mp h.symm) hy

theorem psd_diag {n : Nat} (M : Matrix (Fin n) (Fin n) K) (h : IsPosSemidef M) (i : Fin n) :
    0 ≤ M i i := by
  have := h.2 (Pi.single i 1)
  rw [Matrix.mulVec_single_one, Matrix.single_dotProduct, one_mul] at this
  exact this

theorem inverse_smul_one (s : K) (hs : s ≠ 0) :
    inverse (s • (1 : Matrix (Fin 3) (Fin 3) K)) = s⁻¹ • (1 : Matrix (Fin 3) (Fin 3) K) := by
  unfold inverse
  rw [Matrix.det_smul, Matrix.det_one, Matrix.adjugate_smul, Matrix.adjugate_one, smul_smul]
  congr 1
  simp only [Fintype.card_fin, mul_one]
  field_simp
  ring


theorem form_lift (M : Matrix (Fin 3) (Fin 3) K) (x : Fin 9 → K) :
    Matrix.dotProduct x ((lift M).mulVec x) =
      Matrix.dotProduct ![x 0, x 3, x 6] (M.mulVec ![x 0, x 3, x 6]) +
      Matrix.dotProduct ![x 1, x 4, x 7] (M.mulVec ![x 1, x 4, x 7]) +
      Matrix.dotProduct ![x 2, x 5, x 8] (M.mulVec ![x 2, x 5, x 8]) := by
  simp only [Matrix.dotProduct, Matrix.mulVec, sum_fin9, Fin.sum_univ_three, lift_apply,
    idx_0, idx_1, idx_2, idx_3, idx_4, idx_5, idx_6, idx_7, idx_8]
  simp
  ring

theorem psd_lift (M : Matrix (Fin 3) (Fin 3) K) (h : IsPosSemidef M) :
    IsPosSemidef (lift M) := by
  constructor
  · unfold Matrix.IsSymm
    rw [lift_transpose, h.1.eq]
  · intro x
    rw [form_lift]
    exact add_nonneg (add_nonneg (h.2 _) (h.2 _)) (h.2 _)

theorem predict3 (M : Matrix (Fin 3) (Fin 3) K) (q : K) (h : IsPosSemidef M) (hq : 0 < q) :
    IsPosSemidef (predictCov3 M q) ∧ 0 < predictCov3 M q 0 0 := by
  have h1 := psd_conj transition3 M h
  refine ⟨psd_add _ _ h1 (psd_smul_one q (le_of_lt hq)), ?_⟩
  unfold predictCov3
  rw [Matrix.add_apply, Matrix.smul_apply, Matrix.one_apply_eq, smul_eq_mul, mul_one]
  have := psd_diag _ h1 0
  linarith

theorem update3_apply (M : Matrix (Fin 3) (Fin 3) K) (r : K) (a b : Fin 3) :
    updateCov3 M r a b = M a b - (M 0 0 + r)⁻¹ * M a 0 * M 0 b := by
  unfold updateCov3
  rw [Matrix.sub_mul, Matrix.one_mul, Matrix.sub_apply, Matrix.smul_mul, Matrix.smul_apply,
    smul_eq_mul, Matrix.mul_assoc, Matrix.mul_apply, Fin.sum_univ_three]
  simp [Matrix.mul_apply, Fin.sum_univ_three, corner3, Matrix.vecHead, Matrix.vecTail]
  ring

theorem update3 (M : Matrix (Fin 3) (Fin 3) K) (r : K) (h : IsPosSemidef M) (hpos : 0 < M 0 0)
    (hr : 0 < r) : IsPosSemidef (updateCov3 M r) ∧ 0 < updateCov3 M r 0 0 := by
  have hs : 0 < M 0 0 + r := by linarith
  have h01 : M 1 0 = M 0 1 := h.1.apply 0 1
  have h02 : M 2 0 = M 0 2 := h.1.apply 0 2
  have h12 : M 2 1 = M 1 2 := h.1.apply 1 2
  refine ⟨⟨?_, ?_⟩, ?_⟩
  · ext a b
    rw [Matrix.transpose_apply, update3_apply, update3_apply, h.1.apply a b,
      h.1.apply 0 b, ← h.1.apply 0 a]
    ring
  · intro y
    have key := h.2 (fun a => y a - ((M 0 0 * y 0 + M 0 1 * y 1 + M 0 2 * y 2) / M 0 0) *
      (if a = 0 then 1 else 0))
    have e1 : Matrix.dotProduct y ((updateCov3 M r).mulVec y) =
        Matrix.dotProduct y (M.mulVec y) -
          (M 0 0 * y 0 + M 0 1 * y 1 + M 0 2 * y 2) ^ 2 / (M 0 0 + r) := by
      simp only [Matrix.dotProduct, Matrix.mulVec, Fin.sum_univ_three, update3_apply, h01, h02,
        h12]
      field_simp
      ring
    have e2 : Matrix.dotProduct
        (fun a => y a - ((M 0 0 * y 0 + M 0 1 * y 1 + M 0 2 * y 2) / M 0 0) *
          (if a = 0 then 1 else 0))
        (M.mulVec (fun a => y a - ((M 0 0 * y 0 + M 0 1 * y 1 + M 0 2 * y 2) / M 0 0) *
          (if a = 0 then 1 else 0))) =
        Matrix.dotProduct y (M.mulVec y) -
          (M 0 0 * y 0 + M 0 1 * y 1 + M 0 2 * y 2) ^ 2 / M 0 0 := by
      simp only [Matrix.dotProduct, Matrix.mulVec, Fin.sum_univ_three, h01, h02, h12]
      simp
      field_simp
      ring
    rw [e2] at key
    rw [e1]
    have hle : (M 0 0 * y 0 + M 0 1 * y 1 + M 0 2 * y 2) ^ 2 / (M 0 0 + r) ≤
        (M 0 0 * y 0 + M 0 1 * y 1 + M 0 2 * y 2) ^ 2 / M 0 0 := by
      apply div_le_div_of_nonneg_left (sq_nonneg _) hpos
      linarith
    linarith
  · rw [update3_apply]
    have e : M 0 0 - (M 0 0 + r)⁻¹ * M 0 0 * M 0 0 = M 0 0 * r / (M 0 0 + r) := by
      field_simp
      ring
    rw [e]
    exact div_pos (mul_pos hpos hr) hs


theorem filterInv_init (settings : TrackSettings K) (hc : 0 < settings.covariance)
    (p v a : Vector3 K) :
    FilterInv settings (initializeKalmanFilter KalmanFilter.init p v a settings)
      (settings.covariance • (1 : Matrix (Fin 3) (Fin 3) K)) := by
  refine ⟨rfl, rfl, rfl, rfl, ?_, psd_smul_one _ (le_of_lt hc), ?_⟩
  · show settings.covariance • (1 : Matrix (Fin 9) (Fin 9) K) = _
    rw [← lift_smul, lift_one]
  · rw [Matrix.smul_apply, Matrix.one_apply_eq, smul_eq_mul, mul_one]
    exact hc

theorem filterInv_predict (settings : TrackSettings K) (hq : 0 < settings.processNoise)
    (kf : KalmanFilter K) (M : Matrix (Fin 3) (Fin 3) K) (h : FilterInv settings kf M) :
    FilterInv settings kf.predict (predictCov3 M settings.processNoise) := by
  obtain ⟨h1, h2⟩ := predict3 M settings.processNoise h.psd hq
  refine ⟨h.F_eq, h.H_eq, h.Q_eq, h.R_eq, ?_, h1, h2⟩
  show kf.F * kf.P * kf.F.transpose + kf.Q = _
  rw [h.F_eq, h.P_eq, h.Q_eq, transition_lift, lift_transpose, lift_mul, lift_mul, ← lift_one,
    lift_smul, lift_add]
  rfl

theorem innovation_cov (settings : TrackSettings K) (kf : KalmanFilter K)
    (M : Matrix (Fin 3) (Fin 3) K) (h : FilterInv settings kf M) :
    kf.H * kf.P * kf.H.transpose + kf.R =
      (M 0 0 + settings.measurementNoise) • (1 : Matrix (Fin 3) (Fin 3) K) := by
  rw [h.H_eq, h.P_eq, h.R_eq, measurement_mul, mul_measurement_transpose, add_smul]
  congr 1
  ext i j
  simp only [Matrix.submatrix_apply, id_eq, lift_apply, idx_posIndex, Matrix.smul_apply,
    Matrix.one_apply, smul_eq_mul]
  split <;> simp

theorem update_gain (settings : TrackSettings K) (hr : 0 < settings.measurementNoise)
    (kf : KalmanFilter K) (M : Matrix (Fin 3) (Fin 3) K) (h : FilterInv settings kf M) :
    kf.P * kf.H.transpose * inverse (kf.H * kf.P * kf.H.transpose + kf.R) =
      (M 0 0 + settings.measurementNoise)⁻¹ • (lift M * measurementMatrix.transpose) := by
  have hs : M 0 0 + settings.measurementNoise ≠ 0 := by
    have := h.pos
    intro e
    linarith
  rw [innovation_cov settings kf M h, inverse_smul_one _ hs, h.P_eq, h.H_eq, Matrix.mul_smul,
    Matrix.mul_one]

theorem filterInv_update (settings : TrackSettings K) (hr : 0 < settings.measurementNoise)
    (kf : KalmanFilter K) (M : Matrix (Fin 3) (Fin 3) K) (h : FilterInv settings kf M)
    (z : Fin 3 → K) :
    FilterInv settings (kf.update z) (updateCov3 M settings.measurementNoise) := by
  obtain ⟨h1, h2⟩ := update3 M settings.measurementNoise h.psd h.pos hr
  refine ⟨h.F_eq, h.H_eq, h.Q_eq, h.R_eq, ?_, h1, h2⟩
  show (1 - kf.P * kf.H.transpose * inverse (kf.H * kf.P * kf.H.transpose + kf.R) * kf.H) *
    kf.P = _
  rw [update_gain settings hr kf M h, h.P_eq, h.H_eq, Matrix.smul_mul, Matrix.mul_assoc,
    measurement_gram, lift_mul, lift_smul, ← lift_one, lift_sub, lift_mul]
  rfl

theorem update_state (settings : TrackSettings K) (hr : 0 < settings.measurementNoise)
    (kf : KalmanFilter K) (M : Matrix (Fin 3) (Fin 3) K) (h : FilterInv settings kf M)
    (z : Fin 3 → K) (k : Fin 9) :
    (kf.update z).x k =
      kf.x k + M (idx k).1 0 / (M 0 0 + settings.measurementNoise) *
        (z (idx k).2 - kf.x (posIndex (idx k).2)) := by
  show (kf.x + (kf.P * kf.H.transpose * inverse (kf.H * kf.P * kf.H.transpose + kf.R)).mulVec
    (z - kf.H.mulVec kf.x)) k = _
  rw [update_gain settings hr kf M h, h.H_eq, measurement_mulVec, mul_measurement_transpose,
    Pi.add_apply]
  congr 1
  simp only [Matrix.mulVec, Matrix.dotProduct, Matrix.smul_apply, Matrix.submatrix_apply, id_eq,
    lift_apply, idx_posIndex, smul_eq_mul, Pi.sub_apply]
  rw [Finset.sum_eq_single (idx k).2]
  · rw [if_pos rfl]
    field_simp
  · intro j _ hj
    rw [if_neg (fun e => hj e.symm)]
    simp
  · intro hn
    exact absurd (Finset.mem_univ _) hn

theorem filterInv_runOps (settings : TrackSettings K) (hr : 0 < settings.measurementNoise)
    (hq : 0 < settings.processNoise) (hc : 0 < settings.covariance) (id : Int)
    (p v a : Vector3 K) (ops : List (TrackOp K)) :
    ∃ M, FilterInv settings (runOps (Track.new id p v a settings) ops).kalmanFilter M := by
  refine runOps_induction (fun t => ∃ M, FilterInv settings t.kalmanFilter M) ?_ ?_ ops _ ?_
  · rintro t ⟨M, h⟩
    exact ⟨_, filterInv_predict settings hq t.kalmanFilter M h⟩
  · rintro t z ⟨M, h⟩
    exact ⟨_, filterInv_update settings hr t.kalmanFilter M h _⟩
  · exact ⟨_, filterInv_init settings hc p v a⟩


/-- C14 (invertible innovation covariance). For settings with positive `measurementNoise`,
`processNoise` and `covariance`, in every track state reached from the constructor by a
sequence of `predict` and `update` calls the covariance `P` is symmetric positive
semidefinite and the innovation covariance `S = H P H^T + R` is symmetric positive definite;
its determinant is not zero and the matrix computed by `S.inverse()` is its two-sided
inverse. -/
theorem innovation_invertible (settings : TrackSettings K)
    (hr : 0 < settings.measurementNoise) (hq : 0 < settings.processNoise)
    (hc : 0 < settings.covariance) (id : Int)
    (initialPosition initialVelocity initialAcceleration : Vector3 K)
    (ops : List (TrackOp K)) (kf : KalmanFilter K)
    (hkf : kf = (runOps (Track.new id initialPosition initialVelocity initialAcceleration
      settings) ops).kalmanFilter) :
    IsPosSemidef kf.P ∧
    IsPosDef (kf.H * kf.P * kf.H.transpose + kf.R) ∧
    (kf.H * kf.P * kf.H.transpose + kf.R).det ≠ 0 ∧
    inverse (kf.H * kf.P * kf.H.transpose + kf.R) * (kf.H * kf.P * kf.H.transpose + kf.R) = 1 ∧
    (kf.H * kf.P * kf.H.transpose + kf.R) * inverse (kf.H * kf.P * kf.H.transpose + kf.R) = 1 := by
  obtain ⟨M, h⟩ := filterInv_runOps settings hr hq hc id initialPosition initialVelocity
    initialAcceleration ops
  rw [← hkf] at h
  have hs : 0 < M 0 0 + settings.measurementNoise := by
    have := h.pos
    linarith
  have hne : M 0 0 + settings.measurementNoise ≠ 0 := ne_of_gt hs
  rw [innovation_cov settings kf M h, inverse_smul_one _ hne]
  refine ⟨?_, pd_smul_one _ hs, ?_, ?_, ?_⟩
  · rw [h.P_eq]
    exact psd_lift M h.psd
  · rw [Matrix.det_smul, Matrix.det_one, mul_one]
    exact pow_ne_zero _ hne
  · rw [Matrix.smul_mul, Matrix.one_mul, smul_smul, inv_mul_cancel₀ hne, one_smul]
  · rw [Matrix.mul_smul, Matrix.mul_one, smul_smul, inv_mul_cancel₀ hne, one_smul]

/-- Witness of C14: the example settings and the track built at the origin, after one
`predict` and one `update`. -/
theorem innovation_invertible_witness :
    (0 < exampleSettings.measurementNoise ∧ 0 < exampleSettings.processNoise ∧
      0 < exampleSettings.covariance ∧
      (runOps (Track.new 0 ![0, 0, 0] 0 0 exampleSettings)
          [TrackOp.predict, TrackOp.update ![1, 0, 0]]).kalmanFilter =
        (runOps (Track.new 0 ![0, 0, 0] 0 0 exampleSettings)
          [TrackOp.predict, TrackOp.update ![1, 0, 0]]).kalmanFilter) ∧
    IsPosSemidef (runOps (Track.new 0 ![0, 0, 0] 0 0 exampleSettings)
      [TrackOp.predict, TrackOp.update ![1, 0, 0]]).kalmanFilter.P :=
  ⟨⟨by norm_num [exampleSettings], by norm_num [exampleSettings],
      by norm_num [exampleSettings], rfl⟩,
    (innovation_invertible exampleSettings (by norm_num [exampleSettings])
      (by norm_num [exampleSettings]) (by norm_num [exampleSettings]) 0 ![0, 0, 0] 0 0
      [TrackOp.predict, TrackOp.update ![1, 0, 0]] _ rfl).1⟩


/-- C20 (gain of the measurement update). For settings with positive `measurementNoise`,
`processNoise` and `covariance`, and a track state reached from the constructor by a
sequence of `predict` and `update` calls, there are gains `g`, `gv`, `ga`, with
`0 < g < 1`, such that for every state vector `x` put in place of the state of the filter
and every measurement `z`, `Track::update` sets, on each axis `i`, the position to
`x_i + g (z_i - x_i)`, the velocity to `v_i + gv (z_i - x_i)` and the acceleration to
`a_i + ga (z_i - x_i)`: the gains are the same on the three axes and depend neither on `z`
nor on the state vector, and an axis of the new state depends only on that axis of the prior
state and of the measurement. -/
theorem update_never_overshoots (settings : TrackSettings K)
    (hr : 0 < settings.measurementNoise) (hq : 0 < settings.processNoise)
    (hc : 0 < settings.covariance) (id : Int)
    (initialPosition initialVelocity initialAcceleration : Vector3 K)
    (ops : List (TrackOp K)) (t : Track K)
    (ht : t = runOps (Track.new id initialPosition initialVelocity initialAcceleration
      settings) ops) :
    ∃ g gv ga : K, 0 < g ∧ g < 1 ∧
      ∀ (x : Fin 9 → K) (z : Vector3 K) (i : Fin 3),
        (Track.update { t with kalmanFilter := { t.kalmanFilter with x := x } }
            z).kalmanFilter.x (posIndex i) =
          x (posIndex i) + g * (z i - x (posIndex i)) ∧
        (Track.update { t with kalmanFilter := { t.kalmanFilter with x := x } }
            z).kalmanFilter.x (velIndex i) =
          x (velIndex i) + gv * (z i - x (posIndex i)) ∧
        (Track.update { t with kalmanFilter := { t.kalmanFilter with x := x } }
            z).kalmanFilter.x (accIndex i) =
          x (accIndex i) + ga * (z i - x (posIndex i)) := by
  obtain ⟨M, h⟩ := filterInv_runOps settings hr hq hc id initialPosition initialVelocity
    initialAcceleration ops
  rw [← ht] at h
  have hs : 0 < M 0 0 + settings.measurementNoise := by
    have := h.pos
    linarith
  refine ⟨M 0 0 / (M 0 0 + settings.measurementNoise),
    M 1 0 / (M 0 0 + settings.measurementNoise),
    M 2 0 / (M 0 0 + settings.measurementNoise), div_pos h.pos hs, ?_, ?_⟩
  · rw [div_lt_one hs]
    linarith
  · intro x z i
    have h' : FilterInv settings { t.kalmanFilter with x := x } M :=
      ⟨h.F_eq, h.H_eq, h.Q_eq, h.R_eq, h.P_eq, h.psd, h.pos⟩
    have hz : (![z 0, z 1, z 2] : Fin 3 → K) i = z i := by
      fin_cases i <;> rfl
    have hu := update_state settings hr { t.kalmanFilter with x := x } M h' ![z 0, z 1, z 2]
    refine ⟨?_, ?_, ?_⟩
    · have := hu (posIndex i)
      rw [idx_posIndex] at this
      simp only [hz] at this
      exact this
    · have := hu (velIndex i)
      rw [idx_velIndex] at this
      simp only [hz] at this
      exact this
    · have := hu (accIndex i)
      rw [idx_accIndex] at this
      simp only [hz] at this
      exact this

/-- Witness of C20: the example settings and the track built at the origin, after one
`predict`. -/
theorem update_never_overshoots_witness :
    (0 < exampleSettings.measurementNoise ∧ 0 < exampleSettings.processNoise ∧
      0 < exampleSettings.covariance ∧
      runOps (Track.new 0 ![0, 0, 0] 0 0 exampleSettings) [TrackOp.predict] =
        runOps (Track.new 0 ![0, 0, 0] 0 0 exampleSettings) [TrackOp.predict]) ∧
    ∃ g gv ga : ℚ, 0 < g ∧ g < 1 ∧
      ∀ (x : Fin 9 → ℚ) (z : Vector3 ℚ) (i : Fin 3),
        (Track.update
          { runOps (Track.new 0 ![0, 0, 0] 0 0 exampleSettings) [TrackOp.predict] with
            kalmanFilter :=
              { (runOps (Track.new 0 ![0, 0, 0] 0 0 exampleSettings)
                  [TrackOp.predict]).kalmanFilter with x := x } }
            z).kalmanFilter.x (posIndex i) =
          x (posIndex i) + g * (z i - x (posIndex i)) ∧
        (Track.update
          { runOps (Track.new 0 ![0, 0, 0] 0 0 exampleSettings) [TrackOp.predict] with
            kalmanFilter :=
              { (runOps (Track.new 0 ![0, 0, 0] 0 0 exampleSettings)
                  [TrackOp.predict]).kalmanFilter with x := x } }
            z).kalmanFilter.x (velIndex i) =
          x (velIndex i) + gv * (z i - x (posIndex i)) ∧
        (Track.update
          { runOps (Track.new 0 ![0, 0, 0] 0 0 exampleSettings) [TrackOp.predict] with
            kalmanFilter :=
              { (runOps (Track.new 0 ![0, 0, 0] 0 0 exampleSettings)
                  [TrackOp.predict]).kalmanFilter with x := x } }
            z).kalmanFilter.x (accIndex i) =
          x (accIndex i) + ga * (z i - x (posIndex i)) :=
  ⟨⟨by norm_num [exampleSettings], by norm_num [exampleSettings],
      by norm_num [exampleSettings], rfl⟩,
    update_never_overshoots exampleSettings (by norm_num [exampleSettings])
      (by norm_num [exampleSettings]) (by norm_num [exampleSettings]) 0 ![0, 0, 0] 0 0
      [TrackOp.predict] _ rfl⟩


/-- Ties on doubles: on the matrices of two rows and three columns, and of three rows and two
columns, with all entries the double `0.1`, the result is the diagonal. -/
theorem ties_double :
    (∀ fuel, 12 ≤ fuel →
      hungarianAlgorithm roundDouble fuel
        (List.replicate 2 (List.replicate 3 (roundDouble (1 / 10)))) = some [0, 1]) ∧
    (∀ fuel, 12 ≤ fuel →
      hungarianAlgorithm roundDouble fuel
        (List.replicate 3 (List.replicate 2 (roundDouble (1 / 10)))) = some [0, 1, -1]) :=
  ⟨fun fuel hfuel => hungarianAlgorithm_mono _ 12 fuel hfuel _ (by decide!),
    fun fuel hfuel => hungarianAlgorithm_mono _ 12 fuel hfuel _ (by decide!)⟩

end TrackTuner
